import Mathlib

/-!
Treap (`treap/treap.go`): a shallow embedding and its verified properties.

The Go program stores nodes on the heap and links them with `Left`, `Right`
and `Parent` pointers.  The embedding keeps that heap explicit: a node lives at
an address (a natural number), a pointer is an `Option Nat` (`none` is `nil`),
and the memory is a function from addresses to nodes together with the number
of nodes allocated so far.  Go's `int` is modelled as an `Int` reduced modulo
`2^64` after every subtraction.  The random priority drawn by `rnd.Intn` is an
explicit argument of `Insert`.  An operation that dereferences `nil` returns
`Fault.nilDeref`; loops and the recursive traversal run for at most as many
steps as there are allocated nodes and return `Fault.outOfFuel` beyond that.
-/

namespace Treap

/-! ## Data model -/

/-- Abnormal endings of an operation. -/
inductive Fault where
  /-- A nil pointer was dereferenced: the Go program panics. -/
  | nilDeref
  /-- The step budget (the number of allocated nodes) was exhausted. -/
  | outOfFuel
  deriving DecidableEq, Repr

/-- Go's `type Node struct`: the key, the priority and the three links. -/
structure Node where
  Value : Int
  Priority : Int
  Left : Option Nat
  Right : Option Nat
  Parent : Option Nat
  deriving DecidableEq, Repr, Inhabited

/-- Go's `type Tree struct` together with the heap that holds its nodes:
`mem a` is the node stored at address `a`, and the addresses in use are
`0, ..., size - 1`.  The random source is replaced by the priority argument of
`Insert`. -/
structure Tree where
  Root : Option Nat
  size : Nat
  mem : Nat → Node

/-- Go's `const maxPriority = math.MaxInt32`. -/
def maxPriority : Int := 2147483647

/-- The values `rnd.Intn(maxPriority)` can return. -/
def validPriority (p : Int) : Prop := 0 ≤ p ∧ p < maxPriority

instance (p : Int) : Decidable (validPriority p) := by
  unfold validPriority; infer_instance

/-- The values of Go's 64-bit `int`. -/
def isInt (x : Int) : Prop := -9223372036854775808 ≤ x ∧ x < 9223372036854775808

instance (x : Int) : Decidable (isInt x) := by
  unfold isInt; infer_instance

/-- Reduction of a mathematical integer to a 64-bit two's complement `int`. -/
def wrap64 (x : Int) : Int :=
  (x + 9223372036854775808) % 18446744073709551616 - 9223372036854775808

/-- Go's `compare` on two `int` operands: `return intA - intB`, with the
wrap-around of machine subtraction. -/
def compare (a b : Int) : Int := wrap64 (a - b)

/-! ## Heap updates -/

/-- Assignment `a.Left = v`. -/
def setLeft (mem : Nat → Node) (a : Nat) (v : Option Nat) : Nat → Node :=
  fun b => if b = a then { mem a with Left := v } else mem b

/-- Assignment `a.Right = v`. -/
def setRight (mem : Nat → Node) (a : Nat) (v : Option Nat) : Nat → Node :=
  fun b => if b = a then { mem a with Right := v } else mem b

/-- Assignment `a.Parent = v`. -/
def setParent (mem : Nat → Node) (a : Nat) (v : Option Nat) : Nat → Node :=
  fun b => if b = a then { mem a with Parent := v } else mem b

/-- Allocation `&Node{Value: value, Priority: priority, Parent: parent}` at the
fresh address `a`. -/
def alloc (mem : Nat → Node) (a : Nat) (value priority : Int) (parent : Option Nat) :
    Nat → Node :=
  fun b => if b = a then
      { Value := value, Priority := priority, Left := none, Right := none, Parent := parent }
    else mem b

/-! ## Operations -/

/-- Go's `NewTree`. -/
def NewTree : Tree := { Root := none, size := 0, mem := fun _ => default }

/-- The loop of `Tree.Get`, started at pointer `root`. -/
def getLoop (mem : Nat → Node) (target : Int) :
    Nat → Option Nat → Except Fault (Option Nat × Bool)
  | _, none => .ok (none, false)
  | 0, some _ => .error .outOfFuel
  | fuel + 1, some root =>
    if compare target (mem root).Value = 0 then .ok (some root, true)
    else if compare target (mem root).Value < 0 then getLoop mem target fuel (mem root).Left
    else getLoop mem target fuel (mem root).Right

/-- Go's `Tree.Get`: the node pointer and the found flag. -/
def Tree.Get (tree : Tree) (target : Int) : Except Fault (Option Nat × Bool) :=
  getLoop tree.mem target tree.size tree.Root

/-- The descent loop of `Tree.naiveInsert` for a non-nil `root`; `fresh` is the
address of the node that will be allocated.  Returns the updated memory. -/
def naiveLoop (mem : Nat → Node) (value priority : Int) (fresh : Nat) :
    Nat → Nat → Except Fault (Nat → Node)
  | 0, _ => .error .outOfFuel
  | fuel + 1, root =>
    if compare value (mem root).Value < 0 then
      match (mem root).Left with
      | none => .ok (setLeft (alloc mem fresh value priority (some root)) root (some fresh))
      | some l => naiveLoop mem value priority fresh fuel l
    else
      match (mem root).Right with
      | none => .ok (setRight (alloc mem fresh value priority (some root)) root (some fresh))
      | some r => naiveLoop mem value priority fresh fuel r

/-- Go's `Tree.naiveInsert`: the updated tree and the address of the inserted
node. -/
def Tree.naiveInsert (tree : Tree) (value priority : Int) : Except Fault (Tree × Nat) :=
  match tree.Root with
  | none =>
    .ok ({ Root := some tree.size, size := tree.size + 1,
           mem := alloc tree.mem tree.size value priority none }, tree.size)
  | some root =>
    match naiveLoop tree.mem value priority tree.size tree.size root with
    | .ok mem => .ok ({ Root := tree.Root, size := tree.size + 1, mem := mem }, tree.size)
    | .error e => .error e

/-- Go's `Node.rightRotate`, statement by statement. -/
def rightRotate (mem : Nat → Node) (node : Nat) : Except Fault (Nat → Node) :=
  let child := (mem node).Left
  let parent := (mem node).Parent
  let mem1 :=
    match parent with
    | some p =>
      if compare (mem node).Value (mem p).Value < 0 then setLeft mem p child
      else if compare (mem node).Value (mem p).Value ≥ 0 then setRight mem p child
      else mem
    | none => mem
  match child with
  | none => .error .nilDeref
  | some c =>
    let mem2 := setParent mem1 c parent
    let mem3 := setLeft mem2 node (mem2 c).Right
    let mem4 :=
      match (mem3 c).Right with
      | some x => setParent mem3 x (some node)
      | none => mem3
    let mem5 := setRight mem4 c (some node)
    .ok (setParent mem5 node (some c))

/-- Go's `Node.leftRotate`, statement by statement. -/
def leftRotate (mem : Nat → Node) (node : Nat) : Except Fault (Nat → Node) :=
  let child := (mem node).Right
  let parent := (mem node).Parent
  let mem1 :=
    match parent with
    | some p =>
      if compare (mem node).Value (mem p).Value < 0 then setLeft mem p child
      else if compare (mem node).Value (mem p).Value ≥ 0 then setRight mem p child
      else mem
    | none => mem
  match child with
  | none => .error .nilDeref
  | some c =>
    let mem2 := setParent mem1 c parent
    let mem3 := setRight mem2 node (mem2 c).Left
    let mem4 :=
      match (mem3 c).Left with
      | some x => setParent mem3 x (some node)
      | none => mem3
    let mem5 := setLeft mem4 c (some node)
    .ok (setParent mem5 node (some c))

/-- The condition of the bubble-up loop of `Tree.Insert`:
`current.Parent != nil && compare(current.Priority, current.Parent.Priority) < 0`. -/
def bubbleCond (mem : Nat → Node) (current : Nat) : Bool :=
  match (mem current).Parent with
  | none => false
  | some parent => decide (compare (mem current).Priority (mem parent).Priority < 0)

/-- The body of the bubble-up loop of `Tree.Insert`. -/
def bubbleStep (mem : Nat → Node) (current : Nat) : Except Fault (Nat → Node) :=
  match (mem current).Parent with
  | none => .error .nilDeref
  | some parent =>
    if (mem parent).Left = some current then rightRotate mem parent
    else leftRotate mem parent

/-- The bubble-up loop of `Tree.Insert`. -/
def bubble (current : Nat) : Nat → (Nat → Node) → Except Fault (Nat → Node)
  | 0, mem => if bubbleCond mem current then .error .outOfFuel else .ok mem
  | fuel + 1, mem =>
    if bubbleCond mem current then
      match bubbleStep mem current with
      | .ok mem1 => bubble current fuel mem1
      | .error e => .error e
    else .ok mem

/-- Go's `Tree.Insert`; `priority` is the value drawn by `rnd.Intn(maxPriority)`
for the new node. -/
def Tree.Insert (tree : Tree) (value priority : Int) : Except Fault Tree :=
  match tree.naiveInsert value priority with
  | .error e => .error e
  | .ok (tree1, current) =>
    match bubble current tree1.size tree1.mem with
    | .error e => .error e
    | .ok mem =>
      .ok { Root := if (mem current).Parent = none then some current else tree1.Root,
            size := tree1.size, mem := mem }

/-- Go's `Node.flatten`: in-order traversal appending node pointers to `arr`;
the fuel bounds the recursion depth. -/
def flatten (mem : Nat → Node) : Nat → Option Nat → List Nat → Except Fault (List Nat)
  | _, none, arr => .ok arr
  | 0, some _, _ => .error .outOfFuel
  | fuel + 1, some node, arr =>
    match flatten mem fuel (mem node).Left arr with
    | .error e => .error e
    | .ok arr1 => flatten mem fuel (mem node).Right (arr1 ++ [node])

/-- Go's `Tree.toSlice`: the node pointers in in-order. -/
def Tree.toSlice (tree : Tree) : Except Fault (List Nat) :=
  flatten tree.mem tree.size tree.Root []

/-- The keys of a slice of node pointers. -/
def keysOf (mem : Nat → Node) (arr : List Nat) : List Int :=
  arr.map (fun a => (mem a).Value)

/-- Successive `Insert`s of the (key, drawn priority) pairs of a list. -/
def insertAll : Tree → List (Int × Int) → Except Fault Tree
  | tree, [] => .ok tree
  | tree, (value, priority) :: rest =>
    match tree.Insert value priority with
    | .ok tree1 => insertAll tree1 rest
    | .error e => .error e

/-- The key sequence of `toSlice` after inserting `kps` into an empty tree. -/
def traversalKeys (kps : List (Int × Int)) : Except Fault (List Int) :=
  match insertAll NewTree kps with
  | .error e => .error e
  | .ok tree =>
    match tree.toSlice with
    | .error e => .error e
    | .ok arr => .ok (keysOf tree.mem arr)

/-- The found flag of `Get(target)` after inserting `kps` into an empty tree. -/
def foundAfter (kps : List (Int × Int)) (target : Int) : Except Fault Bool :=
  match insertAll NewTree kps with
  | .error e => .error e
  | .ok tree =>
    match tree.Get target with
    | .error e => .error e
    | .ok r => .ok r.2

/-! ## Predicates on heaps -/

/-- Address `c` is stored in one of the two child slots of node `p`. -/
def IsChild (mem : Nat → Node) (p c : Nat) : Prop :=
  (mem p).Left = some c ∨ (mem p).Right = some c

/-- Node `a` is reachable from pointer `root` along `Left` and `Right` links. -/
inductive Reachable (mem : Nat → Node) (root : Option Nat) : Nat → Prop where
  | root {a : Nat} : root = some a → Reachable mem root a
  | step {p c : Nat} : Reachable mem root p → IsChild mem p c → Reachable mem root c

/-- The part of the heap invariant that concerns the link structure: links stay
inside the allocated addresses, every child link goes up in the rank `r` and
every parent link goes down, and priorities are values of `rnd.Intn`. -/
structure Ranked (r : Nat → ℚ) (n : Nat) (mem : Nat → Node) : Prop where
  closed : ∀ a, a < n → ∀ c,
    ((mem a).Left = some c ∨ (mem a).Right = some c ∨ (mem a).Parent = some c) → c < n
  childRank : ∀ a, a < n → ∀ c, IsChild mem a c → r a < r c
  parentRank : ∀ a, a < n → ∀ p, (mem a).Parent = some p → r p < r a
  prioValid : ∀ a, a < n → validPriority (mem a).Priority

/-- Invariant of the heap between two operations, for a rank function `r`. -/
structure HeapInv (r : Nat → ℚ) (t : Tree) : Prop where
  ranked : Ranked r t.size t.mem
  heap : ∀ a, a < t.size → ∀ p, (t.mem a).Parent = some p →
    (t.mem p).Priority ≤ (t.mem a).Priority
  rootLt : ∀ ρ, t.Root = some ρ → ρ < t.size
  rootNone : t.Root = none → t.size = 0
  rootParent : ∀ ρ, t.Root = some ρ → (t.mem ρ).Parent = none
  rootUnique : ∀ a, a < t.size → (t.mem a).Parent = none → t.Root = some a
  rootMin : ∀ ρ, t.Root = some ρ → ∀ a, a < t.size →
    (t.mem ρ).Priority ≤ (t.mem a).Priority

/-- Invariant of the bubble-up loop of `Insert`: `cur` is the inserted node and
`ρ` the node `tree.Root` points to. -/
structure BubbleInv (r : Nat → ℚ) (n ρ : Nat) (mem : Nat → Node) (cur : Nat) : Prop where
  ranked : Ranked r n mem
  heapExc : ∀ a, a < n → a ≠ cur → ∀ p, (mem a).Parent = some p →
    (mem p).Priority ≤ (mem a).Priority
  curLt : cur < n
  rootLt : ρ < n
  curSlot : ∀ p, (mem cur).Parent = some p →
    IsChild mem p cur ∧ ¬ ((mem p).Left = some cur ∧ (mem p).Right = some cur)
  curOnly : ∀ a, a < n → IsChild mem a cur → (mem cur).Parent = some a
  curKids : ∀ c, IsChild mem cur c → (mem c).Parent = some cur
  curKidsNe : ∀ c, (mem cur).Left = some c → (mem cur).Right ≠ some c
  curKidsPrio : ∀ c p, IsChild mem cur c → (mem cur).Parent = some p →
    (mem p).Priority ≤ (mem c).Priority
  rootUniqueExc : ∀ a, a < n → a ≠ cur → (mem a).Parent = none → a = ρ
  rootMinExc : ∀ a, a < n → a ≠ cur → (mem ρ).Priority ≤ (mem a).Priority
  curTopMin : (mem cur).Parent = none → ∀ a, a < n → (mem cur).Priority ≤ (mem a).Priority
  curTopOnly : (mem cur).Parent = none → ∀ a, a < n → a ≠ cur → (mem a).Parent ≠ none
  rootParent : (mem cur).Parent ≠ none → (mem ρ).Parent = none

/-- Number of allocated nodes whose rank is at most the rank of the parent of
`cur`: a bound on the rotations the bubble-up loop still performs. -/
def bubbleMeasure (r : Nat → ℚ) (n : Nat) (mem : Nat → Node) (cur : Nat) : Nat :=
  match (mem cur).Parent with
  | none => 0
  | some p => ((Finset.range n).filter (fun m => r m ≤ r p)).card

/-- Number of allocated nodes of rank above the rank of `a`: a bound on the
length of a descent from `a` along child links. -/
def descentMeasure (r : Nat → ℚ) (n : Nat) (a : Nat) : Nat :=
  ((Finset.range n).filter (fun m => r a < r m)).card

/-! ## Trees laid out in the heap -/

/-- The shape of a binary tree whose nodes are heap addresses. -/
inductive Shape where
  | nil : Shape
  | node (l : Shape) (a : Nat) (r : Shape) : Shape

/-- The addresses of a shape in in-order. -/
def Shape.inorder : Shape → List Nat
  | .nil => []
  | .node l a r => l.inorder ++ a :: r.inorder

/-- The height of a shape. -/
def Shape.height : Shape → Nat
  | .nil => 0
  | .node l _ r => max l.height r.height + 1

/-- `Owns mem s ptr par`: in the heap `mem` the pointer `ptr` leads to a subtree
laid out exactly as the shape `s`, every node of which points back to its parent
and whose topmost node has `Parent` pointer `par`. -/
def Owns (mem : Nat → Node) : Shape → Option Nat → Option Nat → Prop
  | .nil, ptr, _ => ptr = none
  | .node l a r, ptr, par =>
    ptr = some a ∧ (mem a).Parent = par ∧
      Owns mem l (mem a).Left (some a) ∧ Owns mem r (mem a).Right (some a)

/-- One step of a path from a node up to the root: the subtree below is the left
child of `a` (whose right subtree is `r`), or the right child of `a` (whose left
subtree is `l`). -/
inductive Frame where
  | inL (a : Nat) (r : Shape) : Frame
  | inR (l : Shape) (a : Nat) : Frame

/-- The node of a frame. -/
def Frame.addr : Frame → Nat
  | .inL a _ => a
  | .inR _ a => a

/-- The tree obtained by putting `s` below a path (innermost frame first). -/
def plug : List Frame → Shape → Shape
  | [], s => s
  | .inL a r :: fs, s => plug fs (.node s a r)
  | .inR l a :: fs, s => plug fs (.node l a s)

/-- The addresses of a path that precede its hole in in-order. -/
def ctxBefore : List Frame → List Nat
  | [] => []
  | .inL _ _ :: fs => ctxBefore fs
  | .inR l a :: fs => ctxBefore fs ++ (l.inorder ++ [a])

/-- The addresses of a path that follow its hole in in-order. -/
def ctxAfter : List Frame → List Nat
  | [] => []
  | .inL a r :: fs => (a :: r.inorder) ++ ctxAfter fs
  | .inR _ _ :: fs => ctxAfter fs

/-- `OwnsCtx mem fs ptr par`: the heap lays out the path `fs` around a hole that
holds the pointer `ptr`, and `par` is the node above the hole (`none` at the root). -/
def OwnsCtx (mem : Nat → Node) : List Frame → Option Nat → Option Nat → Prop
  | [], _, par => par = none
  | .inL a r :: fs, ptr, par =>
    par = some a ∧ (mem a).Left = ptr ∧ Owns mem r (mem a).Right (some a) ∧
      OwnsCtx mem fs (some a) (mem a).Parent
  | .inR l a :: fs, ptr, par =>
    par = some a ∧ (mem a).Right = ptr ∧ Owns mem l (mem a).Left (some a) ∧
      OwnsCtx mem fs (some a) (mem a).Parent

/-- The pointer to the topmost node of a path around a hole holding `ptr`. -/
def ctxTop : List Frame → Option Nat → Option Nat
  | [], ptr => ptr
  | f :: fs, _ => ctxTop fs (some f.addr)

/-- The heap of tree `t` lays out the shape `s` below `Root`, all its nodes are
allocated, and its keys increase strictly in in-order. -/
structure TreeRep (t : Tree) (s : Shape) : Prop where
  owns : Owns t.mem s t.Root none
  sorted : s.inorder.Pairwise (fun x y => (t.mem x).Value < (t.mem y).Value)
  bound : ∀ a ∈ s.inorder, a < t.size

/-- The differences of any two of the keys fit Go's `int`. -/
def DiffsFit (ks : List Int) : Prop :=
  ∀ a ∈ ks, ∀ b ∈ ks, -9223372036854775808 ≤ a - b ∧ a - b < 9223372036854775808

instance (ks : List Int) : Decidable (DiffsFit ks) := by
  unfold DiffsFit; infer_instance

/-- Invariant of the bubble-up loop on a tree with pairwise distinct keys: the
heap lays out the path `fs` from the inserted node `cur` to the root and the
subtree `node l cur r` below it; together they have the in-order `L`. -/
structure ClimbInv (key : Nat → Int) (L : List Nat) (ρ : Nat) (mem : Nat → Node) (cur : Nat)
    (fs : List Frame) (l r : Shape) : Prop where
  keys : ∀ a, (mem a).Value = key a
  ctx : OwnsCtx mem fs (some cur) (mem cur).Parent
  sub : Owns mem (.node l cur r) (some cur) (mem cur).Parent
  order : (plug fs (.node l cur r)).inorder = L
  top : fs ≠ [] → ctxTop fs (some cur) = some ρ

/-! ## The treap as a value -/

/-- A binary tree of (key, priority) pairs: a treap without its addresses. -/
inductive PTree where
  | nil : PTree
  | node (l : PTree) (key priority : Int) (r : PTree) : PTree

/-- The (key, priority) pairs of a tree in in-order. -/
def PTree.inorder : PTree → List (Int × Int)
  | .nil => []
  | .node l k p r => l.inorder ++ (k, p) :: r.inorder

/-- Every node's priority is at most the priorities in its two subtrees. -/
def PTree.HeapOrdered : PTree → Prop
  | .nil => True
  | .node l _ p r =>
    (∀ x ∈ l.inorder, p ≤ x.2) ∧ (∀ x ∈ r.inorder, p ≤ x.2) ∧ l.HeapOrdered ∧ r.HeapOrdered

/-- The tree of (key, priority) pairs found below a pointer by following `Left`
and `Right`; the fuel bounds the depth. -/
def readTree (mem : Nat → Node) : Nat → Option Nat → Except Fault PTree
  | _, none => .ok .nil
  | 0, some _ => .error .outOfFuel
  | fuel + 1, some a =>
    match readTree mem fuel (mem a).Left with
    | .error e => .error e
    | .ok l =>
      match readTree mem fuel (mem a).Right with
      | .error e => .error e
      | .ok r => .ok (.node l (mem a).Value (mem a).Priority r)

/-- The tree of (key, priority) pairs below `Root`. -/
def Tree.pairs (t : Tree) : Except Fault PTree :=
  readTree t.mem t.size t.Root

/-- The tree of (key, priority) pairs after inserting `kps` into an empty tree. -/
def treeAfter (kps : List (Int × Int)) : Except Fault PTree :=
  match insertAll NewTree kps with
  | .error e => .error e
  | .ok t => t.pairs

/-- The tree of (key, priority) pairs a shape stands for in a heap. -/
def Shape.label (mem : Nat → Node) : Shape → PTree
  | .nil => .nil
  | .node l a r => .node (l.label mem) (mem a).Value (mem a).Priority (r.label mem)

/-- Search order of a shape in a heap: at every node the keys of the left subtree
are strictly less than the node's key and the keys of the right subtree are
greater or equal. -/
def SearchOrder (mem : Nat → Node) : Shape → Prop
  | .nil => True
  | .node l a r =>
    (∀ x ∈ l.inorder, (mem x).Value < (mem a).Value) ∧
      (∀ x ∈ r.inorder, (mem a).Value ≤ (mem x).Value) ∧
      SearchOrder mem l ∧ SearchOrder mem r

/-- The heap `naiveInsert` leaves after the keys `k0`, `k1`, `k2` (in ascending order) went
into an empty tree with priorities 1, 2, 3: node 0 holds `k0`, node 1 holds `k1` and is the
`Right` child of node 0, node 2 holds `k2` and is the `Right` child of node 1. -/
def chainHeap (k0 k1 k2 : Int) : Nat → Node :=
  setRight (alloc (setRight (alloc (alloc NewTree.mem 0 k0 1 none) 1 k1 2 (some 0)) 0 (some 1))
    2 k2 3 (some 1)) 1 (some 2)

/-! ## Reading a field after a heap update -/

@[simp] theorem setLeft_Value (mem : Nat → Node) (a : Nat) (v : Option Nat) (b : Nat) :
    (setLeft mem a v b).Value = (mem b).Value := by
  unfold setLeft; split <;> simp_all

@[simp] theorem setLeft_Priority (mem : Nat → Node) (a : Nat) (v : Option Nat) (b : Nat) :
    (setLeft mem a v b).Priority = (mem b).Priority := by
  unfold setLeft; split <;> simp_all

@[simp] theorem setLeft_Left (mem : Nat → Node) (a : Nat) (v : Option Nat) (b : Nat) :
    (setLeft mem a v b).Left = if b = a then v else (mem b).Left := by
  unfold setLeft; split <;> simp_all

@[simp] theorem setLeft_Right (mem : Nat → Node) (a : Nat) (v : Option Nat) (b : Nat) :
    (setLeft mem a v b).Right = (mem b).Right := by
  unfold setLeft; split <;> simp_all

@[simp] theorem setLeft_Parent (mem : Nat → Node) (a : Nat) (v : Option Nat) (b : Nat) :
    (setLeft mem a v b).Parent = (mem b).Parent := by
  unfold setLeft; split <;> simp_all

@[simp] theorem setRight_Value (mem : Nat → Node) (a : Nat) (v : Option Nat) (b : Nat) :
    (setRight mem a v b).Value = (mem b).Value := by
  unfold setRight; split <;> simp_all

@[simp] theorem setRight_Priority (mem : Nat → Node) (a : Nat) (v : Option Nat) (b : Nat) :
    (setRight mem a v b).Priority = (mem b).Priority := by
  unfold setRight; split <;> simp_all

@[simp] theorem setRight_Left (mem : Nat → Node) (a : Nat) (v : Option Nat) (b : Nat) :
    (setRight mem a v b).Left = (mem b).Left := by
  unfold setRight; split <;> simp_all

@[simp] theorem setRight_Right (mem : Nat → Node) (a : Nat) (v : Option Nat) (b : Nat) :
    (setRight mem a v b).Right = if b = a then v else (mem b).Right := by
  unfold setRight; split <;> simp_all

@[simp] theorem setRight_Parent (mem : Nat → Node) (a : Nat) (v : Option Nat) (b : Nat) :
    (setRight mem a v b).Parent = (mem b).Parent := by
  unfold setRight; split <;> simp_all

@[simp] theorem setParent_Value (mem : Nat → Node) (a : Nat) (v : Option Nat) (b : Nat) :
    (setParent mem a v b).Value = (mem b).Value := by
  unfold setParent; split <;> simp_all

@[simp] theorem setParent_Priority (mem : Nat → Node) (a : Nat) (v : Option Nat) (b : Nat) :
    (setParent mem a v b).Priority = (mem b).Priority := by
  unfold setParent; split <;> simp_all

@[simp] theorem setParent_Left (mem : Nat → Node) (a : Nat) (v : Option Nat) (b : Nat) :
    (setParent mem a v b).Left = (mem b).Left := by
  unfold setParent; split <;> simp_all

@[simp] theorem setParent_Right (mem : Nat → Node) (a : Nat) (v : Option Nat) (b : Nat) :
    (setParent mem a v b).Right = (mem b).Right := by
  unfold setParent; split <;> simp_all

@[simp] theorem setParent_Parent (mem : Nat → Node) (a : Nat) (v : Option Nat) (b : Nat) :
    (setParent mem a v b).Parent = if b = a then v else (mem b).Parent := by
  unfold setParent; split <;> simp_all

@[simp] theorem alloc_Value (mem : Nat → Node) (a : Nat) (value priority : Int)
    (parent : Option Nat) (b : Nat) :
    (alloc mem a value priority parent b).Value = if b = a then value else (mem b).Value := by
  unfold alloc; split <;> simp_all

@[simp] theorem alloc_Priority (mem : Nat → Node) (a : Nat) (value priority : Int)
    (parent : Option Nat) (b : Nat) :
    (alloc mem a value priority parent b).Priority =
      if b = a then priority else (mem b).Priority := by
  unfold alloc; split <;> simp_all

@[simp] theorem alloc_Left (mem : Nat → Node) (a : Nat) (value priority : Int)
    (parent : Option Nat) (b : Nat) :
    (alloc mem a value priority parent b).Left = if b = a then none else (mem b).Left := by
  unfold alloc; split <;> simp_all

@[simp] theorem alloc_Right (mem : Nat → Node) (a : Nat) (value priority : Int)
    (parent : Option Nat) (b : Nat) :
    (alloc mem a value priority parent b).Right = if b = a then none else (mem b).Right := by
  unfold alloc; split <;> simp_all

@[simp] theorem alloc_Parent (mem : Nat → Node) (a : Nat) (value priority : Int)
    (parent : Option Nat) (b : Nat) :
    (alloc mem a value priority parent b).Parent =
      if b = a then parent else (mem b).Parent := by
  unfold alloc; split <;> simp_all

/-! ## The rotations as field updates -/

/-- The heap after `rightRotate`, field by field, when the nodes involved are distinct. -/
theorem rightRotate_spec (mem : Nat → Node) (node c : Nat)
    (hc : (mem node).Left = some c) (hcn : c ≠ node)
    (hgn : (mem node).Parent ≠ some node) (hgc : (mem node).Parent ≠ some c)
    (hxc : (mem c).Right ≠ some c) (hxn : (mem c).Right ≠ some node) :
    ∃ mem1, rightRotate mem node = .ok mem1 ∧
      (∀ a, (mem1 a).Value = (mem a).Value) ∧
      (∀ a, (mem1 a).Priority = (mem a).Priority) ∧
      (∀ a, (mem1 a).Parent =
        if a = node then some c else if a = c then (mem node).Parent
        else if (mem c).Right = some a then some node else (mem a).Parent) ∧
      (∀ a, (mem1 a).Left =
        if a = node then (mem c).Right
        else if (mem node).Parent = some a ∧ compare (mem node).Value (mem a).Value < 0
          then some c else (mem a).Left) ∧
      (∀ a, (mem1 a).Right =
        if a = c then some node
        else if (mem node).Parent = some a ∧ ¬ compare (mem node).Value (mem a).Value < 0
          then some c else (mem a).Right) := by
  unfold rightRotate
  simp only [hc]
  have hnc : node ≠ c := Ne.symm hcn
  cases hp : (mem node).Parent with
  | none =>
    cases hx : (mem c).Right with
    | none =>
      refine ⟨_, rfl, ?_, ?_, ?_, ?_, ?_⟩ <;> intro a <;>
        by_cases h1 : a = node <;> by_cases h2 : a = c <;> simp [hx, h1, h2, hcn, hnc]
    | some x =>
      have h3 : x ≠ c := fun h => hxc (by rw [hx, h])
      have h4 : x ≠ node := fun h => hxn (by rw [hx, h])
      refine ⟨_, rfl, ?_, ?_, ?_, ?_, ?_⟩ <;> intro a <;>
        by_cases h1 : a = node <;> by_cases h2 : a = c <;> by_cases h5 : a = x <;>
        simp [hx, h1, h2, h5, hcn, hnc, h3, h4, Ne.symm h3, Ne.symm h4, @eq_comm _ x a]
  | some g =>
    have h1 : g ≠ node := fun h => hgn (by rw [hp, h])
    have h2 : g ≠ c := fun h => hgc (by rw [hp, h])
    by_cases hlt : compare (mem node).Value (mem g).Value < 0
    · cases hx : (mem c).Right with
      | none => 
        refine ⟨_, rfl, ?_, ?_, ?_, ?_, ?_⟩ <;> intro a <;> 
          by_cases h6 : a = node <;> by_cases h7 : a = c <;> by_cases h8 : a = g <;>
          simp [hx, hlt, h1, h2, Ne.symm h1, Ne.symm h2, h6, h7, h8, hcn, hnc, @eq_comm _ g a]
      | some x =>
        have h3 : x ≠ c := fun h => hxc (by rw [hx, h])
        have h4 : x ≠ node := fun h => hxn (by rw [hx, h])
        by_cases hgx : x = g
        · subst hgx
          refine ⟨_, rfl, ?_, ?_, ?_, ?_, ?_⟩ <;> intro a <;>
            by_cases h6 : a = node <;> by_cases h7 : a = c <;> by_cases h9 : a = x <;>
            simp [hx, hlt, h6, h7, h9, hcn, hnc, h3, h4, Ne.symm h3, Ne.symm h4,
              @eq_comm _ x a]
        · refine ⟨_, rfl, ?_, ?_, ?_, ?_, ?_⟩ <;> intro a <;>
            by_cases h6 : a = node <;> by_cases h7 : a = c <;> by_cases h8 : a = g <;>
            by_cases h9 : a = x <;>
            simp [hx, hlt, h1, h2, Ne.symm h1, Ne.symm h2, h6, h7, h8, h9, hcn, hnc, h3, h4,
              Ne.symm h3, Ne.symm h4, hgx, Ne.symm hgx, @eq_comm _ g a, @eq_comm _ x a]
    · have hge : compare (mem node).Value (mem g).Value ≥ 0 := le_of_not_lt hlt
      cases hx : (mem c).Right with
      | none => 
        refine ⟨_, rfl, ?_, ?_, ?_, ?_, ?_⟩ <;> intro a <;> 
          by_cases h6 : a = node <;> by_cases h7 : a = c <;> by_cases h8 : a = g <;>
          simp [hx, hlt, hge, h1, h2, Ne.symm h1, Ne.symm h2, h6, h7, h8, hcn, hnc, @eq_comm _ g a]
      | some x =>
        have h3 : x ≠ c := fun h => hxc (by rw [hx, h])
        have h4 : x ≠ node := fun h => hxn (by rw [hx, h])
        by_cases hgx : x = g
        · subst hgx
          refine ⟨_, rfl, ?_, ?_, ?_, ?_, ?_⟩ <;> intro a <;>
            by_cases h6 : a = node <;> by_cases h7 : a = c <;> by_cases h9 : a = x <;>
            simp [hx, hlt, hge, h6, h7, h9, hcn, hnc, h3, h4, Ne.symm h3, Ne.symm h4,
              @eq_comm _ x a]
        · refine ⟨_, rfl, ?_, ?_, ?_, ?_, ?_⟩ <;> intro a <;>
            by_cases h6 : a = node <;> by_cases h7 : a = c <;> by_cases h8 : a = g <;>
            by_cases h9 : a = x <;>
            simp [hx, hlt, hge, h1, h2, Ne.symm h1, Ne.symm h2, h6, h7, h8, h9, hcn, hnc, h3, h4,
              Ne.symm h3, Ne.symm h4, hgx, Ne.symm hgx, @eq_comm _ g a, @eq_comm _ x a]

/-- The heap after `leftRotate`, field by field, when the nodes involved are distinct. -/
theorem leftRotate_spec (mem : Nat → Node) (node c : Nat)
    (hc : (mem node).Right = some c) (hcn : c ≠ node)
    (hgn : (mem node).Parent ≠ some node) (hgc : (mem node).Parent ≠ some c)
    (hxc : (mem c).Left ≠ some c) (hxn : (mem c).Left ≠ some node) :
    ∃ mem1, leftRotate mem node = .ok mem1 ∧
      (∀ a, (mem1 a).Value = (mem a).Value) ∧
      (∀ a, (mem1 a).Priority = (mem a).Priority) ∧
      (∀ a, (mem1 a).Parent =
        if a = node then some c else if a = c then (mem node).Parent
        else if (mem c).Left = some a then some node else (mem a).Parent) ∧
      (∀ a, (mem1 a).Left =
        if a = c then some node
        else if (mem node).Parent = some a ∧ compare (mem node).Value (mem a).Value < 0
          then some c else (mem a).Left) ∧
      (∀ a, (mem1 a).Right =
        if a = node then (mem c).Left
        else if (mem node).Parent = some a ∧ ¬ compare (mem node).Value (mem a).Value < 0
          then some c else (mem a).Right) := by
  unfold leftRotate
  simp only [hc]
  have hnc : node ≠ c := Ne.symm hcn
  cases hp : (mem node).Parent with
  | none =>
    cases hx : (mem c).Left with
    | none =>
      refine ⟨_, rfl, ?_, ?_, ?_, ?_, ?_⟩ <;> intro a <;>
        by_cases h1 : a = node <;> by_cases h2 : a = c <;> simp [hx, h1, h2, hcn, hnc]
    | some x =>
      have h3 : x ≠ c := fun h => hxc (by rw [hx, h])
      have h4 : x ≠ node := fun h => hxn (by rw [hx, h])
      refine ⟨_, rfl, ?_, ?_, ?_, ?_, ?_⟩ <;> intro a <;>
        by_cases h1 : a = node <;> by_cases h2 : a = c <;> by_cases h5 : a = x <;>
        simp [hx, h1, h2, h5, hcn, hnc, h3, h4, Ne.symm h3, Ne.symm h4, @eq_comm _ x a]
  | some g =>
    have h1 : g ≠ node := fun h => hgn (by rw [hp, h])
    have h2 : g ≠ c := fun h => hgc (by rw [hp, h])
    by_cases hlt : compare (mem node).Value (mem g).Value < 0
    · cases hx : (mem c).Left with
      | none => 
        refine ⟨_, rfl, ?_, ?_, ?_, ?_, ?_⟩ <;> intro a <;> 
          by_cases h6 : a = node <;> by_cases h7 : a = c <;> by_cases h8 : a = g <;>
          simp [hx, hlt, h1, h2, Ne.symm h1, Ne.symm h2, h6, h7, h8, hcn, hnc, @eq_comm _ g a]
      | some x =>
        have h3 : x ≠ c := fun h => hxc (by rw [hx, h])
        have h4 : x ≠ node := fun h => hxn (by rw [hx, h])
        by_cases hgx : x = g
        · subst hgx
          refine ⟨_, rfl, ?_, ?_, ?_, ?_, ?_⟩ <;> intro a <;>
            by_cases h6 : a = node <;> by_cases h7 : a = c <;> by_cases h9 : a = x <;>
            simp [hx, hlt, h6, h7, h9, hcn, hnc, h3, h4, Ne.symm h3, Ne.symm h4,
              @eq_comm _ x a]
        · refine ⟨_, rfl, ?_, ?_, ?_, ?_, ?_⟩ <;> intro a <;>
            by_cases h6 : a = node <;> by_cases h7 : a = c <;> by_cases h8 : a = g <;>
            by_cases h9 : a = x <;>
            simp [hx, hlt, h1, h2, Ne.symm h1, Ne.symm h2, h6, h7, h8, h9, hcn, hnc, h3, h4,
              Ne.symm h3, Ne.symm h4, hgx, Ne.symm hgx, @eq_comm _ g a, @eq_comm _ x a]
    · have hge : compare (mem node).Value (mem g).Value ≥ 0 := le_of_not_lt hlt
      cases hx : (mem c).Left with
      | none => 
        refine ⟨_, rfl, ?_, ?_, ?_, ?_, ?_⟩ <;> intro a <;> 
          by_cases h6 : a = node <;> by_cases h7 : a = c <;> by_cases h8 : a = g <;>
          simp [hx, hlt, hge, h1, h2, Ne.symm h1, Ne.symm h2, h6, h7, h8, hcn, hnc, @eq_comm _ g a]
      | some x =>
        have h3 : x ≠ c := fun h => hxc (by rw [hx, h])
        have h4 : x ≠ node := fun h => hxn (by rw [hx, h])
        by_cases hgx : x = g
        · subst hgx
          refine ⟨_, rfl, ?_, ?_, ?_, ?_, ?_⟩ <;> intro a <;>
            by_cases h6 : a = node <;> by_cases h7 : a = c <;> by_cases h9 : a = x <;>
            simp [hx, hlt, hge, h6, h7, h9, hcn, hnc, h3, h4, Ne.symm h3, Ne.symm h4,
              @eq_comm _ x a]
        · refine ⟨_, rfl, ?_, ?_, ?_, ?_, ?_⟩ <;> intro a <;>
            by_cases h6 : a = node <;> by_cases h7 : a = c <;> by_cases h8 : a = g <;>
            by_cases h9 : a = x <;>
            simp [hx, hlt, hge, h1, h2, Ne.symm h1, Ne.symm h2, h6, h7, h8, h9, hcn, hnc, h3, h4,
              Ne.symm h3, Ne.symm h4, hgx, Ne.symm hgx, @eq_comm _ g a, @eq_comm _ x a]

/-! ## The bubble-up loop keeps the heap invariant -/

/-- On priorities drawn by `rnd.Intn(maxPriority)` the comparator is exact. -/
theorem compare_priority {a b : Int} (ha : validPriority a) (hb : validPriority b) :
    compare a b < 0 ↔ a < b := by
  unfold validPriority maxPriority at ha hb
  unfold compare wrap64
  omega

/-- A right rotation at the parent of `cur` keeps the loop invariant and lowers the
measure. -/
theorem bubbleInv_rightRotate {r : Nat → ℚ} {n ρ : Nat} {mem : Nat → Node} {cur node : Nat}
    (inv : BubbleInv r n ρ mem cur)
    (hpar : (mem cur).Parent = some node)
    (hlt : (mem cur).Priority < (mem node).Priority)
    (hleft : (mem node).Left = some cur) :
    ∃ r1 mem1, rightRotate mem node = .ok mem1 ∧ BubbleInv r1 n ρ mem1 cur ∧
      (∀ a, (mem1 a).Value = (mem a).Value) ∧
      (∀ a, (mem1 a).Priority = (mem a).Priority) ∧
      bubbleMeasure r1 n mem1 cur < bubbleMeasure r n mem cur := by
  have hcur := inv.curLt
  have hnode : node < n := inv.ranked.closed cur hcur node (Or.inr (Or.inr hpar))
  have hr1 : r node < r cur := inv.ranked.parentRank cur hcur node hpar
  have hcn : cur ≠ node := by rintro h; rw [h] at hr1; exact lt_irrefl _ hr1
  have hnc : node ≠ cur := Ne.symm hcn
  have hgn : (mem node).Parent ≠ some node := by
    intro h; exact lt_irrefl _ (inv.ranked.parentRank node hnode node h)
  have hgc : (mem node).Parent ≠ some cur := by
    intro h; have := inv.ranked.parentRank node hnode cur h; linarith
  have hxc : (mem cur).Right ≠ some cur := by
    intro h; exact lt_irrefl _ (inv.ranked.childRank cur hcur cur (Or.inr h))
  have hxn : (mem cur).Right ≠ some node := by
    intro h; have := inv.ranked.childRank cur hcur node (Or.inr h); linarith
  have hlc : (mem cur).Left ≠ some cur := by
    intro h; exact lt_irrefl _ (inv.ranked.childRank cur hcur cur (Or.inl h))
  have hother : (mem node).Right ≠ some cur := fun h => (inv.curSlot node hpar).2 ⟨hleft, h⟩
  have honly : ∀ a, a < n → a ≠ node → ¬ IsChild mem a cur := by
    intro a ha hne h
    have := inv.curOnly a ha h
    rw [hpar] at this
    exact hne (Option.some.inj this).symm
  obtain ⟨mem1, hrot, hV, hPr, hP, hL, hR⟩ :=
    rightRotate_spec mem node cur hleft hcn hgn hgc hxc hxn
  obtain ⟨q, hq1, hq2⟩ : ∃ q : ℚ, q < r node ∧ ∀ g, (mem node).Parent = some g → r g < q := by
    cases hg : (mem node).Parent with
    | none => exact ⟨r node - 1, by linarith, by simp⟩
    | some g =>
      have := inv.ranked.parentRank node hnode g hg
      refine ⟨(r g + r node) / 2, by linarith, ?_⟩
      intro g' hg'
      cases hg'
      linarith
  have hPcur : (mem1 cur).Parent = (mem node).Parent := by rw [hP]; simp [hcn]
  have hLcur : (mem1 cur).Left = (mem cur).Left := by rw [hL]; simp [hcn, hgc]
  have hRcur : (mem1 cur).Right = some node := by rw [hR]; simp
  refine ⟨fun a => if a = cur then q else r a, mem1, hrot, ?_, hV, hPr, ?_⟩
  · refine
      { ranked := ⟨?_, ?_, ?_, ?_⟩, heapExc := ?_, curLt := hcur, rootLt := inv.rootLt,
        curSlot := ?_, curOnly := ?_, curKids := ?_, curKidsNe := ?_, curKidsPrio := ?_,
        rootUniqueExc := ?_, rootMinExc := ?_, curTopMin := ?_, curTopOnly := ?_,
        rootParent := ?_ }
    · -- closed
      intro a ha c hc
      rw [hL, hR, hP] at hc
      rcases hc with hc | hc | hc <;> split_ifs at hc <;>
        first
        | exact inv.ranked.closed a ha c (Or.inl hc)
        | exact inv.ranked.closed a ha c (Or.inr (Or.inl hc))
        | exact inv.ranked.closed a ha c (Or.inr (Or.inr hc))
        | exact inv.ranked.closed cur hcur c (Or.inr (Or.inl hc))
        | exact inv.ranked.closed node hnode c (Or.inr (Or.inr hc))
        | (cases hc; assumption)
    · -- childRank
      intro a ha c hc
      show (if a = cur then q else r a) < (if c = cur then q else r c)
      rcases hc with hc | hc
      · rw [hL] at hc
        split_ifs at hc with h1 h2
        · have h3 := inv.ranked.childRank cur hcur c (Or.inr hc)
          have h4 : c ≠ cur := fun h => hxc (by rw [hc, h])
          subst h1; simp [hnc, h4]; linarith
        · cases hc
          have h5 : a ≠ cur := fun h => hgc (by rw [h2.1, h])
          simp [h5]; exact hq2 a h2.1
        · have h6 : c ≠ cur := by
            rintro rfl; exact honly a ha h1 (Or.inl hc)
          have h7 := inv.ranked.childRank a ha c (Or.inl hc)
          by_cases h8 : a = cur
          · subst h8; simp [h6]; linarith
          · simp [h6, h8]; exact h7
      · rw [hR] at hc
        split_ifs at hc with h1 h2
        · cases hc; subst h1; simp [hnc]; exact hq1
        · cases hc
          have h5 : a ≠ cur := fun h => hgc (by rw [h2.1, h])
          simp [h5]; exact hq2 a h2.1
        · have h6 : c ≠ cur := by
            rintro rfl
            by_cases h9 : a = node
            · subst h9; exact hother hc
            · exact honly a ha h9 (Or.inr hc)
          have h7 := inv.ranked.childRank a ha c (Or.inr hc)
          simp [h6, h1]; exact h7
    · -- parentRank
      intro a ha p hp
      show (if p = cur then q else r p) < (if a = cur then q else r a)
      rw [hP] at hp
      split_ifs at hp with h1 h2 h3
      · cases hp; subst h1; simp [hnc]; exact hq1
      · have h4 : p ≠ cur := fun h => hgc (by rw [hp, h])
        subst h2; simp [h4]; exact hq2 p hp
      · cases hp
        have := inv.ranked.childRank cur hcur a (Or.inr h3)
        simp [hnc, h2]; linarith
      · have h5 := inv.ranked.parentRank a ha p hp
        by_cases h6 : p = cur
        · subst h6; simp [h2]; linarith
        · simp [h6, h2]; exact h5
    · -- prioValid
      intro a ha; rw [hPr]; exact inv.ranked.prioValid a ha
    · -- heapExc
      intro a ha hac p hp
      rw [hPr, hPr]
      rw [hP] at hp
      split_ifs at hp with h1 h3
      · cases hp; subst h1; exact le_of_lt hlt
      · cases hp; exact inv.curKidsPrio a node (Or.inr h3) hpar
      · exact inv.heapExc a ha hac p hp
    · -- curSlot
      intro g hg
      rw [hPcur] at hg
      have hg1 : g ≠ node := fun h => hgn (by rw [hg, h])
      have hg2 : g ≠ cur := fun h => hgc (by rw [hg, h])
      have hglt : g < n := inv.ranked.closed node hnode g (Or.inr (Or.inr hg))
      have hgch := honly g hglt hg1
      unfold IsChild at hgch ⊢
      rw [hL, hR]
      by_cases hcmp : compare (mem node).Value (mem g).Value < 0
      · simp [hg1, hg2, hg, hcmp]
        intro h; exact hgch (Or.inr h)
      · simp [hg1, hg2, hg, hcmp]
        intro h; exact hgch (Or.inl h)
    · -- curOnly
      intro a ha hc
      rw [hPcur]
      rcases hc with hc | hc
      · rw [hL] at hc
        split_ifs at hc with h1 h2
        · exact absurd hc hxc
        · exact h2.1
        · exact absurd (Or.inl hc) (honly a ha h1)
      · rw [hR] at hc
        split_ifs at hc with h1 h2
        · cases hc; exact absurd rfl hnc
        · exact h2.1
        · by_cases h9 : a = node
          · subst h9; exact absurd hc hother
          · exact absurd (Or.inr hc) (honly a ha h9)
    · -- curKids
      intro c hc
      rcases hc with hc | hc
      · rw [hLcur] at hc
        have h1 := inv.curKids c (Or.inl hc)
        have h2 : c ≠ node := by rintro rfl; exact hgc h1
        have h3 : c ≠ cur := fun h => hlc (by rw [hc, h])
        have h4 : (mem cur).Right ≠ some c := inv.curKidsNe c hc
        rw [hP]; simp [h2, h3, h4, h1]
      · rw [hRcur] at hc; cases hc
        rw [hP]; simp
    · -- curKidsNe
      intro c hc
      rw [hLcur] at hc
      rw [hRcur]
      rintro h; cases h
      exact hgc (inv.curKids node (Or.inl hc))
    · -- curKidsPrio
      intro c g hc hg
      rw [hPcur] at hg
      rw [hPr, hPr]
      have h1 := inv.heapExc node hnode hnc g hg
      rcases hc with hc | hc
      · rw [hLcur] at hc
        have := inv.curKidsPrio c node (Or.inl hc) hpar
        linarith
      · rw [hRcur] at hc; cases hc; exact h1
    · -- rootUniqueExc
      intro a ha hac hp
      rw [hP] at hp
      split_ifs at hp
      exact inv.rootUniqueExc a ha hac hp
    · -- rootMinExc
      intro a ha hac; rw [hPr, hPr]; exact inv.rootMinExc a ha hac
    · -- curTopMin
      intro hp a ha
      rw [hPcur] at hp
      rw [hPr, hPr]
      have h1 : node = ρ := inv.rootUniqueExc node hnode hnc hp
      by_cases hac : a = cur
      · rw [hac]
      · have := inv.rootMinExc a ha hac
        rw [← h1] at this
        linarith
    · -- curTopOnly
      intro hp a ha hac
      rw [hPcur] at hp
      rw [hP]
      split_ifs with h1 h3
      · simp
      · simp
      · intro h
        have h4 := inv.rootUniqueExc a ha hac h
        have h5 := inv.rootUniqueExc node hnode hnc hp
        exact h1 (h4.trans h5.symm)
    · -- rootParent
      intro hp
      rw [hPcur] at hp
      have h0 : (mem ρ).Parent = none := inv.rootParent (by rw [hpar]; simp)
      have h1 : ρ ≠ node := by rintro rfl; exact hp h0
      have h2 : ρ ≠ cur := by rintro rfl; rw [hpar] at h0; cases h0
      have h3 : (mem cur).Right ≠ some ρ := by
        intro h; have := inv.curKids ρ (Or.inr h); rw [h0] at this; cases this
      rw [hP]; simp [h1, h2, h3, h0]
  · -- measure
    unfold bubbleMeasure
    rw [hPcur, hpar]
    cases hg : (mem node).Parent with
    | none =>
      simp only []
      apply Finset.card_pos.mpr
      exact ⟨node, by simp [hnode]⟩
    | some g =>
      simp only []
      have hg2 : g ≠ cur := fun h => hgc (by rw [hg, h])
      have hrg := inv.ranked.parentRank node hnode g hg
      have hqg := hq2 g hg
      apply Finset.card_lt_card
      rw [Finset.ssubset_iff_of_subset]
      · refine ⟨node, by simp [hnode], ?_⟩
        simp [hnc, hg2, hnode]; exact hrg
      · intro m hm
        simp only [Finset.mem_filter, Finset.mem_range] at hm ⊢
        refine ⟨hm.1, ?_⟩
        have h2 := hm.2
        simp only [hg2, if_false] at h2
        by_cases hmc : m = cur
        · simp [hmc] at h2; linarith
        · simp [hmc] at h2; linarith

/-- A left rotation at the parent of `cur` keeps the loop invariant and lowers the
measure. -/
theorem bubbleInv_leftRotate {r : Nat → ℚ} {n ρ : Nat} {mem : Nat → Node} {cur node : Nat}
    (inv : BubbleInv r n ρ mem cur)
    (hpar : (mem cur).Parent = some node)
    (hlt : (mem cur).Priority < (mem node).Priority)
    (hright : (mem node).Right = some cur) :
    ∃ r1 mem1, leftRotate mem node = .ok mem1 ∧ BubbleInv r1 n ρ mem1 cur ∧
      (∀ a, (mem1 a).Value = (mem a).Value) ∧
      (∀ a, (mem1 a).Priority = (mem a).Priority) ∧
      bubbleMeasure r1 n mem1 cur < bubbleMeasure r n mem cur := by
  have hcur := inv.curLt
  have hnode : node < n := inv.ranked.closed cur hcur node (Or.inr (Or.inr hpar))
  have hr1 : r node < r cur := inv.ranked.parentRank cur hcur node hpar
  have hcn : cur ≠ node := by rintro h; rw [h] at hr1; exact lt_irrefl _ hr1
  have hnc : node ≠ cur := Ne.symm hcn
  have hgn : (mem node).Parent ≠ some node := by
    intro h; exact lt_irrefl _ (inv.ranked.parentRank node hnode node h)
  have hgc : (mem node).Parent ≠ some cur := by
    intro h; have := inv.ranked.parentRank node hnode cur h; linarith
  have hxc : (mem cur).Left ≠ some cur := by
    intro h; exact lt_irrefl _ (inv.ranked.childRank cur hcur cur (Or.inl h))
  have hxn : (mem cur).Left ≠ some node := by
    intro h; have := inv.ranked.childRank cur hcur node (Or.inl h); linarith
  have hrc : (mem cur).Right ≠ some cur := by
    intro h; exact lt_irrefl _ (inv.ranked.childRank cur hcur cur (Or.inr h))
  have hother : (mem node).Left ≠ some cur := fun h => (inv.curSlot node hpar).2 ⟨h, hright⟩
  have honly : ∀ a, a < n → a ≠ node → ¬ IsChild mem a cur := by
    intro a ha hne h
    have := inv.curOnly a ha h
    rw [hpar] at this
    exact hne (Option.some.inj this).symm
  obtain ⟨mem1, hrot, hV, hPr, hP, hL, hR⟩ :=
    leftRotate_spec mem node cur hright hcn hgn hgc hxc hxn
  obtain ⟨q, hq1, hq2⟩ : ∃ q : ℚ, q < r node ∧ ∀ g, (mem node).Parent = some g → r g < q := by
    cases hg : (mem node).Parent with
    | none => exact ⟨r node - 1, by linarith, by simp⟩
    | some g =>
      have := inv.ranked.parentRank node hnode g hg
      refine ⟨(r g + r node) / 2, by linarith, ?_⟩
      intro g' hg'
      cases hg'
      linarith
  have hPcur : (mem1 cur).Parent = (mem node).Parent := by rw [hP]; simp [hcn]
  have hRcur : (mem1 cur).Right = (mem cur).Right := by rw [hR]; simp [hcn, hgc]
  have hLcur : (mem1 cur).Left = some node := by rw [hL]; simp
  refine ⟨fun a => if a = cur then q else r a, mem1, hrot, ?_, hV, hPr, ?_⟩
  · refine
      { ranked := ⟨?_, ?_, ?_, ?_⟩, heapExc := ?_, curLt := hcur, rootLt := inv.rootLt,
        curSlot := ?_, curOnly := ?_, curKids := ?_, curKidsNe := ?_, curKidsPrio := ?_,
        rootUniqueExc := ?_, rootMinExc := ?_, curTopMin := ?_, curTopOnly := ?_,
        rootParent := ?_ }
    · -- closed
      intro a ha c hc
      rw [hL, hR, hP] at hc
      rcases hc with hc | hc | hc <;> split_ifs at hc <;>
        first
        | exact inv.ranked.closed a ha c (Or.inl hc)
        | exact inv.ranked.closed a ha c (Or.inr (Or.inl hc))
        | exact inv.ranked.closed a ha c (Or.inr (Or.inr hc))
        | exact inv.ranked.closed cur hcur c (Or.inl hc)
        | exact inv.ranked.closed node hnode c (Or.inr (Or.inr hc))
        | (cases hc; assumption)
    · -- childRank
      intro a ha c hc
      show (if a = cur then q else r a) < (if c = cur then q else r c)
      rcases Or.symm hc with hc | hc
      · rw [hR] at hc
        split_ifs at hc with h1 h2
        · have h3 := inv.ranked.childRank cur hcur c (Or.inl hc)
          have h4 : c ≠ cur := fun h => hxc (by rw [hc, h])
          subst h1; simp [hnc, h4]; linarith
        · cases hc
          have h5 : a ≠ cur := fun h => hgc (by rw [h2.1, h])
          simp [h5]; exact hq2 a h2.1
        · have h6 : c ≠ cur := by
            rintro rfl; exact honly a ha h1 (Or.inr hc)
          have h7 := inv.ranked.childRank a ha c (Or.inr hc)
          by_cases h8 : a = cur
          · subst h8; simp [h6]; linarith
          · simp [h6, h8]; exact h7
      · rw [hL] at hc
        split_ifs at hc with h1 h2
        · cases hc; subst h1; simp [hnc]; exact hq1
        · cases hc
          have h5 : a ≠ cur := fun h => hgc (by rw [h2.1, h])
          simp [h5]; exact hq2 a h2.1
        · have h6 : c ≠ cur := by
            rintro rfl
            by_cases h9 : a = node
            · subst h9; exact hother hc
            · exact honly a ha h9 (Or.inl hc)
          have h7 := inv.ranked.childRank a ha c (Or.inl hc)
          simp [h6, h1]; exact h7
    · -- parentRank
      intro a ha p hp
      show (if p = cur then q else r p) < (if a = cur then q else r a)
      rw [hP] at hp
      split_ifs at hp with h1 h2 h3
      · cases hp; subst h1; simp [hnc]; exact hq1
      · have h4 : p ≠ cur := fun h => hgc (by rw [hp, h])
        subst h2; simp [h4]; exact hq2 p hp
      · cases hp
        have := inv.ranked.childRank cur hcur a (Or.inl h3)
        simp [hnc, h2]; linarith
      · have h5 := inv.ranked.parentRank a ha p hp
        by_cases h6 : p = cur
        · subst h6; simp [h2]; linarith
        · simp [h6, h2]; exact h5
    · -- prioValid
      intro a ha; rw [hPr]; exact inv.ranked.prioValid a ha
    · -- heapExc
      intro a ha hac p hp
      rw [hPr, hPr]
      rw [hP] at hp
      split_ifs at hp with h1 h3
      · cases hp; subst h1; exact le_of_lt hlt
      · cases hp; exact inv.curKidsPrio a node (Or.inl h3) hpar
      · exact inv.heapExc a ha hac p hp
    · -- curSlot
      intro g hg
      rw [hPcur] at hg
      have hg1 : g ≠ node := fun h => hgn (by rw [hg, h])
      have hg2 : g ≠ cur := fun h => hgc (by rw [hg, h])
      have hglt : g < n := inv.ranked.closed node hnode g (Or.inr (Or.inr hg))
      have hgch := honly g hglt hg1
      unfold IsChild at hgch ⊢
      rw [hL, hR]
      by_cases hcmp : compare (mem node).Value (mem g).Value < 0
      · simp [hg1, hg2, hg, hcmp]
        intro h; exact hgch (Or.inr h)
      · simp [hg1, hg2, hg, hcmp]
        intro h; exact hgch (Or.inl h)
    · -- curOnly
      intro a ha hc
      rw [hPcur]
      rcases Or.symm hc with hc | hc
      · rw [hR] at hc
        split_ifs at hc with h1 h2
        · exact absurd hc hxc
        · exact h2.1
        · exact absurd (Or.inr hc) (honly a ha h1)
      · rw [hL] at hc
        split_ifs at hc with h1 h2
        · cases hc; exact absurd rfl hnc
        · exact h2.1
        · by_cases h9 : a = node
          · subst h9; exact absurd hc hother
          · exact absurd (Or.inl hc) (honly a ha h9)
    · -- curKids
      intro c hc
      rcases Or.symm hc with hc | hc
      · rw [hRcur] at hc
        have h1 := inv.curKids c (Or.inr hc)
        have h2 : c ≠ node := by rintro rfl; exact hgc h1
        have h3 : c ≠ cur := fun h => hrc (by rw [hc, h])
        have h4 : (mem cur).Left ≠ some c := fun h => inv.curKidsNe c h hc
        rw [hP]; simp [h2, h3, h4, h1]
      · rw [hLcur] at hc; cases hc
        rw [hP]; simp
    · -- curKidsNe
      intro c hc
      rw [hLcur] at hc
      cases hc
      rw [hRcur]
      intro h
      exact hgc (inv.curKids node (Or.inr h))
    · -- curKidsPrio
      intro c g hc hg
      rw [hPcur] at hg
      rw [hPr, hPr]
      have h1 := inv.heapExc node hnode hnc g hg
      rcases Or.symm hc with hc | hc
      · rw [hRcur] at hc
        have := inv.curKidsPrio c node (Or.inr hc) hpar
        linarith
      · rw [hLcur] at hc; cases hc; exact h1
    · -- rootUniqueExc
      intro a ha hac hp
      rw [hP] at hp
      split_ifs at hp
      exact inv.rootUniqueExc a ha hac hp
    · -- rootMinExc
      intro a ha hac; rw [hPr, hPr]; exact inv.rootMinExc a ha hac
    · -- curTopMin
      intro hp a ha
      rw [hPcur] at hp
      rw [hPr, hPr]
      have h1 : node = ρ := inv.rootUniqueExc node hnode hnc hp
      by_cases hac : a = cur
      · rw [hac]
      · have := inv.rootMinExc a ha hac
        rw [← h1] at this
        linarith
    · -- curTopOnly
      intro hp a ha hac
      rw [hPcur] at hp
      rw [hP]
      split_ifs with h1 h3
      · simp
      · simp
      · intro h
        have h4 := inv.rootUniqueExc a ha hac h
        have h5 := inv.rootUniqueExc node hnode hnc hp
        exact h1 (h4.trans h5.symm)
    · -- rootParent
      intro hp
      rw [hPcur] at hp
      have h0 : (mem ρ).Parent = none := inv.rootParent (by rw [hpar]; simp)
      have h1 : ρ ≠ node := by rintro rfl; exact hp h0
      have h2 : ρ ≠ cur := by rintro rfl; rw [hpar] at h0; cases h0
      have h3 : (mem cur).Left ≠ some ρ := by
        intro h; have := inv.curKids ρ (Or.inl h); rw [h0] at this; cases this
      rw [hP]; simp [h1, h2, h3, h0]
  · -- measure
    unfold bubbleMeasure
    rw [hPcur, hpar]
    cases hg : (mem node).Parent with
    | none =>
      simp only []
      apply Finset.card_pos.mpr
      exact ⟨node, by simp [hnode]⟩
    | some g =>
      simp only []
      have hg2 : g ≠ cur := fun h => hgc (by rw [hg, h])
      have hrg := inv.ranked.parentRank node hnode g hg
      have hqg := hq2 g hg
      apply Finset.card_lt_card
      rw [Finset.ssubset_iff_of_subset]
      · refine ⟨node, by simp [hnode], ?_⟩
        simp [hnc, hg2, hnode]; exact hrg
      · intro m hm
        simp only [Finset.mem_filter, Finset.mem_range] at hm ⊢
        refine ⟨hm.1, ?_⟩
        have h2 := hm.2
        simp only [hg2, if_false] at h2
        by_cases hmc : m = cur
        · simp [hmc] at h2; linarith
        · simp [hmc] at h2; linarith

/-- The loop condition fails exactly when no parent has a larger priority. -/
theorem bubbleCond_false_iff (mem : Nat → Node) (cur : Nat) :
    bubbleCond mem cur = false ↔
      ∀ p, (mem cur).Parent = some p → ¬ compare (mem cur).Priority (mem p).Priority < 0 := by
  unfold bubbleCond
  cases h : (mem cur).Parent <;> simp

/-- One iteration of the bubble-up loop keeps the loop invariant and lowers the
measure; in particular it does not dereference nil. -/
theorem bubbleInv_step {r : Nat → ℚ} {n ρ : Nat} {mem : Nat → Node} {cur : Nat}
    (inv : BubbleInv r n ρ mem cur) (hcond : bubbleCond mem cur = true) :
    ∃ r1 mem1, bubbleStep mem cur = .ok mem1 ∧ BubbleInv r1 n ρ mem1 cur ∧
      (∀ a, (mem1 a).Value = (mem a).Value) ∧
      (∀ a, (mem1 a).Priority = (mem a).Priority) ∧
      bubbleMeasure r1 n mem1 cur < bubbleMeasure r n mem cur := by
  unfold bubbleCond at hcond
  unfold bubbleStep
  cases hpar : (mem cur).Parent with
  | none => rw [hpar] at hcond; simp at hcond
  | some node =>
    rw [hpar] at hcond
    simp only [decide_eq_true_eq] at hcond
    have hnode : node < n := inv.ranked.closed cur inv.curLt node (Or.inr (Or.inr hpar))
    have hlt : (mem cur).Priority < (mem node).Priority :=
      (compare_priority (inv.ranked.prioValid cur inv.curLt)
        (inv.ranked.prioValid node hnode)).mp hcond
    simp only []
    by_cases hleft : (mem node).Left = some cur
    · rw [if_pos hleft]
      exact bubbleInv_rightRotate inv hpar hlt hleft
    · rw [if_neg hleft]
      have hright : (mem node).Right = some cur := by
        rcases (inv.curSlot node hpar).1 with h | h
        · exact absurd h hleft
        · exact h
      exact bubbleInv_leftRotate inv hpar hlt hright

/-- The bubble-up loop ends within its budget, keeps the loop invariant and changes
no key and no priority. -/
theorem bubble_ok (n ρ cur : Nat) :
    ∀ (fuel : Nat) (r : Nat → ℚ) (mem : Nat → Node),
      BubbleInv r n ρ mem cur → bubbleMeasure r n mem cur ≤ fuel →
      ∃ r1 mem1, bubble cur fuel mem = .ok mem1 ∧ BubbleInv r1 n ρ mem1 cur ∧
        bubbleCond mem1 cur = false ∧
        (∀ a, (mem1 a).Value = (mem a).Value) ∧
        (∀ a, (mem1 a).Priority = (mem a).Priority) := by
  intro fuel
  induction fuel with
  | zero =>
    intro r mem inv hm
    cases hcond : bubbleCond mem cur with
    | false =>
      exact ⟨r, mem, by simp [bubble, hcond], inv, hcond, fun _ => rfl, fun _ => rfl⟩
    | true =>
      obtain ⟨r1, mem1, _, _, _, _, hlt⟩ := bubbleInv_step inv hcond
      omega
  | succ fuel ih =>
    intro r mem inv hm
    cases hcond : bubbleCond mem cur with
    | false =>
      exact ⟨r, mem, by simp [bubble, hcond], inv, hcond, fun _ => rfl, fun _ => rfl⟩
    | true =>
      obtain ⟨r1, mem1, hstep, inv1, hV, hPr, hlt⟩ := bubbleInv_step inv hcond
      obtain ⟨r2, mem2, hb, inv2, hc2, hV2, hPr2⟩ := ih r1 mem1 inv1 (by omega)
      refine ⟨r2, mem2, ?_, inv2, hc2, ?_, ?_⟩
      · simp [bubble, hcond, hstep, hb]
      · intro a; rw [hV2, hV]
      · intro a; rw [hPr2, hPr]

/-! ## `naiveInsert` and `Insert` keep the heap invariant -/

/-- Following a child link stays inside the heap and lowers the descent measure. -/
theorem descentMeasure_child {r : Nat → ℚ} {n : Nat} {mem : Nat → Node}
    (hr : Ranked r n mem) {a c : Nat} (ha : a < n) (hc : IsChild mem a c) :
    c < n ∧ descentMeasure r n c < descentMeasure r n a := by
  have hcn : c < n := by
    rcases hc with h | h
    · exact hr.closed a ha c (Or.inl h)
    · exact hr.closed a ha c (Or.inr (Or.inl h))
  have hlt := hr.childRank a ha c hc
  refine ⟨hcn, ?_⟩
  unfold descentMeasure
  apply Finset.card_lt_card
  rw [Finset.ssubset_iff_of_subset]
  · exact ⟨c, by simp [hcn, hlt], by simp⟩
  · intro m hm
    simp only [Finset.mem_filter, Finset.mem_range] at hm ⊢
    exact ⟨hm.1, lt_trans hlt hm.2⟩

/-- The descent measure of an allocated node is below the number of nodes. -/
theorem descentMeasure_lt (r : Nat → ℚ) {n a : Nat} (ha : a < n) :
    descentMeasure r n a < n := by
  unfold descentMeasure
  have h : (Finset.range n).filter (fun m => r a < r m) ⊂ Finset.range n := by
    rw [Finset.filter_ssubset]
    exact ⟨a, by simp [ha], lt_irrefl _⟩
  have := Finset.card_lt_card h
  simpa using this

/-- The descent of `naiveInsert` ends within its budget at a node `site` whose
chosen slot is empty, and links the fresh node there. -/
theorem naiveLoop_ok {r : Nat → ℚ} {n : Nat} {mem : Nat → Node} (hr : Ranked r n mem)
    (value priority : Int) (fresh : Nat) :
    ∀ (fuel root : Nat), root < n → descentMeasure r n root < fuel →
      ∃ site, site < n ∧
        ((compare value (mem site).Value < 0 ∧ (mem site).Left = none ∧
            naiveLoop mem value priority fresh fuel root =
              .ok (setLeft (alloc mem fresh value priority (some site)) site (some fresh))) ∨
         (¬ compare value (mem site).Value < 0 ∧ (mem site).Right = none ∧
            naiveLoop mem value priority fresh fuel root =
              .ok (setRight (alloc mem fresh value priority (some site)) site (some fresh)))) := by
  intro fuel
  induction fuel with
  | zero => intro root _ h; omega
  | succ fuel ih =>
    intro root hroot hm
    unfold naiveLoop
    by_cases hcmp : compare value (mem root).Value < 0
    · rw [if_pos hcmp]
      cases hl : (mem root).Left with
      | none => exact ⟨root, hroot, Or.inl ⟨hcmp, hl, rfl⟩⟩
      | some l =>
        obtain ⟨hln, hlm⟩ := descentMeasure_child hr hroot (Or.inl hl)
        exact ih l hln (by omega)
    · rw [if_neg hcmp]
      cases hl : (mem root).Right with
      | none => exact ⟨root, hroot, Or.inr ⟨hcmp, hl, rfl⟩⟩
      | some l =>
        obtain ⟨hln, hlm⟩ := descentMeasure_child hr hroot (Or.inr hl)
        exact ih l hln (by omega)

/-- After `naiveInsert` linked the fresh node into an empty left slot the loop
invariant holds. -/
theorem bubbleInv_init_left {r : Nat → ℚ} {t : Tree} (inv : HeapInv r t) {ρ site : Nat}
    (hroot : t.Root = some ρ) (hsite : site < t.size) (hslot : (t.mem site).Left = none)
    (value priority : Int) (hp : validPriority priority) :
    BubbleInv (fun a => if a = t.size then r site + 1 else r a) (t.size + 1) ρ
      (setLeft (alloc t.mem t.size value priority (some site)) site (some t.size)) t.size := by
  have hρ := inv.rootLt ρ hroot
  have hρn : ρ ≠ t.size := Nat.ne_of_lt hρ
  have hsn : site ≠ t.size := Nat.ne_of_lt hsite
  have hcl : ∀ a, a < t.size → ∀ c,
      ((t.mem a).Left = some c ∨ (t.mem a).Right = some c ∨ (t.mem a).Parent = some c) →
      c ≠ t.size := fun a ha c hc => Nat.ne_of_lt (inv.ranked.closed a ha c hc)
  refine
    { ranked := ⟨?_, ?_, ?_, ?_⟩, heapExc := ?_, curLt := Nat.lt_succ_self _,
      rootLt := Nat.lt_succ_of_lt hρ,
      curSlot := ?_, curOnly := ?_, curKids := ?_, curKidsNe := ?_, curKidsPrio := ?_,
      rootUniqueExc := ?_, rootMinExc := ?_, curTopMin := ?_, curTopOnly := ?_,
      rootParent := ?_ }
  · intro a ha c hc
    simp only [setLeft_Left, setLeft_Right, setLeft_Parent, alloc_Left, alloc_Right,
      alloc_Parent] at hc
    by_cases han : a = t.size
    · subst han
      simp [Ne.symm hsn] at hc
      omega
    · have ha' : a < t.size := by omega
      simp only [han, if_false] at hc
      rcases hc with hc | hc | hc
      · split_ifs at hc
        · cases hc; omega
        · exact Nat.lt_succ_of_lt (inv.ranked.closed a ha' c (Or.inl hc))
      · exact Nat.lt_succ_of_lt (inv.ranked.closed a ha' c (Or.inr (Or.inl hc)))
      · exact Nat.lt_succ_of_lt (inv.ranked.closed a ha' c (Or.inr (Or.inr hc)))
  · intro a ha c hc
    unfold IsChild at hc
    simp only [setLeft_Left, setLeft_Right, alloc_Left, alloc_Right] at hc
    by_cases han : a = t.size
    · subst han; simp [Ne.symm hsn] at hc
    · have ha' : a < t.size := by omega
      simp only [han, if_false] at hc
      rcases hc with hc | hc
      · split_ifs at hc with h1
        · cases hc; subst h1; simp [hsn]
        · have := hcl a ha' c (Or.inl hc)
          simp [han, this]
          exact inv.ranked.childRank a ha' c (Or.inl hc)
      · have := hcl a ha' c (Or.inr (Or.inl hc))
        simp [han, this]
        exact inv.ranked.childRank a ha' c (Or.inr hc)
  · intro a ha p hpa
    simp only [setLeft_Parent, alloc_Parent] at hpa
    by_cases han : a = t.size
    · subst han; simp at hpa; subst hpa; simp [hsn]
    · have ha' : a < t.size := by omega
      simp only [han, if_false] at hpa
      have := hcl a ha' p (Or.inr (Or.inr hpa))
      simp [han, this]
      exact inv.ranked.parentRank a ha' p hpa
  · intro a ha
    simp only [setLeft_Priority, alloc_Priority]
    by_cases han : a = t.size
    · simp [han, hp]
    · simp only [han, if_false]; exact inv.ranked.prioValid a (by omega)
  · intro a ha han p hpa
    have ha' : a < t.size := by omega
    simp only [setLeft_Parent, alloc_Parent, han, if_false] at hpa
    have := hcl a ha' p (Or.inr (Or.inr hpa))
    simp only [setLeft_Priority, alloc_Priority, han, this, if_false]
    exact inv.heap a ha' p hpa
  · intro p hpp
    simp at hpp
    subst hpp
    unfold IsChild
    simp [hsn]
    intro h
    exact hcl site hsite _ (Or.inr (Or.inl h)) rfl
  · intro a ha hc
    unfold IsChild at hc
    simp only [setLeft_Left, setLeft_Right, alloc_Left, alloc_Right] at hc
    by_cases han : a = t.size
    · subst han; simp [Ne.symm hsn] at hc
    · have ha' : a < t.size := by omega
      simp only [han, if_false] at hc
      rcases hc with hc | hc
      · split_ifs at hc with h1
        · subst h1; simp
        · exact absurd rfl (hcl a ha' _ (Or.inl hc))
      · exact absurd rfl (hcl a ha' _ (Or.inr (Or.inl hc)))
  · intro c hc
    unfold IsChild at hc
    simp [Ne.symm hsn] at hc
  · intro c hc
    simp [Ne.symm hsn] at hc
  · intro c p hc
    unfold IsChild at hc
    simp [Ne.symm hsn] at hc
  · intro a ha han hpa
    have ha' : a < t.size := by omega
    simp only [setLeft_Parent, alloc_Parent, han, if_false] at hpa
    have := inv.rootUnique a ha' hpa
    rw [hroot] at this
    exact (Option.some.inj this).symm
  · intro a ha han
    have ha' : a < t.size := by omega
    simp only [setLeft_Priority, alloc_Priority, han, hρn, if_false]
    exact inv.rootMin ρ hroot a ha'
  · intro h; simp at h
  · intro h; simp at h
  · intro _
    simp only [setLeft_Parent, alloc_Parent, hρn, if_false]
    exact inv.rootParent ρ hroot

/-- After `naiveInsert` linked the fresh node into an empty right slot the loop
invariant holds. -/
theorem bubbleInv_init_right {r : Nat → ℚ} {t : Tree} (inv : HeapInv r t) {ρ site : Nat}
    (hroot : t.Root = some ρ) (hsite : site < t.size) (hslot : (t.mem site).Right = none)
    (value priority : Int) (hp : validPriority priority) :
    BubbleInv (fun a => if a = t.size then r site + 1 else r a) (t.size + 1) ρ
      (setRight (alloc t.mem t.size value priority (some site)) site (some t.size)) t.size := by
  have hρ := inv.rootLt ρ hroot
  have hρn : ρ ≠ t.size := Nat.ne_of_lt hρ
  have hsn : site ≠ t.size := Nat.ne_of_lt hsite
  have hcl : ∀ a, a < t.size → ∀ c,
      ((t.mem a).Left = some c ∨ (t.mem a).Right = some c ∨ (t.mem a).Parent = some c) →
      c ≠ t.size := fun a ha c hc => Nat.ne_of_lt (inv.ranked.closed a ha c hc)
  refine
    { ranked := ⟨?_, ?_, ?_, ?_⟩, heapExc := ?_, curLt := Nat.lt_succ_self _,
      rootLt := Nat.lt_succ_of_lt hρ,
      curSlot := ?_, curOnly := ?_, curKids := ?_, curKidsNe := ?_, curKidsPrio := ?_,
      rootUniqueExc := ?_, rootMinExc := ?_, curTopMin := ?_, curTopOnly := ?_,
      rootParent := ?_ }
  · intro a ha c hc
    simp only [setRight_Left, setRight_Right, setRight_Parent, alloc_Left, alloc_Right,
      alloc_Parent] at hc
    by_cases han : a = t.size
    · subst han
      simp [Ne.symm hsn] at hc
      omega
    · have ha' : a < t.size := by omega
      simp only [han, if_false] at hc
      rcases hc with hc | hc | hc
      · exact Nat.lt_succ_of_lt (inv.ranked.closed a ha' c (Or.inl hc))
      · split_ifs at hc
        · cases hc; omega
        · exact Nat.lt_succ_of_lt (inv.ranked.closed a ha' c (Or.inr (Or.inl hc)))
      · exact Nat.lt_succ_of_lt (inv.ranked.closed a ha' c (Or.inr (Or.inr hc)))
  · intro a ha c hc
    unfold IsChild at hc
    simp only [setRight_Left, setRight_Right, alloc_Left, alloc_Right] at hc
    by_cases han : a = t.size
    · subst han; simp [Ne.symm hsn] at hc
    · have ha' : a < t.size := by omega
      simp only [han, if_false] at hc
      rcases hc with hc | hc
      · have := hcl a ha' c (Or.inl hc)
        simp [han, this]
        exact inv.ranked.childRank a ha' c (Or.inl hc)
      · split_ifs at hc with h1
        · cases hc; subst h1; simp [hsn]
        · have := hcl a ha' c (Or.inr (Or.inl hc))
          simp [han, this]
          exact inv.ranked.childRank a ha' c (Or.inr hc)
  · intro a ha p hpa
    simp only [setRight_Parent, alloc_Parent] at hpa
    by_cases han : a = t.size
    · subst han; simp at hpa; subst hpa; simp [hsn]
    · have ha' : a < t.size := by omega
      simp only [han, if_false] at hpa
      have := hcl a ha' p (Or.inr (Or.inr hpa))
      simp [han, this]
      exact inv.ranked.parentRank a ha' p hpa
  · intro a ha
    simp only [setRight_Priority, alloc_Priority]
    by_cases han : a = t.size
    · simp [han, hp]
    · simp only [han, if_false]; exact inv.ranked.prioValid a (by omega)
  · intro a ha han p hpa
    have ha' : a < t.size := by omega
    simp only [setRight_Parent, alloc_Parent, han, if_false] at hpa
    have := hcl a ha' p (Or.inr (Or.inr hpa))
    simp only [setRight_Priority, alloc_Priority, han, this, if_false]
    exact inv.heap a ha' p hpa
  · intro p hpp
    simp at hpp
    subst hpp
    unfold IsChild
    simp [hsn]
    intro h
    exact absurd rfl (hcl site hsite _ (Or.inl h))
  · intro a ha hc
    unfold IsChild at hc
    simp only [setRight_Left, setRight_Right, alloc_Left, alloc_Right] at hc
    by_cases han : a = t.size
    · subst han; simp [Ne.symm hsn] at hc
    · have ha' : a < t.size := by omega
      simp only [han, if_false] at hc
      rcases hc with hc | hc
      · exact absurd rfl (hcl a ha' _ (Or.inl hc))
      · split_ifs at hc with h1
        · subst h1; simp
        · exact absurd rfl (hcl a ha' _ (Or.inr (Or.inl hc)))
  · intro c hc
    unfold IsChild at hc
    simp [Ne.symm hsn] at hc
  · intro c hc
    simp [Ne.symm hsn] at hc
  · intro c p hc
    unfold IsChild at hc
    simp [Ne.symm hsn] at hc
  · intro a ha han hpa
    have ha' : a < t.size := by omega
    simp only [setRight_Parent, alloc_Parent, han, if_false] at hpa
    have := inv.rootUnique a ha' hpa
    rw [hroot] at this
    exact (Option.some.inj this).symm
  · intro a ha han
    have ha' : a < t.size := by omega
    simp only [setRight_Priority, alloc_Priority, han, hρn, if_false]
    exact inv.rootMin ρ hroot a ha'
  · intro h; simp at h
  · intro h; simp at h
  · intro _
    simp only [setRight_Parent, alloc_Parent, hρn, if_false]
    exact inv.rootParent ρ hroot

/-- After `naiveInsert` on an empty tree the loop invariant holds. -/
theorem bubbleInv_init_empty (mem : Nat → Node) (value priority : Int)
    (hp : validPriority priority) :
    BubbleInv (fun _ => 0) 1 0 (alloc mem 0 value priority none) 0 := by
  refine
    { ranked := ⟨?_, ?_, ?_, ?_⟩, heapExc := ?_, curLt := Nat.lt_succ_self _,
      rootLt := Nat.lt_succ_self _,
      curSlot := ?_, curOnly := ?_, curKids := ?_, curKidsNe := ?_, curKidsPrio := ?_,
      rootUniqueExc := ?_, rootMinExc := ?_, curTopMin := ?_, curTopOnly := ?_,
      rootParent := ?_ }
  · intro a ha c hc
    have : a = 0 := by omega
    subst this; simp at hc
  · intro a ha c hc
    have : a = 0 := by omega
    subst this; unfold IsChild at hc; simp at hc
  · intro a ha p hpa
    have : a = 0 := by omega
    subst this; simp at hpa
  · intro a ha
    have : a = 0 := by omega
    subst this; simpa using hp
  · intro a ha han; omega
  · intro p hpp; simp at hpp
  · intro a ha hc
    have : a = 0 := by omega
    subst this; unfold IsChild at hc; simp at hc
  · intro c hc; unfold IsChild at hc; simp at hc
  · intro c hc; simp at hc
  · intro c p hc; unfold IsChild at hc; simp at hc
  · intro a ha han; omega
  · intro a ha han; omega
  · intro _ a ha
    have : a = 0 := by omega
    subst this; exact le_refl _
  · intro _ a ha han; omega
  · intro h; simp at h

/-- When the bubble-up loop has ended, the final assignment of `tree.Root`
re-establishes the heap invariant. -/
theorem heapInv_of_bubbleInv {r : Nat → ℚ} {n ρ : Nat} {mem : Nat → Node} {cur : Nat}
    (inv : BubbleInv r n ρ mem cur) (hcond : bubbleCond mem cur = false) :
    HeapInv r { Root := if (mem cur).Parent = none then some cur else some ρ,
                size := n, mem := mem } := by
  rw [bubbleCond_false_iff] at hcond
  have hcurheap : ∀ p, (mem cur).Parent = some p → (mem p).Priority ≤ (mem cur).Priority := by
    intro p hp
    have hpn : p < n := inv.ranked.closed cur inv.curLt p (Or.inr (Or.inr hp))
    have := hcond p hp
    rw [compare_priority (inv.ranked.prioValid cur inv.curLt) (inv.ranked.prioValid p hpn)] at this
    exact le_of_not_lt this
  refine
    { ranked := inv.ranked, heap := ?_, rootLt := ?_, rootNone := ?_, rootParent := ?_,
      rootUnique := ?_, rootMin := ?_ }
  · intro a ha p hp
    by_cases hac : a = cur
    · subst hac; exact hcurheap p hp
    · exact inv.heapExc a ha hac p hp
  · intro x hx
    simp only at hx
    split_ifs at hx <;> cases hx
    · exact inv.curLt
    · exact inv.rootLt
  · intro h
    simp only at h
    split_ifs at h
  · intro x hx
    simp only at hx ⊢
    split_ifs at hx with h1 <;> cases hx
    · exact h1
    · exact inv.rootParent h1
  · intro a ha hp
    simp only at hp ⊢
    by_cases hac : a = cur
    · subst hac; simp [hp]
    · by_cases h1 : (mem cur).Parent = none
      · exact absurd hp (inv.curTopOnly h1 a ha hac)
      · simp [h1]; exact (inv.rootUniqueExc a ha hac hp).symm
  · intro x hx a ha
    simp only at hx ⊢
    split_ifs at hx with h1 <;> cases hx
    · exact inv.curTopMin h1 a ha
    · by_cases hac : a = cur
      · subst hac
        cases hpar : (mem a).Parent with
        | none => exact absurd hpar h1
        | some p =>
          have hpn : p < n := inv.ranked.closed a ha p (Or.inr (Or.inr hpar))
          have hpne : p ≠ a := by
            rintro rfl
            exact lt_irrefl _ (inv.ranked.parentRank p ha p hpar)
          have := inv.rootMinExc p hpn hpne
          have := hcurheap p hpar
          linarith
      · exact inv.rootMinExc a ha hac

/-- `Insert` never faults on a heap satisfying the invariant, re-establishes the
invariant, allocates exactly one node carrying the given key and priority, and
changes no key and no priority of an existing node. -/
theorem Insert_ok {r : Nat → ℚ} {t : Tree} (inv : HeapInv r t) (value priority : Int)
    (hp : validPriority priority) :
    ∃ r1 t1, t.Insert value priority = .ok t1 ∧ HeapInv r1 t1 ∧ t1.size = t.size + 1 ∧
      (∀ a, a < t.size → (t1.mem a).Value = (t.mem a).Value ∧
        (t1.mem a).Priority = (t.mem a).Priority) ∧
      (t1.mem t.size).Value = value ∧ (t1.mem t.size).Priority = priority := by
  unfold Tree.Insert Tree.naiveInsert
  cases hroot : t.Root with
  | none =>
    have hsz : t.size = 0 := inv.rootNone hroot
    simp only [hsz]
    have binv := bubbleInv_init_empty t.mem value priority hp
    obtain ⟨r2, mem2, hb, inv2, hc2, hV2, hPr2⟩ :=
      bubble_ok 1 0 0 1 _ _ binv (by
        unfold bubbleMeasure; simp)
    simp only [Nat.zero_add, hb]
    refine ⟨r2, _, rfl, heapInv_of_bubbleInv inv2 hc2, rfl, ?_, ?_, ?_⟩
    · intro a ha; omega
    · simp [hV2]
    · simp [hPr2]
  | some ρ =>
    have hρ := inv.rootLt ρ hroot
    obtain ⟨site, hsite, hcase⟩ :=
      naiveLoop_ok inv.ranked value priority t.size t.size ρ hρ (descentMeasure_lt r hρ)
    have hsn : site ≠ t.size := Nat.ne_of_lt hsite
    rcases hcase with ⟨_, hslot, hloop⟩ | ⟨_, hslot, hloop⟩
    · have binv := bubbleInv_init_left inv hroot hsite hslot value priority hp
      obtain ⟨r2, mem2, hb, inv2, hc2, hV2, hPr2⟩ :=
        bubble_ok (t.size + 1) ρ t.size (t.size + 1) _ _ binv (by
          unfold bubbleMeasure
          simp only [setLeft_Parent, alloc_Parent, if_true]
          exact le_trans (Finset.card_filter_le _ _) (by simp))
      simp only [hloop, hb]
      refine ⟨r2, _, rfl, heapInv_of_bubbleInv inv2 hc2, rfl, ?_, ?_, ?_⟩
      · intro a ha
        have : a ≠ t.size := Nat.ne_of_lt ha
        simp [hV2, hPr2, this]
      · simp [hV2]
      · simp [hPr2]
    · have binv := bubbleInv_init_right inv hroot hsite hslot value priority hp
      obtain ⟨r2, mem2, hb, inv2, hc2, hV2, hPr2⟩ :=
        bubble_ok (t.size + 1) ρ t.size (t.size + 1) _ _ binv (by
          unfold bubbleMeasure
          simp only [setRight_Parent, alloc_Parent, if_true]
          exact le_trans (Finset.card_filter_le _ _) (by simp))
      simp only [hloop, hb]
      refine ⟨r2, _, rfl, heapInv_of_bubbleInv inv2 hc2, rfl, ?_, ?_, ?_⟩
      · intro a ha
        have : a ≠ t.size := Nat.ne_of_lt ha
        simp [hV2, hPr2, this]
      · simp [hV2]
      · simp [hPr2]

/-- The empty tree satisfies the heap invariant. -/
theorem heapInv_NewTree : HeapInv (fun _ => 0) NewTree := by
  refine ⟨⟨?_, ?_, ?_, ?_⟩, ?_, ?_, ?_, ?_, ?_, ?_⟩ <;> intros <;>
    simp_all [NewTree]

/-- A sequence of `Insert`s with priorities drawn by `rnd.Intn` never faults, keeps
the heap invariant, and stores the `i`-th pair at the `i`-th fresh address. -/
theorem insertAll_ok (kps : List (Int × Int)) :
    ∀ (r : Nat → ℚ) (t : Tree), HeapInv r t → (∀ kp ∈ kps, validPriority kp.2) →
      ∃ r1 t1, insertAll t kps = .ok t1 ∧ HeapInv r1 t1 ∧ t1.size = t.size + kps.length ∧
        (∀ a, a < t.size → (t1.mem a).Value = (t.mem a).Value ∧
          (t1.mem a).Priority = (t.mem a).Priority) ∧
        (∀ i kp, kps[i]? = some kp → (t1.mem (t.size + i)).Value = kp.1 ∧
          (t1.mem (t.size + i)).Priority = kp.2) := by
  induction kps with
  | nil =>
    intro r t inv _
    exact ⟨r, t, rfl, inv, rfl, fun _ _ => ⟨rfl, rfl⟩, by simp⟩
  | cons kp rest ih =>
    intro r t inv hp
    obtain ⟨value, priority⟩ := kp
    obtain ⟨r1, t1, hins, inv1, hsz1, hold1, hv1, hp1⟩ :=
      Insert_ok inv value priority (hp _ (List.mem_cons_self _ _))
    obtain ⟨r2, t2, hall, inv2, hsz2, hold2, hnew2⟩ :=
      ih r1 t1 inv1 (fun kp hkp => hp kp (List.mem_cons_of_mem _ hkp))
    refine ⟨r2, t2, ?_, inv2, ?_, ?_, ?_⟩
    · simp [insertAll, hins, hall]
    · rw [hsz2, hsz1, List.length_cons]; omega
    · intro a ha
      have h1 := hold1 a ha
      have h2 := hold2 a (by omega)
      exact ⟨h2.1.trans h1.1, h2.2.trans h1.2⟩
    · intro i kp hi
      cases i with
      | zero =>
        simp at hi; subst hi
        have h2 := hold2 t.size (by omega)
        simp only [Nat.add_zero]
        exact ⟨h2.1.trans hv1, h2.2.trans hp1⟩
      | succ i =>
        simp at hi
        have := hnew2 i kp hi
        rw [hsz1] at this
        have e : t.size + (i + 1) = t.size + 1 + i := by omega
        rw [e]; exact this

/-- Every node reachable from the root is an allocated node. -/
theorem reachable_lt {r : Nat → ℚ} {t : Tree} (inv : HeapInv r t) {a : Nat}
    (h : Reachable t.mem t.Root a) : a < t.size := by
  induction h with
  | root h => exact inv.rootLt _ h
  | step _ hc ih =>
    rcases hc with hc | hc
    · exact inv.ranked.closed _ ih _ (Or.inl hc)
    · exact inv.ranked.closed _ ih _ (Or.inr (Or.inl hc))

/-- The loop of `Get` ends within its budget, either with `(nil, false)` or at a node
whose key compares equal to the target. -/
theorem getLoop_ok {r : Nat → ℚ} {n : Nat} {mem : Nat → Node} (hr : Ranked r n mem)
    (target : Int) :
    ∀ (fuel : Nat) (ptr : Option Nat),
      (∀ a, ptr = some a → a < n ∧ descentMeasure r n a < fuel) →
      getLoop mem target fuel ptr = .ok (none, false) ∨
        ∃ a, a < n ∧ compare target (mem a).Value = 0 ∧
          getLoop mem target fuel ptr = .ok (some a, true) := by
  intro fuel
  induction fuel with
  | zero =>
    intro ptr h
    cases ptr with
    | none => left; rfl
    | some a => have := (h a rfl).2; omega
  | succ fuel ih =>
    intro ptr h
    cases ptr with
    | none => left; rfl
    | some a =>
      obtain ⟨han, hm⟩ := h a rfl
      unfold getLoop
      by_cases h0 : compare target (mem a).Value = 0
      · right; exact ⟨a, han, h0, by simp [h0]⟩
      · rw [if_neg h0]
        by_cases hlt : compare target (mem a).Value < 0
        · rw [if_pos hlt]
          apply ih
          intro c hc
          obtain ⟨h1, h2⟩ := descentMeasure_child hr han (Or.inl hc)
          exact ⟨h1, by omega⟩
        · rw [if_neg hlt]
          apply ih
          intro c hc
          obtain ⟨h1, h2⟩ := descentMeasure_child hr han (Or.inr hc)
          exact ⟨h1, by omega⟩

/-- On a heap satisfying the invariant `Get` returns `(nil, false)` or a node whose
key compares equal to the target. -/
theorem Get_ok {r : Nat → ℚ} {t : Tree} (inv : HeapInv r t) (target : Int) :
    t.Get target = .ok (none, false) ∨
      ∃ a, a < t.size ∧ compare target (t.mem a).Value = 0 ∧
        t.Get target = .ok (some a, true) := by
  unfold Tree.Get
  apply getLoop_ok inv.ranked
  intro a ha
  have := inv.rootLt a ha
  exact ⟨this, descentMeasure_lt r this⟩

/-- On 64-bit ints the comparator returns zero exactly on equal operands. -/
theorem compare_eq_zero {a b : Int} (ha : isInt a) (hb : isInt b) :
    compare a b = 0 ↔ a = b := by
  unfold isInt at ha hb
  unfold compare wrap64
  omega

/-! ## Shapes: framing and traversal -/

/-- In-order of a plugged path: what precedes the hole, the subtree, what follows. -/
theorem inorder_plug (fs : List Frame) :
    ∀ s : Shape, (plug fs s).inorder = ctxBefore fs ++ s.inorder ++ ctxAfter fs := by
  induction fs with
  | nil => intro s; simp [plug, ctxBefore, ctxAfter]
  | cons f fs ih =>
    intro s
    cases f with
    | inL a r => simp [plug, ih, ctxBefore, ctxAfter, Shape.inorder]
    | inR l a => simp [plug, ih, ctxBefore, ctxAfter, Shape.inorder]

/-- A laid-out path and a laid-out subtree in its hole make a laid-out tree. -/
theorem Owns_plug {mem : Nat → Node} (fs : List Frame) :
    ∀ (s : Shape) (ptr par : Option Nat), OwnsCtx mem fs ptr par → Owns mem s ptr par →
      Owns mem (plug fs s) (ctxTop fs ptr) none := by
  induction fs with
  | nil =>
    intro s ptr par hc ho
    simp only [OwnsCtx] at hc
    subst hc
    exact ho
  | cons f fs ih =>
    intro s ptr par hc ho
    cases f with
    | inL a r =>
      obtain ⟨h1, h2, h3, h4⟩ := hc
      subst h1
      simp only [plug, ctxTop, Frame.addr]
      apply ih _ _ _ h4
      exact ⟨rfl, rfl, h2 ▸ ho, h3⟩
    | inR l a =>
      obtain ⟨h1, h2, h3, h4⟩ := hc
      subst h1
      simp only [plug, ctxTop, Frame.addr]
      apply ih _ _ _ h4
      exact ⟨rfl, rfl, h3, h2 ▸ ho⟩

/-- A subtree stays laid out when the heap changes nothing in it but the `Parent`
pointer of its topmost node. -/
theorem Owns_transfer {mem mem1 : Nat → Node} :
    ∀ (s : Shape) (ptr par par1 : Option Nat), Owns mem s ptr par → s.inorder.Nodup →
      (∀ a ∈ s.inorder, (mem1 a).Left = (mem a).Left ∧ (mem1 a).Right = (mem a).Right ∧
        (ptr ≠ some a → (mem1 a).Parent = (mem a).Parent)) →
      (∀ a, ptr = some a → (mem1 a).Parent = par1) →
      Owns mem1 s ptr par1 := by
  intro s
  induction s with
  | nil => intro ptr par par1 h _ _ _; exact h
  | node l a r ihl ihr =>
    intro ptr par par1 h hnd hsame hroot
    obtain ⟨h1, h2, h3, h4⟩ := h
    subst h1
    simp only [Shape.inorder] at hnd hsame
    rw [List.nodup_append] at hnd
    obtain ⟨hndl, hndr, hdisj⟩ := hnd
    rw [List.nodup_cons] at hndr
    have ha := hsame a (by simp)
    refine ⟨rfl, hroot a rfl, ?_, ?_⟩
    · rw [ha.1]
      refine ihl _ _ _ h3 hndl ?_ ?_
      · intro b hb
        have hba : b ≠ a := by
          rintro rfl; exact hdisj hb (List.mem_cons_self _ _)
        have := hsame b (by simp [hb])
        exact ⟨this.1, this.2.1, fun _ => this.2.2 (by simpa using hba.symm)⟩
      · intro b hb
        have hbl : b ∈ l.inorder := by
          cases l with
          | nil => simp [Owns] at h3; rw [h3] at hb; cases hb
          | node _ _ _ => 
            have := h3.1; rw [this] at hb; cases hb; simp [Shape.inorder]
        have hba : b ≠ a := by
          rintro rfl; exact hdisj hbl (List.mem_cons_self _ _)
        have := hsame b (by simp [hbl])
        rw [this.2.2 (by simpa using hba.symm)]
        cases l with
        | nil => simp [Owns] at h3; rw [h3] at hb; cases hb
        | node _ _ _ => 
          have h5 := h3.1; rw [h5] at hb; cases hb; exact h3.2.1
    · rw [ha.2.1]
      refine ihr _ _ _ h4 hndr.2 ?_ ?_
      · intro b hb
        have hba : b ≠ a := by
          rintro rfl; exact hndr.1 hb
        have := hsame b (by simp [hb])
        exact ⟨this.1, this.2.1, fun _ => this.2.2 (by simpa using hba.symm)⟩
      · intro b hb
        have hbl : b ∈ r.inorder := by
          cases r with
          | nil => simp [Owns] at h4; rw [h4] at hb; cases hb
          | node _ _ _ => 
            have := h4.1; rw [this] at hb; cases hb; simp [Shape.inorder]
        have hba : b ≠ a := by
          rintro rfl; exact hndr.1 hbl
        have := hsame b (by simp [hbl])
        rw [this.2.2 (by simpa using hba.symm)]
        cases r with
        | nil => simp [Owns] at h4; rw [h4] at hb; cases hb
        | node _ _ _ => 
          have h5 := h4.1; rw [h5] at hb; cases hb; exact h4.2.1

/-- The topmost node of a laid-out subtree belongs to it and points to the owner. -/
theorem Owns_root {mem : Nat → Node} {s : Shape} {ptr par : Option Nat} {a : Nat}
    (h : Owns mem s ptr par) (hp : ptr = some a) :
    a ∈ s.inorder ∧ (mem a).Parent = par := by
  cases s with
  | nil => simp only [Owns] at h; rw [h] at hp; cases hp
  | node l b r =>
    obtain ⟨h1, h2, _, _⟩ := h
    rw [h1] at hp; cases hp
    exact ⟨by simp [Shape.inorder], h2⟩

/-- A subtree stays laid out when the heap changes no link of its nodes. -/
theorem Owns_frame {mem mem1 : Nat → Node} {s : Shape} {ptr par : Option Nat}
    (h : Owns mem s ptr par) (hnd : s.inorder.Nodup)
    (hsame : ∀ a ∈ s.inorder, (mem1 a).Left = (mem a).Left ∧
      (mem1 a).Right = (mem a).Right ∧ (mem1 a).Parent = (mem a).Parent) :
    Owns mem1 s ptr par := by
  refine Owns_transfer s ptr par par h hnd ?_ ?_
  · intro a ha
    have := hsame a ha
    exact ⟨this.1, this.2.1, fun _ => this.2.2⟩
  · intro a ha
    obtain ⟨h1, h2⟩ := Owns_root h ha
    rw [(hsame a h1).2.2, h2]

/-- A path stays laid out when the heap changes no link of its nodes. -/
theorem OwnsCtx_frame {mem mem1 : Nat → Node} (fs : List Frame) :
    ∀ (ptr par : Option Nat), OwnsCtx mem fs ptr par →
      (ctxBefore fs ++ ctxAfter fs).Nodup →
      (∀ a ∈ ctxBefore fs ++ ctxAfter fs, (mem1 a).Left = (mem a).Left ∧
        (mem1 a).Right = (mem a).Right ∧ (mem1 a).Parent = (mem a).Parent) →
      OwnsCtx mem1 fs ptr par := by
  induction fs with
  | nil => intro ptr par h _ _; exact h
  | cons f fs ih =>
    intro ptr par h hnd hsame
    cases f with
    | inL a r =>
      obtain ⟨h1, h2, h3, h4⟩ := h
      simp only [ctxBefore, ctxAfter] at hnd hsame
      have ha := hsame a (by simp)
      have hndr : r.inorder.Nodup := by
        apply hnd.sublist
        apply List.Sublist.trans _ (List.sublist_append_right _ _)
        apply List.Sublist.trans _ (List.sublist_append_left _ _)
        exact List.sublist_cons_self _ _
      have hndfs : (ctxBefore fs ++ ctxAfter fs).Nodup := by
        apply hnd.sublist
        apply List.Sublist.append (List.Sublist.refl _)
        exact List.sublist_append_right _ _
      refine ⟨h1, ?_, ?_, ?_⟩
      · rw [ha.1, h2]
      · rw [ha.2.1]
        exact Owns_frame h3 hndr (fun b hb => hsame b (by simp [hb]))
      · rw [ha.2.2]
        refine ih _ _ h4 hndfs (fun b hb => hsame b ?_)
        simp only [List.mem_append] at hb ⊢
        rcases hb with hb | hb
        · exact Or.inl hb
        · exact Or.inr (Or.inr hb)
    | inR l a =>
      obtain ⟨h1, h2, h3, h4⟩ := h
      simp only [ctxBefore, ctxAfter] at hnd hsame
      have ha := hsame a (by simp)
      have hndl : l.inorder.Nodup := by
        apply hnd.sublist
        apply List.Sublist.trans _ (List.sublist_append_left _ _)
        apply List.Sublist.trans _ (List.sublist_append_right _ _)
        exact List.sublist_append_left _ _
      have hndfs : (ctxBefore fs ++ ctxAfter fs).Nodup := by
        apply hnd.sublist
        apply List.Sublist.append _ (List.Sublist.refl _)
        exact List.sublist_append_left _ _
      refine ⟨h1, ?_, ?_, ?_⟩
      · rw [ha.2.1, h2]
      · rw [ha.1]
        exact Owns_frame h3 hndl (fun b hb => hsame b (by simp [hb]))
      · rw [ha.2.2]
        refine ih _ _ h4 hndfs (fun b hb => hsame b ?_)
        simp only [List.mem_append] at hb ⊢
        rcases hb with hb | hb
        · exact Or.inl (Or.inl hb)
        · exact Or.inr hb

/-- On a laid-out subtree `flatten` appends its in-order, given fuel for its height. -/
theorem flatten_owns {mem : Nat → Node} :
    ∀ (s : Shape) (fuel : Nat) (ptr par : Option Nat) (arr : List Nat),
      Owns mem s ptr par → s.height ≤ fuel →
      flatten mem fuel ptr arr = .ok (arr ++ s.inorder) := by
  intro s
  induction s with
  | nil =>
    intro fuel ptr par arr h _
    simp only [Owns] at h
    subst h
    cases fuel <;> simp [flatten, Shape.inorder]
  | node l a r ihl ihr =>
    intro fuel ptr par arr h hf
    obtain ⟨h1, _, h3, h4⟩ := h
    subst h1
    cases fuel with
    | zero => simp [Shape.height] at hf
    | succ fuel =>
      simp only [Shape.height] at hf
      have hl : l.height ≤ fuel := by omega
      have hr : r.height ≤ fuel := by omega
      simp only [flatten, ihl fuel _ _ arr h3 hl, ihr fuel _ _ _ h4 hr, Shape.inorder]
      simp

/-- The height of a shape is at most its number of nodes. -/
theorem height_le_length (s : Shape) : s.height ≤ s.inorder.length := by
  induction s with
  | nil => simp [Shape.height]
  | node l a r ihl ihr =>
    simp only [Shape.height, Shape.inorder, List.length_append, List.length_cons]
    omega

/-- A duplicate-free list of addresses below `n` has at most `n` entries. -/
theorem length_le_of_nodup_bound {l : List Nat} {n : Nat} (hnd : l.Nodup)
    (hb : ∀ a ∈ l, a < n) : l.length ≤ n := by
  have h1 : l.toFinset ⊆ Finset.range n := by
    intro a ha
    simp only [List.mem_toFinset] at ha
    simpa using hb a ha
  have h2 := Finset.card_le_card h1
  rw [List.toFinset_card_of_nodup hnd] at h2
  simpa using h2

/-- Addresses whose keys increase strictly are pairwise distinct. -/
theorem nodup_of_sorted_keys {key : Nat → Int} {l : List Nat}
    (h : l.Pairwise (fun x y => key x < key y)) : l.Nodup := by
  unfold List.Nodup
  refine h.imp ?_
  intro a b hab heq
  rw [heq] at hab
  exact lt_irrefl _ hab

/-- The top of a non-empty path does not depend on what its hole holds. -/
theorem ctxTop_indep (fs : List Frame) (h : fs ≠ []) (p q : Option Nat) :
    ctxTop fs p = ctxTop fs q := by
  cases fs with
  | nil => exact absurd rfl h
  | cons f fs => rfl

/-- Where the difference fits Go's `int` the comparator returns it. -/
theorem compare_exact {a b : Int}
    (h : -9223372036854775808 ≤ a - b ∧ a - b < 9223372036854775808) :
    compare a b = a - b := by
  unfold compare wrap64
  omega

/-- The node above the hole of a laid-out path belongs to the path. -/
theorem OwnsCtx_par_mem {mem : Nat → Node} {fs : List Frame} {ptr par : Option Nat} {g : Nat}
    (h : OwnsCtx mem fs ptr par) (hp : par = some g) : g ∈ ctxBefore fs ++ ctxAfter fs := by
  cases fs with
  | nil => simp only [OwnsCtx] at h; rw [h] at hp; cases hp
  | cons f fs =>
    cases f with
    | inL a r =>
      obtain ⟨h1, _⟩ := h
      rw [h1] at hp; cases hp
      simp [ctxBefore, ctxAfter]
    | inR l a =>
      obtain ⟨h1, _⟩ := h
      rw [h1] at hp; cases hp
      simp [ctxBefore, ctxAfter]

/-- A path stays laid out when the heap only replaces the pointer in its hole. -/
theorem OwnsCtx_rehang {mem mem1 : Nat → Node} {fs : List Frame} {ptr ptr1 par : Option Nat}
    (h : OwnsCtx mem fs ptr par) (hnd : (ctxBefore fs ++ ctxAfter fs).Nodup)
    (hpar : ∀ a ∈ ctxBefore fs ++ ctxAfter fs, (mem1 a).Parent = (mem a).Parent)
    (hsame : ∀ a ∈ ctxBefore fs ++ ctxAfter fs, par ≠ some a →
      (mem1 a).Left = (mem a).Left ∧ (mem1 a).Right = (mem a).Right)
    (hL : ∀ g r2 fs2, fs = .inL g r2 :: fs2 →
      (mem1 g).Left = ptr1 ∧ (mem1 g).Right = (mem g).Right)
    (hR : ∀ l2 g fs2, fs = .inR l2 g :: fs2 →
      (mem1 g).Right = ptr1 ∧ (mem1 g).Left = (mem g).Left) :
    OwnsCtx mem1 fs ptr1 par := by
  cases fs with
  | nil => exact h
  | cons f fs =>
    cases f with
    | inL a r =>
      obtain ⟨h1, h2, h3, h4⟩ := h
      simp only [ctxBefore, ctxAfter] at hnd hpar hsame
      obtain ⟨e1, e2⟩ := hL a r fs rfl
      have hndr : r.inorder.Nodup := by
        apply hnd.sublist
        apply List.Sublist.trans _ (List.sublist_append_right _ _)
        apply List.Sublist.trans _ (List.sublist_append_left _ _)
        exact List.sublist_cons_self _ _
      have hndfs : (ctxBefore fs ++ ctxAfter fs).Nodup := by
        apply hnd.sublist
        apply List.Sublist.append (List.Sublist.refl _)
        exact List.sublist_append_right _ _
      have hne : ∀ b, b ∈ ctxBefore fs ++ (r.inorder ++ ctxAfter fs) → par ≠ some b := by
        intro b hb hpb
        rw [h1] at hpb; cases hpb
        have := hnd
        simp only [List.nodup_append, List.nodup_cons, List.mem_append, List.mem_cons,
          List.Disjoint] at this hb
        rcases hb with hb | hb | hb
        · exact this.2.2 hb (by simp)
        · tauto
        · tauto
      refine ⟨h1, e1, ?_, ?_⟩
      · rw [e2]
        refine Owns_frame h3 hndr (fun b hb => ?_)
        have hb' : b ∈ ctxBefore fs ++ (r.inorder ++ ctxAfter fs) := by simp [hb]
        have h5 := hsame b (by simp [hb]) (hne b hb')
        exact ⟨h5.1, h5.2, hpar b (by simp [hb])⟩
      · rw [hpar a (by simp)]
        refine OwnsCtx_frame fs _ _ h4 hndfs (fun b hb => ?_)
        have hb' : b ∈ ctxBefore fs ++ (r.inorder ++ ctxAfter fs) := by
          simp only [List.mem_append] at hb ⊢
          tauto
        have hb2 : b ∈ ctxBefore fs ++ (a :: r.inorder ++ ctxAfter fs) := by
          simp only [List.mem_append, List.mem_cons] at hb ⊢
          tauto
        have h5 := hsame b hb2 (hne b hb')
        exact ⟨h5.1, h5.2, hpar b hb2⟩
    | inR l a =>
      obtain ⟨h1, h2, h3, h4⟩ := h
      simp only [ctxBefore, ctxAfter] at hnd hpar hsame
      obtain ⟨e1, e2⟩ := hR l a fs rfl
      have hndl : l.inorder.Nodup := by
        apply hnd.sublist
        apply List.Sublist.trans _ (List.sublist_append_left _ _)
        apply List.Sublist.trans _ (List.sublist_append_right _ _)
        exact List.sublist_append_left _ _
      have hndfs : (ctxBefore fs ++ ctxAfter fs).Nodup := by
        apply hnd.sublist
        apply List.Sublist.append _ (List.Sublist.refl _)
        exact List.sublist_append_left _ _
      have hne : ∀ b, b ∈ (ctxBefore fs ++ l.inorder) ++ ctxAfter fs → par ≠ some b := by
        intro b hb hpb
        rw [h1] at hpb; cases hpb
        have := hnd
        simp only [List.nodup_append, List.nodup_cons, List.mem_append, List.mem_cons,
          List.mem_singleton, List.nodup_nil, List.not_mem_nil, List.Disjoint] at this hb
        rcases hb with (hb | hb) | hb
        · exact this.1.2.2 hb (by simp)
        · exact this.1.2.1.2.2 hb (by simp)
        · exact this.2.2 (by simp) hb
      refine ⟨h1, e1, ?_, ?_⟩
      · rw [e2]
        refine Owns_frame h3 hndl (fun b hb => ?_)
        have hb' : b ∈ (ctxBefore fs ++ l.inorder) ++ ctxAfter fs := by simp [hb]
        have h5 := hsame b (by simp [hb]) (hne b hb')
        exact ⟨h5.1, h5.2, hpar b (by simp [hb])⟩
      · rw [hpar a (by simp)]
        refine OwnsCtx_frame fs _ _ h4 hndfs (fun b hb => ?_)
        have hb' : b ∈ (ctxBefore fs ++ l.inorder) ++ ctxAfter fs := by
          simp only [List.mem_append] at hb ⊢
          tauto
        have hb2 : b ∈ ctxBefore fs ++ (l.inorder ++ [a]) ++ ctxAfter fs := by
          simp only [List.mem_append, List.mem_cons] at hb ⊢
          tauto
        have h5 := hsame b hb2 (hne b hb')
        exact ⟨h5.1, h5.2, hpar b hb2⟩

/-- Splitting a duplicate-free list into a middle part and the rest. -/
theorem nodup_mid {B M A : List Nat} (h : (B ++ M ++ A).Nodup) :
    M.Nodup ∧ (B ++ A).Nodup ∧ ∀ x ∈ M, x ∉ B ++ A := by
  simp only [List.nodup_append, List.mem_append, List.Disjoint] at h ⊢
  refine ⟨h.1.2.1, ⟨h.1.1, h.2.1, ?_⟩, ?_⟩
  · intro a ha hb; exact h.2.2 (Or.inl ha) hb
  · intro x hx hxx
    rcases hxx with hxx | hxx
    · exact h.1.2.2 hxx hx
    · exact h.2.2 (Or.inr hx) hxx

/-- Distinctness facts for a duplicate-free list of three segments and two separators. -/
theorem nodup_three {X Y Z : List Nat} {p q : Nat}
    (h : (X ++ p :: (Y ++ q :: Z)).Nodup) :
    p ≠ q ∧ (∀ a ∈ X, a ≠ p ∧ a ≠ q ∧ a ∉ Y ∧ a ∉ Z) ∧
    (∀ a ∈ Y, a ≠ p ∧ a ≠ q ∧ a ∉ Z) ∧ (∀ a ∈ Z, a ≠ p ∧ a ≠ q) ∧
    X.Nodup ∧ Y.Nodup ∧ Z.Nodup := by
  rw [List.nodup_append] at h
  obtain ⟨hX, h2, hd1⟩ := h
  rw [List.nodup_cons, List.nodup_append] at h2
  obtain ⟨hp, hY, h3, hd2⟩ := h2
  rw [List.nodup_cons] at h3
  obtain ⟨hq, hZ⟩ := h3
  have hd1' : ∀ a, a ∈ X → a ∈ p :: (Y ++ q :: Z) → False := fun a ha hb => hd1 ha hb
  have hd2' : ∀ a, a ∈ Y → a ∈ q :: Z → False := fun a ha hb => hd2 ha hb
  refine ⟨?_, ?_, ?_, ?_, hX, hY, hZ⟩
  · rintro rfl; exact hp (by simp)
  · intro a ha
    refine ⟨?_, ?_, ?_, ?_⟩
    · rintro rfl; exact hd1' a ha (by simp)
    · rintro rfl; exact hd1' a ha (by simp)
    · intro h; exact hd1' a ha (by simp [h])
    · intro h; exact hd1' a ha (by simp [h])
  · intro a ha
    refine ⟨?_, ?_, ?_⟩
    · rintro rfl; exact hp (by simp [ha])
    · rintro rfl; exact hd2' a ha (by simp)
    · intro h; exact hd2' a ha (by simp [h])
  · intro a ha
    refine ⟨?_, ?_⟩
    · rintro rfl; exact hp (by simp [ha])
    · rintro rfl; exact hq ha

/-! ## `Insert` on trees with pairwise distinct keys -/

/-- On a tree with distinct keys a right rotation at the parent of `cur` moves `cur`
one frame up the path and keeps the in-order. -/
theorem climb_rightRotate {key : Nat → Int} {L : List Nat} {ρ : Nat} {mem : Nat → Node}
    {cur node : Nat} {rn : Shape} {fs : List Frame} {l r : Shape}
    (hsorted : L.Pairwise (fun x y => key x < key y))
    (hfit : ∀ a ∈ L, ∀ b ∈ L, -9223372036854775808 ≤ key a - key b ∧
      key a - key b < 9223372036854775808)
    (inv : ClimbInv key L ρ mem cur (.inL node rn :: fs) l r) :
    ∃ mem1, rightRotate mem node = .ok mem1 ∧
      ClimbInv key L ρ mem1 cur fs l (.node r node rn) ∧
      (∀ a, (mem1 a).Priority = (mem a).Priority) := by
  obtain ⟨hpar, hleft, hrn, hctx⟩ := inv.ctx
  obtain ⟨_, _, hl, hr⟩ := inv.sub
  have hLeq : L = ctxBefore fs ++ (l.inorder ++ cur :: (r.inorder ++ node :: rn.inorder)) ++
      ctxAfter fs := by
    rw [← inv.order, inorder_plug]; simp [ctxBefore, ctxAfter, Shape.inorder]
  have hnd : L.Nodup := nodup_of_sorted_keys hsorted
  rw [hLeq] at hnd
  obtain ⟨hM, hBA, hdisj⟩ := nodup_mid hnd
  obtain ⟨hcn, dl, dr, drn, ndl, ndr, ndrn⟩ := nodup_three hM
  have hg : ∀ g, (mem node).Parent = some g → g ∈ ctxBefore fs ++ ctxAfter fs :=
    fun g h => OwnsCtx_par_mem hctx h
  have hx : ∀ x, (mem cur).Right = some x → x ∈ r.inorder :=
    fun x h => (Owns_root hr h).1
  have hcurM : cur ∈ l.inorder ++ cur :: (r.inorder ++ node :: rn.inorder) := by simp
  have hnodeM : node ∈ l.inorder ++ cur :: (r.inorder ++ node :: rn.inorder) := by simp
  have hgn : (mem node).Parent ≠ some node := fun h => hdisj node hnodeM (hg node h)
  have hgc : (mem node).Parent ≠ some cur := fun h => hdisj cur hcurM (hg cur h)
  have hxc : (mem cur).Right ≠ some cur := fun h => (dr cur (hx cur h)).1 rfl
  have hxn : (mem cur).Right ≠ some node := fun h => (dr node (hx node h)).2.1 rfl
  obtain ⟨mem1, hrot, hV, hPr, hP, hLf, hRt⟩ :=
    rightRotate_spec mem node cur hleft hcn hgn hgc hxc hxn
  have hPcur : (mem1 cur).Parent = (mem node).Parent := by rw [hP]; simp [hcn]
  have hLcur : (mem1 cur).Left = (mem cur).Left := by rw [hLf]; simp [hcn, hgc]
  have hRcur : (mem1 cur).Right = some node := by rw [hRt]; simp
  have hPnode : (mem1 node).Parent = some cur := by rw [hP]; simp
  have hLnode : (mem1 node).Left = (mem cur).Right := by rw [hLf]; simp
  have hRnode : (mem1 node).Right = (mem node).Right := by
    rw [hRt]; simp [Ne.symm hcn, hgn]
  -- nodes that are neither rotated nor the grandparent keep their child links
  have hkeepLR : ∀ a, a ≠ node → a ≠ cur → (mem node).Parent ≠ some a →
      (mem1 a).Left = (mem a).Left ∧ (mem1 a).Right = (mem a).Right := by
    intro a h1 h2 h3
    rw [hLf, hRt]; simp [h1, h2, h3]
  have hkeepP : ∀ a, a ≠ node → a ≠ cur → (mem cur).Right ≠ some a →
      (mem1 a).Parent = (mem a).Parent := by
    intro a h1 h2 h3
    rw [hP]; simp [h1, h2, h3]
  have hsubM : ∀ a, a ∈ l.inorder ∨ a ∈ r.inorder ∨ a ∈ rn.inorder →
      a ∈ l.inorder ++ cur :: (r.inorder ++ node :: rn.inorder) := by
    intro a ha; simp only [List.mem_append, List.mem_cons]; tauto
  have hnotg : ∀ a, a ∈ l.inorder ∨ a ∈ r.inorder ∨ a ∈ rn.inorder →
      (mem node).Parent ≠ some a := fun a ha h => hdisj a (hsubM a ha) (hg a h)
  refine ⟨mem1, hrot, ?_, hPr⟩
  refine { keys := ?_, ctx := ?_, sub := ?_, order := ?_, top := ?_ }
  · intro a; rw [hV]; exact inv.keys a
  · -- the path above
    rw [hPcur]
    refine OwnsCtx_rehang hctx hBA ?_ ?_ ?_ ?_
    · intro a ha
      apply hkeepP
      · rintro rfl; exact hdisj _ hnodeM ha
      · rintro rfl; exact hdisj _ hcurM ha
      · intro h; exact hdisj a (hsubM a (Or.inr (Or.inl (hx a h)))) ha
    · intro a ha hne
      apply hkeepLR
      · rintro rfl; exact hdisj _ hnodeM ha
      · rintro rfl; exact hdisj _ hcurM ha
      · exact hne
    · intro g r2 fs2 hfs
      subst hfs
      obtain ⟨hpg, _, _, _⟩ := hctx
      have hgne1 : g ≠ node := fun h => hgn (by rw [hpg, h])
      have hgne2 : g ≠ cur := fun h => hgc (by rw [hpg, h])
      have hlt : key node < key g := by
        rw [hLeq] at hsorted
        simp only [ctxBefore, ctxAfter] at hsorted
        rw [List.pairwise_append] at hsorted
        exact hsorted.2.2 node (by simp) g (by simp)
      have hcmp : compare (mem node).Value (mem g).Value < 0 := by
        rw [inv.keys, inv.keys, compare_exact (hfit node (by rw [hLeq]; simp) g
          (by rw [hLeq]; simp [ctxAfter]))]
        omega
      rw [hLf, hRt]
      simp [hgne1, hgne2, hpg, hcmp]
    · intro l2 g fs2 hfs
      subst hfs
      obtain ⟨hpg, _, _, _⟩ := hctx
      have hgne1 : g ≠ node := fun h => hgn (by rw [hpg, h])
      have hgne2 : g ≠ cur := fun h => hgc (by rw [hpg, h])
      have hlt : key g < key node := by
        rw [hLeq] at hsorted
        simp only [ctxBefore, ctxAfter] at hsorted
        rw [List.pairwise_append, List.pairwise_append] at hsorted
        exact hsorted.1.2.2 g (by simp) node (by simp)
      have hcmp : ¬ compare (mem node).Value (mem g).Value < 0 := by
        rw [inv.keys, inv.keys, compare_exact (hfit node (by rw [hLeq]; simp) g
          (by rw [hLeq]; simp [ctxBefore]))]
        omega
      rw [hLf, hRt]
      simp [hgne1, hgne2, hpg, hcmp]
  · -- the subtree below
    refine ⟨rfl, rfl, ?_, ?_, ?_, ?_, ?_⟩
    · rw [hLcur]
      refine Owns_frame hl ndl (fun a ha => ?_)
      have h1 := dl a ha
      have h2 := hkeepLR a h1.2.1 h1.1 (hnotg a (Or.inl ha))
      exact ⟨h2.1, h2.2, hkeepP a h1.2.1 h1.1 (fun h => h1.2.2.1 (hx a h))⟩
    · exact hRcur
    · exact hPnode
    · rw [hLnode]
      refine Owns_transfer r _ _ _ hr ndr (fun a ha => ?_) (fun a ha => ?_)
      · have h1 := dr a ha
        have h2 := hkeepLR a h1.2.1 h1.1 (hnotg a (Or.inr (Or.inl ha)))
        exact ⟨h2.1, h2.2, fun h => hkeepP a h1.2.1 h1.1 h⟩
      · have h1 := dr a (hx a ha)
        rw [hP]; simp [h1.1, h1.2.1, ha]
    · rw [hRnode]
      refine Owns_frame hrn ndrn (fun a ha => ?_)
      have h1 := drn a ha
      have h2 := hkeepLR a h1.2 h1.1 (hnotg a (Or.inr (Or.inr ha)))
      exact ⟨h2.1, h2.2, hkeepP a h1.2 h1.1 (fun h => (dr a (hx a h)).2.2 ha)⟩
  · rw [← inv.order, inorder_plug, inorder_plug]
    simp [ctxBefore, ctxAfter, Shape.inorder]
  · intro hne
    have := inv.top (by simp)
    simp only [ctxTop, Frame.addr] at this
    rw [ctxTop_indep fs hne _ (some node)]
    exact this

/-- On a tree with distinct keys a left rotation at the parent of `cur` moves `cur`
one frame up the path and keeps the in-order. -/
theorem climb_leftRotate {key : Nat → Int} {L : List Nat} {ρ : Nat} {mem : Nat → Node}
    {cur node : Nat} {ln : Shape} {fs : List Frame} {l r : Shape}
    (hsorted : L.Pairwise (fun x y => key x < key y))
    (hfit : ∀ a ∈ L, ∀ b ∈ L, -9223372036854775808 ≤ key a - key b ∧
      key a - key b < 9223372036854775808)
    (inv : ClimbInv key L ρ mem cur (.inR ln node :: fs) l r) :
    ∃ mem1, leftRotate mem node = .ok mem1 ∧
      ClimbInv key L ρ mem1 cur fs (.node ln node l) r ∧
      (∀ a, (mem1 a).Priority = (mem a).Priority) := by
  obtain ⟨hpar, hright, hln, hctx⟩ := inv.ctx
  obtain ⟨_, _, hl, hr⟩ := inv.sub
  have hLeq : L = ctxBefore fs ++ (ln.inorder ++ node :: (l.inorder ++ cur :: r.inorder)) ++
      ctxAfter fs := by
    rw [← inv.order, inorder_plug]; simp [ctxBefore, ctxAfter, Shape.inorder]
  have hnd : L.Nodup := nodup_of_sorted_keys hsorted
  rw [hLeq] at hnd
  obtain ⟨hM, hBA, hdisj⟩ := nodup_mid hnd
  obtain ⟨hnc, dln, dl, dr, ndln, ndl, ndr⟩ := nodup_three hM
  have hcn : cur ≠ node := Ne.symm hnc
  have hg : ∀ g, (mem node).Parent = some g → g ∈ ctxBefore fs ++ ctxAfter fs :=
    fun g h => OwnsCtx_par_mem hctx h
  have hx : ∀ x, (mem cur).Left = some x → x ∈ l.inorder :=
    fun x h => (Owns_root hl h).1
  have hcurM : cur ∈ ln.inorder ++ node :: (l.inorder ++ cur :: r.inorder) := by simp
  have hnodeM : node ∈ ln.inorder ++ node :: (l.inorder ++ cur :: r.inorder) := by simp
  have hgn : (mem node).Parent ≠ some node := fun h => hdisj node hnodeM (hg node h)
  have hgc : (mem node).Parent ≠ some cur := fun h => hdisj cur hcurM (hg cur h)
  have hxc : (mem cur).Left ≠ some cur := fun h => (dl cur (hx cur h)).2.1 rfl
  have hxn : (mem cur).Left ≠ some node := fun h => (dl node (hx node h)).1 rfl
  obtain ⟨mem1, hrot, hV, hPr, hP, hLf, hRt⟩ :=
    leftRotate_spec mem node cur hright hcn hgn hgc hxc hxn
  have hPcur : (mem1 cur).Parent = (mem node).Parent := by rw [hP]; simp [hcn]
  have hRcur : (mem1 cur).Right = (mem cur).Right := by rw [hRt]; simp [hcn, hgc]
  have hLcur : (mem1 cur).Left = some node := by rw [hLf]; simp
  have hPnode : (mem1 node).Parent = some cur := by rw [hP]; simp
  have hRnode : (mem1 node).Right = (mem cur).Left := by rw [hRt]; simp
  have hLnode : (mem1 node).Left = (mem node).Left := by
    rw [hLf]; simp [Ne.symm hcn, hgn]
  -- nodes that are neither rotated nor the grandparent keep their child links
  have hkeepLR : ∀ a, a ≠ node → a ≠ cur → (mem node).Parent ≠ some a →
      (mem1 a).Left = (mem a).Left ∧ (mem1 a).Right = (mem a).Right := by
    intro a h1 h2 h3
    rw [hLf, hRt]; simp [h1, h2, h3]
  have hkeepP : ∀ a, a ≠ node → a ≠ cur → (mem cur).Left ≠ some a →
      (mem1 a).Parent = (mem a).Parent := by
    intro a h1 h2 h3
    rw [hP]; simp [h1, h2, h3]
  have hsubM : ∀ a, a ∈ ln.inorder ∨ a ∈ l.inorder ∨ a ∈ r.inorder →
      a ∈ ln.inorder ++ node :: (l.inorder ++ cur :: r.inorder) := by
    intro a ha; simp only [List.mem_append, List.mem_cons]; tauto
  have hnotg : ∀ a, a ∈ ln.inorder ∨ a ∈ l.inorder ∨ a ∈ r.inorder →
      (mem node).Parent ≠ some a := fun a ha h => hdisj a (hsubM a ha) (hg a h)
  refine ⟨mem1, hrot, ?_, hPr⟩
  refine { keys := ?_, ctx := ?_, sub := ?_, order := ?_, top := ?_ }
  · intro a; rw [hV]; exact inv.keys a
  · -- the path above
    rw [hPcur]
    refine OwnsCtx_rehang hctx hBA ?_ ?_ ?_ ?_
    · intro a ha
      apply hkeepP
      · rintro rfl; exact hdisj _ hnodeM ha
      · rintro rfl; exact hdisj _ hcurM ha
      · intro h; exact hdisj a (hsubM a (Or.inr (Or.inl (hx a h)))) ha
    · intro a ha hne
      apply hkeepLR
      · rintro rfl; exact hdisj _ hnodeM ha
      · rintro rfl; exact hdisj _ hcurM ha
      · exact hne
    · intro g r2 fs2 hfs
      subst hfs
      obtain ⟨hpg, _, _, _⟩ := hctx
      have hgne1 : g ≠ node := fun h => hgn (by rw [hpg, h])
      have hgne2 : g ≠ cur := fun h => hgc (by rw [hpg, h])
      have hlt : key node < key g := by
        rw [hLeq] at hsorted
        simp only [ctxBefore, ctxAfter] at hsorted
        rw [List.pairwise_append] at hsorted
        exact hsorted.2.2 node (by simp) g (by simp)
      have hcmp : compare (mem node).Value (mem g).Value < 0 := by
        rw [inv.keys, inv.keys, compare_exact (hfit node (by rw [hLeq]; simp) g
          (by rw [hLeq]; simp [ctxAfter]))]
        omega
      rw [hLf, hRt]
      simp [hgne1, hgne2, hpg, hcmp]
    · intro l2 g fs2 hfs
      subst hfs
      obtain ⟨hpg, _, _, _⟩ := hctx
      have hgne1 : g ≠ node := fun h => hgn (by rw [hpg, h])
      have hgne2 : g ≠ cur := fun h => hgc (by rw [hpg, h])
      have hlt : key g < key node := by
        rw [hLeq] at hsorted
        simp only [ctxBefore, ctxAfter] at hsorted
        rw [List.pairwise_append, List.pairwise_append] at hsorted
        exact hsorted.1.2.2 g (by simp) node (by simp)
      have hcmp : ¬ compare (mem node).Value (mem g).Value < 0 := by
        rw [inv.keys, inv.keys, compare_exact (hfit node (by rw [hLeq]; simp) g
          (by rw [hLeq]; simp [ctxBefore]))]
        omega
      rw [hLf, hRt]
      simp [hgne1, hgne2, hpg, hcmp]
  · -- the subtree below
    refine ⟨rfl, rfl, ⟨hLcur, hPnode, ?_, ?_⟩, ?_⟩
    · rw [hLnode]
      refine Owns_frame hln ndln (fun a ha => ?_)
      have h1 := dln a ha
      have h2 := hkeepLR a h1.1 h1.2.1 (hnotg a (Or.inl ha))
      exact ⟨h2.1, h2.2, hkeepP a h1.1 h1.2.1 (fun h => h1.2.2.1 (hx a h))⟩
    · rw [hRnode]
      refine Owns_transfer l _ _ _ hl ndl (fun a ha => ?_) (fun a ha => ?_)
      · have h1 := dl a ha
        have h2 := hkeepLR a h1.1 h1.2.1 (hnotg a (Or.inr (Or.inl ha)))
        exact ⟨h2.1, h2.2, fun h => hkeepP a h1.1 h1.2.1 h⟩
      · have h1 := dl a (hx a ha)
        rw [hP]; simp [h1.1, h1.2.1, ha]
    · rw [hRcur]
      refine Owns_frame hr ndr (fun a ha => ?_)
      have h1 := dr a ha
      have h2 := hkeepLR a h1.1 h1.2 (hnotg a (Or.inr (Or.inr ha)))
      exact ⟨h2.1, h2.2, hkeepP a h1.1 h1.2 (fun h => (dl a (hx a h)).2.2 ha)⟩
  · rw [← inv.order, inorder_plug, inorder_plug]
    simp [ctxBefore, ctxAfter, Shape.inorder]
  · intro hne
    have := inv.top (by simp)
    simp only [ctxTop, Frame.addr] at this
    rw [ctxTop_indep fs hne _ (some node)]
    exact this

/-- When `cur` is the right child of its parent, the parent's `Left` pointer is not
`cur`, so the loop takes the `leftRotate` branch. -/
theorem climb_inR_not_left {key : Nat → Int} {L : List Nat} {ρ : Nat} {mem : Nat → Node}
    {cur node : Nat} {ln : Shape} {fs : List Frame} {l r : Shape}
    (hsorted : L.Pairwise (fun x y => key x < key y))
    (inv : ClimbInv key L ρ mem cur (.inR ln node :: fs) l r) :
    (mem node).Left ≠ some cur := by
  obtain ⟨_, _, hln, _⟩ := inv.ctx
  have hLeq : L = ctxBefore fs ++ (ln.inorder ++ node :: (l.inorder ++ cur :: r.inorder)) ++
      ctxAfter fs := by
    rw [← inv.order, inorder_plug]; simp [ctxBefore, ctxAfter, Shape.inorder]
  have hnd : L.Nodup := nodup_of_sorted_keys hsorted
  rw [hLeq] at hnd
  obtain ⟨hM, _, _⟩ := nodup_mid hnd
  obtain ⟨_, dln, _⟩ := nodup_three hM
  intro h
  exact (dln cur (Owns_root hln h).1).2.1 rfl

/-- On a tree with distinct keys the bubble-up loop ends within a budget of the
length of the path, keeps the in-order and changes no priority. -/
theorem climb_bubble {key : Nat → Int} {L : List Nat} {ρ : Nat} (cur : Nat)
    (hsorted : L.Pairwise (fun x y => key x < key y))
    (hfit : ∀ a ∈ L, ∀ b ∈ L, -9223372036854775808 ≤ key a - key b ∧
      key a - key b < 9223372036854775808) :
    ∀ (fuel : Nat) (mem : Nat → Node) (fs : List Frame) (l r : Shape),
      ClimbInv key L ρ mem cur fs l r → fs.length ≤ fuel →
      ∃ mem1 fs1 l1 r1, bubble cur fuel mem = .ok mem1 ∧
        ClimbInv key L ρ mem1 cur fs1 l1 r1 ∧
        (∀ a, (mem1 a).Priority = (mem a).Priority) := by
  intro fuel
  induction fuel with
  | zero =>
    intro mem fs l r inv hlen
    have hfs : fs = [] := List.length_eq_zero.mp (Nat.le_zero.mp hlen)
    subst hfs
    have hpar : (mem cur).Parent = none := inv.ctx
    refine ⟨mem, [], l, r, ?_, inv, fun _ => rfl⟩
    simp [bubble, bubbleCond, hpar]
  | succ fuel ih =>
    intro mem fs l r inv hlen
    cases hcond : bubbleCond mem cur with
    | false => exact ⟨mem, fs, l, r, by simp [bubble, hcond], inv, fun _ => rfl⟩
    | true =>
      cases fs with
      | nil =>
        have hpar : (mem cur).Parent = none := inv.ctx
        simp [bubbleCond, hpar] at hcond
      | cons f fs =>
        simp only [List.length_cons] at hlen
        cases f with
        | inL node rn =>
          obtain ⟨hpar, hleft, _, _⟩ := inv.ctx
          obtain ⟨mem1, hrot, inv1, hPr1⟩ := climb_rightRotate hsorted hfit inv
          obtain ⟨mem2, fs2, l2, r2, hb, inv2, hPr2⟩ := ih mem1 fs _ _ inv1 (by omega)
          refine ⟨mem2, fs2, l2, r2, ?_, inv2, fun a => by rw [hPr2, hPr1]⟩
          simp [bubble, hcond, bubbleStep, hpar, hleft, hrot, hb]
        | inR ln node =>
          obtain ⟨hpar, hright, _, _⟩ := inv.ctx
          have hnl := climb_inR_not_left hsorted inv
          obtain ⟨mem1, hrot, inv1, hPr1⟩ := climb_leftRotate hsorted hfit inv
          obtain ⟨mem2, fs2, l2, r2, hb, inv2, hPr2⟩ := ih mem1 fs _ _ inv1 (by omega)
          refine ⟨mem2, fs2, l2, r2, ?_, inv2, fun a => by rw [hPr2, hPr1]⟩
          simp [bubble, hcond, bubbleStep, hpar, hnl, hrot, hb]

/-- A path has at most as many frames as nodes. -/
theorem ctx_length_le (fs : List Frame) :
    fs.length ≤ (ctxBefore fs ++ ctxAfter fs).length := by
  induction fs with
  | nil => simp
  | cons f fs ih =>
    cases f <;> simp only [ctxBefore, ctxAfter, List.length_append, List.length_cons,
      List.length_nil] at ih ⊢ <;> omega

/-- In a pairwise related list every element is related to the later ones. -/
theorem pairwise_split {R : Nat → Nat → Prop} {X Y : List Nat} {a : Nat}
    (h : (X ++ a :: Y).Pairwise R) : (∀ x ∈ X, R x a) ∧ (∀ y ∈ Y, R a y) := by
  rw [List.pairwise_append, List.pairwise_cons] at h
  exact ⟨fun x hx => h.2.2 x hx a (by simp), fun y hy => h.2.1.1 y hy⟩

/-- On a tree with distinct keys the descent of `naiveInsert` ends within a budget
of the height and links the fresh node at its place in the key order. -/
theorem climb_naiveLoop {mem : Nat → Node} {L0 : List Nat} {ρ fresh : Nat}
    (value priority : Int)
    (hsorted : L0.Pairwise (fun x y => (mem x).Value < (mem y).Value))
    (hv : ∀ x ∈ L0, (mem x).Value ≠ value)
    (hfit : ∀ x ∈ L0, -9223372036854775808 ≤ value - (mem x).Value ∧
      value - (mem x).Value < 9223372036854775808)
    (hfresh : ∀ x ∈ L0, x ≠ fresh) :
    ∀ (fuel a : Nat) (fs : List Frame) (l r : Shape) (par : Option Nat),
      OwnsCtx mem fs (some a) par → Owns mem (.node l a r) (some a) par →
      ctxBefore fs ++ (Shape.node l a r).inorder ++ ctxAfter fs = L0 →
      (∀ x ∈ ctxBefore fs, (mem x).Value < value) →
      (∀ x ∈ ctxAfter fs, value < (mem x).Value) →
      (Shape.node l a r).height ≤ fuel →
      ctxTop fs (some a) = some ρ →
      ∃ mem1 fs1, naiveLoop mem value priority fresh fuel a = .ok mem1 ∧
        OwnsCtx mem1 fs1 (some fresh) (mem1 fresh).Parent ∧
        (mem1 fresh).Left = none ∧ (mem1 fresh).Right = none ∧
        ctxBefore fs1 ++ ctxAfter fs1 = L0 ∧
        (∀ x ∈ ctxBefore fs1, (mem x).Value < value) ∧
        (∀ x ∈ ctxAfter fs1, value < (mem x).Value) ∧
        fs1 ≠ [] ∧ ctxTop fs1 (some fresh) = some ρ ∧
        (∀ x, (mem1 x).Value = if x = fresh then value else (mem x).Value) ∧
        (∀ x, (mem1 x).Priority = if x = fresh then priority else (mem x).Priority) := by
  intro fuel
  induction fuel with
  | zero => intro a fs l r par _ _ _ _ _ hh _; simp [Shape.height] at hh
  | succ fuel ih =>
    intro a fs l r par hctx hown hord hbef haft hh htop
    obtain ⟨_, hP, hl, hr⟩ := hown
    have hord' : (ctxBefore fs ++ l.inorder) ++ a :: (r.inorder ++ ctxAfter fs) = L0 := by
      rw [← hord]; simp [Shape.inorder]
    have haL : a ∈ L0 := by rw [← hord']; simp
    have hsp := pairwise_split (hord' ▸ hsorted)
    have hnd : L0.Nodup := nodup_of_sorted_keys hsorted
    have hnd' : (ctxBefore fs ++ (l.inorder ++ a :: r.inorder) ++ ctxAfter fs).Nodup := by
      have := hnd; rw [← hord] at this; simpa [Shape.inorder] using this
    obtain ⟨hM, hBA, hdisj⟩ := nodup_mid hnd'
    have haf : a ≠ fresh := hfresh a haL
    have hcmp : compare value (mem a).Value < 0 ↔ value < (mem a).Value := by
      rw [compare_exact (hfit a haL)]; omega
    simp only [Shape.height] at hh
    unfold naiveLoop
    by_cases hlt : value < (mem a).Value
    · rw [if_pos (hcmp.mpr hlt)]
      cases l with
      | nil =>
        simp only [Owns] at hl
        simp only [hl]
        simp only [Shape.inorder, List.nil_append] at hM hdisj
        rw [List.nodup_cons] at hM
        refine ⟨_, .inL a r :: fs, rfl, ⟨?_, ?_, ?_, ?_⟩, ?_, ?_, ?_, ?_, ?_, by simp, ?_,
          ?_, ?_⟩
        · simp
        · simp
        · simp only [setLeft_Right, alloc_Right, haf, if_false]
          refine Owns_frame hr hM.2 (fun x hx => ?_)
          have h1 : x ≠ fresh := hfresh x (by rw [← hord']; simp [hx])
          have h2 : x ≠ a := by rintro rfl; exact hM.1 hx
          simp [h1, h2]
        · simp only [setLeft_Parent, alloc_Parent, haf, if_false]
          rw [hP]
          refine OwnsCtx_frame fs _ _ hctx hBA (fun x hx => ?_)
          have h1 : x ≠ fresh := hfresh x (by
            rw [← hord']; simp only [List.mem_append, List.mem_cons] at hx ⊢; tauto)
          have h2 : x ≠ a := by rintro rfl; exact hdisj x (by simp) hx
          simp [h1, h2]
        · simp [Ne.symm haf]
        · simp
        · rw [← hord']; simp [ctxBefore, ctxAfter, Shape.inorder]
        · simpa [ctxBefore] using hbef
        · intro x hx
          simp only [ctxAfter, List.mem_append, List.mem_cons] at hx
          rcases hx with (rfl | hx) | hx
          · exact hlt
          · exact lt_trans hlt (hsp.2 x (by simp [hx]))
          · exact haft x hx
        · simpa [ctxTop, Frame.addr] using htop
        · intro x; simp
        · intro x; simp
      | node l1 c r1 =>
        have hleft : (mem a).Left = some c := hl.1
        simp only [hleft]
        simp only [Shape.height] at hh
        refine ih c (.inL a r :: fs) l1 r1 (some a) ⟨rfl, hleft, hr, hP ▸ hctx⟩
          (hleft ▸ hl) ?_ ?_ ?_ ?_ ?_
        · rw [← hord]; simp [ctxBefore, ctxAfter, Shape.inorder]
        · simpa [ctxBefore] using hbef
        · intro x hx
          simp only [ctxAfter, List.mem_append, List.mem_cons] at hx
          rcases hx with (rfl | hx) | hx
          · exact hlt
          · exact lt_trans hlt (hsp.2 x (by simp [hx]))
          · exact haft x hx
        · simp only [Shape.height]; omega
        · simpa [ctxTop, Frame.addr] using htop
    · have hgt : (mem a).Value < value := by
        have := hv a haL
        omega
      rw [if_neg (fun h => hlt (hcmp.mp h))]
      cases r with
      | nil =>
        simp only [Owns] at hr
        simp only [hr]
        simp only [Shape.inorder, List.append_nil] at hM hdisj
        have hM' : a ∉ l.inorder ∧ l.inorder.Nodup := by
          rw [List.nodup_append] at hM
          exact ⟨fun h => hM.2.2 h (by simp), hM.1⟩
        refine ⟨_, .inR l a :: fs, rfl, ⟨?_, ?_, ?_, ?_⟩, ?_, ?_, ?_, ?_, ?_, by simp, ?_,
          ?_, ?_⟩
        · simp
        · simp
        · simp only [setRight_Left, alloc_Left, haf, if_false]
          refine Owns_frame hl hM'.2 (fun x hx => ?_)
          have h1 : x ≠ fresh := hfresh x (by rw [← hord']; simp [hx])
          have h2 : x ≠ a := by rintro rfl; exact hM'.1 hx
          simp [h1, h2]
        · simp only [setRight_Parent, alloc_Parent, haf, if_false]
          rw [hP]
          refine OwnsCtx_frame fs _ _ hctx hBA (fun x hx => ?_)
          have h1 : x ≠ fresh := hfresh x (by
            rw [← hord']; simp only [List.mem_append, List.mem_cons] at hx ⊢; tauto)
          have h2 : x ≠ a := by rintro rfl; exact hdisj x (by simp) hx
          simp [h1, h2]
        · simp
        · simp [Ne.symm haf]
        · rw [← hord']; simp [ctxBefore, ctxAfter, Shape.inorder]
        · intro x hx
          simp only [ctxBefore, List.mem_append, List.mem_cons, List.mem_singleton,
            List.not_mem_nil, or_false] at hx
          rcases hx with hx | hx | rfl
          · exact hbef x hx
          · exact lt_trans (hsp.1 x (by simp [hx])) hgt
          · exact hgt
        · simpa [ctxAfter] using haft
        · simpa [ctxTop, Frame.addr] using htop
        · intro x; simp
        · intro x; simp
      | node l1 c r1 =>
        have hright : (mem a).Right = some c := hr.1
        simp only [hright]
        simp only [Shape.height] at hh
        refine ih c (.inR l a :: fs) l1 r1 (some a) ⟨rfl, hright, hl, hP ▸ hctx⟩
          (hright ▸ hr) ?_ ?_ ?_ ?_ ?_
        · rw [← hord]; simp [ctxBefore, ctxAfter, Shape.inorder]
        · intro x hx
          simp only [ctxBefore, List.mem_append, List.mem_cons, List.mem_singleton,
            List.not_mem_nil, or_false] at hx
          rcases hx with hx | hx | rfl
          · exact hbef x hx
          · exact lt_trans (hsp.1 x (by simp [hx])) hgt
          · exact hgt
        · simpa [ctxAfter] using haft
        · simp only [Shape.height]; omega
        · simpa [ctxTop, Frame.addr] using htop

/-- `Insert` of a key that differs from all stored keys (all differences fitting
Go's `int`) never faults and yields a laid-out search tree holding the old keys
and the new one. -/
theorem Insert_rep {t : Tree} {s : Shape} (rep : TreeRep t s) (value priority : Int)
    (hv : ∀ x ∈ s.inorder, (t.mem x).Value ≠ value)
    (hfit : DiffsFit (value :: s.inorder.map (fun x => (t.mem x).Value))) :
    ∃ t1 s1, t.Insert value priority = .ok t1 ∧ TreeRep t1 s1 ∧
      (s1.inorder.map (fun x => (t1.mem x).Value)).Perm
        (value :: s.inorder.map (fun x => (t.mem x).Value)) := by
  unfold Tree.Insert Tree.naiveInsert
  cases hroot : t.Root with
  | none =>
    have hs : s = .nil := by
      cases s with
      | nil => rfl
      | node l a r => have := rep.owns.1; rw [hroot] at this; cases this
    subst hs
    simp only []
    have hb : bubble t.size (t.size + 1) (alloc t.mem t.size value priority none) =
        .ok (alloc t.mem t.size value priority none) := by
      simp [bubble, bubbleCond]
    simp only [hb]
    refine ⟨_, .node .nil t.size .nil, rfl, ⟨?_, ?_, ?_⟩, ?_⟩
    · simp [Owns]
    · simp [Shape.inorder]
    · simp [Shape.inorder]
    · simp [Shape.inorder]
  | some ρ =>
    cases s with
    | nil => have := rep.owns; simp only [Owns] at this; rw [hroot] at this; cases this
    | node l a r =>
      have hown := rep.owns
      rw [hroot] at hown
      have haρ : ρ = a := Option.some.inj hown.1
      subst haρ
      have hnd0 : (Shape.node l ρ r).inorder.Nodup := nodup_of_sorted_keys rep.sorted
      have hlen0 : (Shape.node l ρ r).inorder.length ≤ t.size :=
        length_le_of_nodup_bound hnd0 rep.bound
      have hfitv : ∀ x ∈ (Shape.node l ρ r).inorder,
          -9223372036854775808 ≤ value - (t.mem x).Value ∧
          value - (t.mem x).Value < 9223372036854775808 := by
        intro x hx
        exact hfit value (by simp) _ (List.mem_cons_of_mem _ (List.mem_map_of_mem _ hx))
      have hfresh : ∀ x ∈ (Shape.node l ρ r).inorder, x ≠ t.size :=
        fun x hx => Nat.ne_of_lt (rep.bound x hx)
      obtain ⟨mem1, fs1, hloop, hctx1, hL1, hR1, hord1, hbef1, haft1, hne1, htop1, hV1, hP1⟩ :=
        climb_naiveLoop value priority rep.sorted hv hfitv hfresh t.size ρ [] l r none
          rfl hown (by simp [ctxBefore, ctxAfter]) (by simp [ctxBefore]) (by simp [ctxAfter])
          (le_trans (height_le_length _) hlen0) rfl
      simp only [hloop]
      -- the in-order after the naive insertion
      have hkeyold : ∀ x ∈ (Shape.node l ρ r).inorder, (mem1 x).Value = (t.mem x).Value := by
        intro x hx; rw [hV1]; simp [hfresh x hx]
      have hkeynew : (mem1 t.size).Value = value := by rw [hV1]; simp
      have hsorted0 : (Shape.node l ρ r).inorder.Pairwise
          (fun x y => (mem1 x).Value < (mem1 y).Value) := by
        refine rep.sorted.imp_of_mem ?_
        intro x y hx hy hxy
        rw [hkeyold x hx, hkeyold y hy]; exact hxy
      have hsorted1 : (plug fs1 (.node .nil t.size .nil)).inorder.Pairwise
          (fun x y => (mem1 x).Value < (mem1 y).Value) := by
        rw [inorder_plug]
        simp only [Shape.inorder, List.nil_append, List.append_assoc, List.cons_append]
        rw [← hord1, List.pairwise_append] at hsorted0
        rw [List.pairwise_append, List.pairwise_cons]
        refine ⟨hsorted0.1, ⟨?_, hsorted0.2.1⟩, ?_⟩
        · intro y hy
          rw [hkeynew, hkeyold y (by rw [← hord1]; simp [hy])]
          exact haft1 y hy
        · intro x hx y hy
          rcases List.mem_cons.mp hy with rfl | hy
          · rw [hkeynew, hkeyold x (by rw [← hord1]; simp [hx])]
            exact hbef1 x hx
          · exact hsorted0.2.2 x hx y hy
      have hmem1 : ∀ x, x ∈ (plug fs1 (.node .nil t.size .nil)).inorder ↔
          x = t.size ∨ x ∈ (Shape.node l ρ r).inorder := by
        intro x
        rw [inorder_plug, ← hord1]
        simp only [Shape.inorder, List.mem_append, List.mem_cons, List.not_mem_nil, false_or,
          or_false]
        tauto
      have hkeymem : ∀ x ∈ (plug fs1 (.node .nil t.size .nil)).inorder,
          (mem1 x).Value ∈ value :: (Shape.node l ρ r).inorder.map (fun x => (t.mem x).Value) := by
        intro x hx
        rcases (hmem1 x).mp hx with rfl | hx
        · rw [hkeynew]; simp
        · rw [hkeyold x hx]; exact List.mem_cons_of_mem _ (List.mem_map_of_mem _ hx)
      have hfit1 : ∀ x ∈ (plug fs1 (.node .nil t.size .nil)).inorder,
          ∀ y ∈ (plug fs1 (.node .nil t.size .nil)).inorder,
          -9223372036854775808 ≤ (mem1 x).Value - (mem1 y).Value ∧
          (mem1 x).Value - (mem1 y).Value < 9223372036854775808 :=
        fun x hx y hy => hfit _ (hkeymem x hx) _ (hkeymem y hy)
      have inv1 : ClimbInv (fun x => (mem1 x).Value) (plug fs1 (.node .nil t.size .nil)).inorder
          ρ mem1 t.size fs1 .nil .nil :=
        { keys := fun _ => rfl, ctx := hctx1, sub := ⟨rfl, rfl, hL1, hR1⟩, order := rfl,
          top := fun _ => htop1 }
      have hlen1 : fs1.length ≤ t.size + 1 := by
        have := ctx_length_le fs1
        rw [hord1] at this
        omega
      obtain ⟨mem2, fs2, l2, r2, hb, inv2, _⟩ :=
        climb_bubble t.size hsorted1 hfit1 (t.size + 1) mem1 fs1 .nil .nil inv1 hlen1
      simp only [hb]
      refine ⟨_, plug fs2 (.node l2 t.size r2), rfl, ⟨?_, ?_, ?_⟩, ?_⟩
      · have := Owns_plug fs2 _ _ _ inv2.ctx inv2.sub
        simp only
        cases fs2 with
        | nil =>
          have hpar : (mem2 t.size).Parent = none := inv2.ctx
          simpa [hpar, ctxTop] using this
        | cons f fs =>
          have htop2 := inv2.top (by simp)
          have hpar : (mem2 t.size).Parent ≠ none := by
            cases f with
            | inL g _ => have := inv2.ctx.1; rw [this]; simp
            | inR _ g => have := inv2.ctx.1; rw [this]; simp
          rw [htop2] at this
          simpa [hpar] using this
      · simp only
        rw [inv2.order]
        refine hsorted1.imp ?_
        intro x y hxy
        rw [inv2.keys, inv2.keys]; exact hxy
      · intro x hx
        simp only
        rw [inv2.order] at hx
        rcases (hmem1 x).mp hx with rfl | hx
        · exact Nat.lt_succ_self _
        · exact Nat.lt_succ_of_lt (rep.bound x hx)
      · simp only
        have hk2 : ∀ x, (mem2 x).Value = (mem1 x).Value := inv2.keys
        have e1 : (plug fs2 (.node l2 t.size r2)).inorder =
            ctxBefore fs1 ++ t.size :: ctxAfter fs1 := by
          rw [inv2.order, inorder_plug]; simp [Shape.inorder]
        rw [e1]
        have hp : (ctxBefore fs1 ++ t.size :: ctxAfter fs1).Perm
            (t.size :: (ctxBefore fs1 ++ ctxAfter fs1)) := List.perm_middle
        refine (hp.map _).trans ?_
        rw [List.map_cons, hord1, hk2, hkeynew]
        refine List.Perm.cons _ (List.Perm.of_eq (List.map_congr_left ?_))
        intro x hx
        rw [hk2]
        exact hkeyold x hx

/-- The empty tree lays out the empty shape. -/
theorem treeRep_NewTree : TreeRep NewTree .nil :=
  ⟨rfl, List.Pairwise.nil, fun _ h => by simp [Shape.inorder] at h⟩

/-- A sequence of `Insert`s of keys that are pairwise distinct and distinct from the
stored ones (all differences fitting Go's `int`) never faults and yields a
laid-out search tree holding exactly the old and the new keys. -/
theorem insertAll_rep (kps : List (Int × Int)) :
    ∀ (t : Tree) (s : Shape), TreeRep t s →
      (kps.map Prod.fst ++ s.inorder.map (fun x => (t.mem x).Value)).Nodup →
      DiffsFit (kps.map Prod.fst ++ s.inorder.map (fun x => (t.mem x).Value)) →
      ∃ t1 s1, insertAll t kps = .ok t1 ∧ TreeRep t1 s1 ∧
        (s1.inorder.map (fun x => (t1.mem x).Value)).Perm
          (kps.map Prod.fst ++ s.inorder.map (fun x => (t.mem x).Value)) := by
  induction kps with
  | nil =>
    intro t s rep _ _
    exact ⟨t, s, rfl, rep, by simp⟩
  | cons kp rest ih =>
    intro t s rep hnd hfit
    obtain ⟨value, priority⟩ := kp
    simp only [List.map_cons, List.cons_append] at hnd hfit
    rw [List.nodup_cons] at hnd
    have hv : ∀ x ∈ s.inorder, (t.mem x).Value ≠ value := by
      intro x hx h
      apply hnd.1
      rw [← h]
      exact List.mem_append_right _ (List.mem_map_of_mem _ hx)
    have hfit0 : DiffsFit (value :: s.inorder.map (fun x => (t.mem x).Value)) := by
      intro a ha b hb
      refine hfit a ?_ b ?_
      · rcases List.mem_cons.mp ha with rfl | ha
        · simp
        · exact List.mem_cons_of_mem _ (List.mem_append_right _ ha)
      · rcases List.mem_cons.mp hb with rfl | hb
        · simp
        · exact List.mem_cons_of_mem _ (List.mem_append_right _ hb)
    obtain ⟨t1, s1, hins, rep1, hperm1⟩ := Insert_rep rep value priority hv hfit0
    have hperm2 : (rest.map Prod.fst ++ s1.inorder.map (fun x => (t1.mem x).Value)).Perm
        (value :: (rest.map Prod.fst ++ s.inorder.map (fun x => (t.mem x).Value))) :=
      (List.Perm.append_left _ hperm1).trans List.perm_middle
    have hnd1 : (rest.map Prod.fst ++ s1.inorder.map (fun x => (t1.mem x).Value)).Nodup :=
      hperm2.nodup_iff.mpr (List.nodup_cons.mpr hnd)
    have hfit1 : DiffsFit (rest.map Prod.fst ++ s1.inorder.map (fun x => (t1.mem x).Value)) := by
      intro a ha b hb
      exact hfit a (hperm2.mem_iff.mp ha) b (hperm2.mem_iff.mp hb)
    obtain ⟨t2, s2, hall, rep2, hperm3⟩ := ih t1 s1 rep1 hnd1 hfit1
    refine ⟨t2, s2, ?_, rep2, hperm3.trans hperm2⟩
    simp [insertAll, hins, hall]

/-! ## From shapes back to the heap -/

/-- In a laid-out subtree every child link leads to a node of the subtree that points
back to its parent. -/
theorem Owns_child {mem : Nat → Node} :
    ∀ (s : Shape) (ptr par : Option Nat), Owns mem s ptr par →
      ∀ n c, n ∈ s.inorder → IsChild mem n c →
        (mem c).Parent = some n ∧ c ∈ s.inorder := by
  intro s
  induction s with
  | nil => intro ptr par _ n c hn _; simp [Shape.inorder] at hn
  | node l a r ihl ihr =>
    intro ptr par h n c hn hc
    obtain ⟨_, _, hl, hr⟩ := h
    simp only [Shape.inorder, List.mem_append, List.mem_cons] at hn ⊢
    rcases hn with hn | rfl | hn
    · have := ihl _ _ hl n c hn hc
      exact ⟨this.1, Or.inl this.2⟩
    · rcases hc with hc | hc
      · have := Owns_root hl hc
        exact ⟨this.2, Or.inl this.1⟩
      · have := Owns_root hr hc
        exact ⟨this.2, Or.inr (Or.inr this.1)⟩
    · have := ihr _ _ hr n c hn hc
      exact ⟨this.1, Or.inr (Or.inr this.2)⟩

/-- In a laid-out subtree the `Parent` pointer of a node other than the topmost one
leads to a node of the subtree that has it as a child. -/
theorem Owns_parent {mem : Nat → Node} :
    ∀ (s : Shape) (ptr par : Option Nat), Owns mem s ptr par →
      ∀ n c, c ∈ s.inorder → (mem c).Parent = some n →
        (ptr = some c ∧ par = some n) ∨ (n ∈ s.inorder ∧ IsChild mem n c) := by
  intro s
  induction s with
  | nil => intro ptr par _ n c hc _; simp [Shape.inorder] at hc
  | node l a r ihl ihr =>
    intro ptr par h n c hc hp
    obtain ⟨h1, h2, hl, hr⟩ := h
    simp only [Shape.inorder, List.mem_append, List.mem_cons] at hc ⊢
    rcases hc with hc | rfl | hc
    · right
      rcases ihl _ _ hl n c hc hp with ⟨h3, h4⟩ | ⟨h3, h4⟩
      · cases h4
        exact ⟨Or.inr (Or.inl rfl), Or.inl h3⟩
      · exact ⟨Or.inl h3, h4⟩
    · left
      exact ⟨h1, by rw [← h2, hp]⟩
    · right
      rcases ihr _ _ hr n c hc hp with ⟨h3, h4⟩ | ⟨h3, h4⟩
      · cases h4
        exact ⟨Or.inr (Or.inl rfl), Or.inr h3⟩
      · exact ⟨Or.inr (Or.inr h3), h4⟩

/-- What is reachable from a child pointer of a reachable node is reachable. -/
theorem reachable_lift {mem : Nat → Node} {ptr : Option Nat} {a x : Nat}
    (ha : Reachable mem ptr a) {q : Option Nat}
    (hq : q = (mem a).Left ∨ q = (mem a).Right) (hx : Reachable mem q x) :
    Reachable mem ptr x := by
  induction hx with
  | root h =>
    rcases hq with hq | hq
    · exact .step ha (Or.inl (hq ▸ h))
    · exact .step ha (Or.inr (hq ▸ h))
  | step _ hc ih => exact .step ih hc

/-- The nodes reachable from the pointer to a laid-out subtree are its nodes. -/
theorem reachable_iff_mem {mem : Nat → Node} :
    ∀ (s : Shape) (ptr par : Option Nat), Owns mem s ptr par →
      ∀ x, Reachable mem ptr x ↔ x ∈ s.inorder := by
  intro s ptr par h x
  constructor
  · intro hx
    induction hx with
    | root hr => exact (Owns_root h hr).1
    | step _ hc ih => exact (Owns_child s ptr par h _ _ ih hc).2
  · revert ptr par
    induction s with
    | nil => intro ptr par _ hx; simp [Shape.inorder] at hx
    | node l a r ihl ihr =>
      intro ptr par h hx
      obtain ⟨h1, _, hl, hr⟩ := h
      have ha : Reachable mem ptr a := .root h1
      simp only [Shape.inorder, List.mem_append, List.mem_cons] at hx
      rcases hx with hx | rfl | hx
      · exact reachable_lift ha (Or.inl rfl) (ihl _ _ hl hx)
      · exact ha
      · exact reachable_lift ha (Or.inr rfl) (ihr _ _ hr hx)

/-- In a laid-out subtree with strictly increasing in-order keys every node has smaller
keys in its left subtree and larger keys in its right subtree. -/
theorem Owns_searchOrder {mem : Nat → Node} :
    ∀ (s : Shape) (ptr par : Option Nat), Owns mem s ptr par →
      s.inorder.Pairwise (fun x y => (mem x).Value < (mem y).Value) →
      ∀ n, n ∈ s.inorder → ∀ x,
        (Reachable mem (mem n).Left x → (mem x).Value < (mem n).Value) ∧
        (Reachable mem (mem n).Right x → (mem n).Value < (mem x).Value) := by
  intro s
  induction s with
  | nil => intro ptr par _ _ n hn; simp [Shape.inorder] at hn
  | node l a r ihl ihr =>
    intro ptr par h hs n hn x
    obtain ⟨_, _, hl, hr⟩ := h
    simp only [Shape.inorder] at hs hn
    have hsp := pairwise_split hs
    rw [List.pairwise_append, List.pairwise_cons] at hs
    simp only [List.mem_append, List.mem_cons] at hn
    rcases hn with hn | rfl | hn
    · exact ihl _ _ hl hs.1 n hn x
    · constructor
      · intro hx
        exact hsp.1 x ((reachable_iff_mem l _ _ hl x).mp hx)
      · intro hx
        exact hsp.2 x ((reachable_iff_mem r _ _ hr x).mp hx)
    · exact ihr _ _ hr hs.2.1.2 n hn x

/-! ## The tree of pairs is determined by its contents -/

/-- On a laid-out subtree `readTree` returns the pairs of its shape, given fuel for
its height. -/
theorem readTree_owns {mem : Nat → Node} :
    ∀ (s : Shape) (fuel : Nat) (ptr par : Option Nat),
      Owns mem s ptr par → s.height ≤ fuel → readTree mem fuel ptr = .ok (s.label mem) := by
  intro s
  induction s with
  | nil =>
    intro fuel ptr par h _
    simp only [Owns] at h
    subst h
    cases fuel <;> simp [readTree, Shape.label]
  | node l a r ihl ihr =>
    intro fuel ptr par h hf
    obtain ⟨h1, _, h3, h4⟩ := h
    subst h1
    cases fuel with
    | zero => simp [Shape.height] at hf
    | succ fuel =>
      simp only [Shape.height] at hf
      have hl : l.height ≤ fuel := by omega
      have hr : r.height ≤ fuel := by omega
      simp only [readTree, ihl fuel _ _ h3 hl, ihr fuel _ _ h4 hr, Shape.label]

/-- The in-order pairs of the tree a shape stands for. -/
theorem label_inorder (mem : Nat → Node) (s : Shape) :
    (s.label mem).inorder = s.inorder.map (fun a => ((mem a).Value, (mem a).Priority)) := by
  induction s with
  | nil => rfl
  | node l a r ihl ihr => simp [Shape.label, PTree.inorder, Shape.inorder, ihl, ihr]

/-- Where every node's priority is at least its parent's, the tree a laid-out shape
stands for is heap-ordered and the owner's priority is at most all of its. -/
theorem label_heapOrdered {mem : Nat → Node} :
    ∀ (s : Shape) (ptr par : Option Nat), Owns mem s ptr par →
      (∀ a ∈ s.inorder, ∀ p, (mem a).Parent = some p → (mem p).Priority ≤ (mem a).Priority) →
      (s.label mem).HeapOrdered ∧
        ∀ q, par = some q → ∀ x ∈ s.inorder, (mem q).Priority ≤ (mem x).Priority := by
  intro s
  induction s with
  | nil =>
    intro ptr par _ _
    exact ⟨trivial, fun q _ x hx => by simp [Shape.inorder] at hx⟩
  | node l a r ihl ihr =>
    intro ptr par h hheap
    obtain ⟨_, h2, hl, hr⟩ := h
    have hL := ihl _ _ hl (fun x hx => hheap x (by simp [Shape.inorder, hx]))
    have hR := ihr _ _ hr (fun x hx => hheap x (by simp [Shape.inorder, hx]))
    refine ⟨⟨?_, ?_, hL.1, hR.1⟩, ?_⟩
    · intro x hx
      rw [label_inorder] at hx
      obtain ⟨b, hb, rfl⟩ := List.mem_map.mp hx
      exact hL.2 a rfl b hb
    · intro x hx
      rw [label_inorder] at hx
      obtain ⟨b, hb, rfl⟩ := List.mem_map.mp hx
      exact hR.2 a rfl b hb
    · intro q hq x hx
      have hqa : (mem q).Priority ≤ (mem a).Priority :=
        hheap a (by simp [Shape.inorder]) q (by rw [h2, hq])
      simp only [Shape.inorder, List.mem_append, List.mem_cons] at hx
      rcases hx with hx | rfl | hx
      · exact le_trans hqa (hL.2 a rfl x hx)
      · exact hqa
      · exact le_trans hqa (hR.2 a rfl x hx)

/-- A duplicate-free list splits around an element in one way only. -/
theorem split_unique {α : Type} {x : α} :
    ∀ (A A1 B B1 : List α), (A ++ x :: B).Nodup → A ++ x :: B = A1 ++ x :: B1 →
      A = A1 ∧ B = B1 := by
  intro A
  induction A with
  | nil =>
    intro A1 B B1 hnd h
    cases A1 with
    | nil => simpa using h
    | cons y A2 =>
      simp only [List.nil_append, List.cons_append, List.cons.injEq] at h
      obtain ⟨rfl, hB⟩ := h
      simp only [List.nil_append, List.nodup_cons] at hnd
      exact absurd (by rw [hB]; simp) hnd.1
  | cons a A0 ih =>
    intro A1 B B1 hnd h
    cases A1 with
    | nil =>
      simp only [List.nil_append, List.cons_append, List.cons.injEq] at h
      obtain ⟨rfl, _⟩ := h
      simp only [List.cons_append, List.nodup_cons] at hnd
      exact absurd (by simp) hnd.1
    | cons y A2 =>
      simp only [List.cons_append, List.cons.injEq] at h
      obtain ⟨rfl, h2⟩ := h
      simp only [List.cons_append, List.nodup_cons] at hnd
      obtain ⟨e1, e2⟩ := ih A2 B B1 hnd.2 h2
      exact ⟨by rw [e1], e2⟩

/-- A heap-ordered tree with pairwise distinct priorities is determined by its
in-order sequence. -/
theorem heapOrdered_unique :
    ∀ (t1 t2 : PTree), t1.inorder = t2.inorder → (t1.inorder.map Prod.snd).Nodup →
      t1.HeapOrdered → t2.HeapOrdered → t1 = t2 := by
  intro t1
  induction t1 with
  | nil =>
    intro t2 h _ _ _
    cases t2 with
    | nil => rfl
    | node l k p r => simp [PTree.inorder] at h
  | node l1 k1 p1 r1 ihl ihr =>
    intro t2 h hnd h1 h2
    cases t2 with
    | nil => simp [PTree.inorder] at h
    | node l2 k2 p2 r2 =>
      obtain ⟨a1, b1, c1, d1⟩ := h1
      obtain ⟨a2, b2, c2, d2⟩ := h2
      simp only [PTree.inorder] at h hnd
      have hle : ∀ (la ra lb rb : List (Int × Int)) (ka pa kb pb : Int),
          la ++ (ka, pa) :: ra = lb ++ (kb, pb) :: rb →
          (∀ x ∈ la, pa ≤ x.2) → (∀ x ∈ ra, pa ≤ x.2) → pa ≤ pb := by
        intro la ra lb rb ka pa kb pb he hla hra
        have hm : (kb, pb) ∈ la ++ (ka, pa) :: ra := by rw [he]; simp
        simp only [List.mem_append, List.mem_cons] at hm
        rcases hm with hm | hm | hm
        · exact hla _ hm
        · cases hm; exact le_refl _
        · exact hra _ hm
      have hp : p1 = p2 :=
        le_antisymm (hle _ _ _ _ _ _ _ _ h a1 b1) (hle _ _ _ _ _ _ _ _ h.symm a2 b2)
      subst hp
      have hk : k1 = k2 := by
        have hm : (k2, p1) ∈ l1.inorder ++ (k1, p1) :: r1.inorder := by rw [h]; simp
        have hm1 : (k1, p1) ∈ l1.inorder ++ (k1, p1) :: r1.inorder := by simp
        have := List.inj_on_of_nodup_map hnd hm hm1 rfl
        exact (Prod.mk.inj this).1.symm
      subst hk
      have hnd0 : (l1.inorder ++ (k1, p1) :: r1.inorder).Nodup := hnd.of_map _
      obtain ⟨e1, e2⟩ := split_unique _ _ _ _ hnd0 h
      have hndl : (l1.inorder.map Prod.snd).Nodup := by
        rw [List.map_append] at hnd
        exact (List.nodup_append.mp hnd).1
      have hndr : (r1.inorder.map Prod.snd).Nodup := by
        rw [List.map_append, List.map_cons] at hnd
        exact (List.nodup_cons.mp (List.nodup_append.mp hnd).2.1).2
      rw [ihl l2 e1 hndl c1 c2, ihr r2 e2 hndr d1 d2]


/-- A duplicate-free list of `n` addresses below `n` lists all of them. -/
theorem perm_range_of_nodup {l : List Nat} {n : Nat} (hnd : l.Nodup)
    (hb : ∀ a ∈ l, a < n) (hlen : l.length = n) : l.Perm (List.range n) := by
  have hsub : l ⊆ List.range n := fun a ha => List.mem_range.mpr (hb a ha)
  have hsp : l.Subperm (List.range n) := List.subperm_of_subset hnd hsub
  exact hsp.perm_of_length_le (by simp [hlen])

/-- After inserting distinct keys (differences fitting Go's `int`, priorities drawn
by `rnd.Intn`) the tree below `Root` holds exactly the inserted pairs, its keys
increase in in-order and it is heap-ordered. -/
theorem treeAfter_spec (kps : List (Int × Int))
    (hkeys : (kps.map Prod.fst).Nodup) (hfit : DiffsFit (kps.map Prod.fst))
    (hprio : ∀ kp ∈ kps, validPriority kp.2) :
    ∃ T, treeAfter kps = .ok T ∧ T.inorder.Perm kps ∧
      T.inorder.Pairwise (fun x y => x.1 < y.1) ∧ T.HeapOrdered := by
  obtain ⟨t1, s1, hall, rep1, hpk⟩ :=
    insertAll_rep kps NewTree .nil treeRep_NewTree
      (by simpa [Shape.inorder] using hkeys) (by simpa [Shape.inorder] using hfit)
  obtain ⟨r2, t2, hall2, inv2, hsz, _, hnew⟩ :=
    insertAll_ok kps _ NewTree heapInv_NewTree hprio
  have ht : t2 = t1 := by
    rw [hall] at hall2; cases hall2; rfl
  subst ht
  have hsz' : t2.size = kps.length := by simpa [NewTree] using hsz
  have hnd : s1.inorder.Nodup := nodup_of_sorted_keys rep1.sorted
  have hlen : s1.inorder.length = t2.size := by
    have := hpk.length_eq
    simp only [Shape.inorder, List.map_nil, List.append_nil, List.length_map] at this
    rw [this, hsz']
  have hh : s1.height ≤ t2.size :=
    le_trans (height_le_length s1) (le_of_eq hlen)
  have hread := readTree_owns s1 t2.size _ _ rep1.owns hh
  have hlab : (List.range t2.size).map (fun a => ((t2.mem a).Value, (t2.mem a).Priority))
      = kps := by
    apply List.ext_getElem
    · simp [hsz']
    · intro i h1 h2
      have hget : kps[i]? = some kps[i] := List.getElem?_eq_getElem h2
      have := hnew i _ hget
      simp only [NewTree, Nat.zero_add] at this
      simp only [List.getElem_map, List.getElem_range]
      rw [this.1, this.2]
  refine ⟨s1.label t2.mem, ?_, ?_, ?_, ?_⟩
  · unfold treeAfter Tree.pairs
    simp only [hall, hread]
  · rw [label_inorder, ← hlab]
    exact (perm_range_of_nodup hnd rep1.bound hlen).map _
  · rw [label_inorder, List.pairwise_map]
    exact rep1.sorted
  · exact (label_heapOrdered s1 _ _ rep1.owns
      (fun a ha p hp => inv2.heap a (rep1.bound a ha) p hp)).1

/-! ## Rotations on search-ordered trees -/

/-- Right rotation on shapes: when the node hangs in a context whose slot test agrees with the
side the node really occupies, rightRotate turns the subtree (l cur r) node rn into
l cur (r node rn) and leaves the context intact. -/
theorem rightRotate_shape {mem : Nat → Node} {cur node : Nat} {rn : Shape}
    {fs : List Frame} {l r : Shape}
    (hctxAll : OwnsCtx mem (.inL node rn :: fs) (some cur) (mem cur).Parent)
    (hsub : Owns mem (.node l cur r) (some cur) (mem cur).Parent)
    (hnd : (ctxBefore fs ++ (l.inorder ++ cur :: (r.inorder ++ node :: rn.inorder)) ++
      ctxAfter fs).Nodup)
    (hslotL : ∀ g r2 fs2, fs = .inL g r2 :: fs2 →
      compare (mem node).Value (mem g).Value < 0)
    (hslotR : ∀ l2 g fs2, fs = .inR l2 g :: fs2 →
      ¬ compare (mem node).Value (mem g).Value < 0) :
    ∃ mem1, rightRotate mem node = .ok mem1 ∧
      (∀ a, (mem1 a).Value = (mem a).Value) ∧
      (∀ a, (mem1 a).Priority = (mem a).Priority) ∧
      (mem1 cur).Parent = (mem node).Parent ∧
      OwnsCtx mem1 fs (some cur) (mem1 cur).Parent ∧
      Owns mem1 (.node l cur (.node r node rn)) (some cur) (mem1 cur).Parent := by
  obtain ⟨hpar, hleft, hrn, hctx⟩ := hctxAll
  obtain ⟨_, _, hl, hr⟩ := hsub
  obtain ⟨hM, hBA, hdisj⟩ := nodup_mid hnd
  obtain ⟨hcn, dl, dr, drn, ndl, ndr, ndrn⟩ := nodup_three hM
  have hg : ∀ g, (mem node).Parent = some g → g ∈ ctxBefore fs ++ ctxAfter fs :=
    fun g h => OwnsCtx_par_mem hctx h
  have hx : ∀ x, (mem cur).Right = some x → x ∈ r.inorder :=
    fun x h => (Owns_root hr h).1
  have hcurM : cur ∈ l.inorder ++ cur :: (r.inorder ++ node :: rn.inorder) := by simp
  have hnodeM : node ∈ l.inorder ++ cur :: (r.inorder ++ node :: rn.inorder) := by simp
  have hgn : (mem node).Parent ≠ some node := fun h => hdisj node hnodeM (hg node h)
  have hgc : (mem node).Parent ≠ some cur := fun h => hdisj cur hcurM (hg cur h)
  have hxc : (mem cur).Right ≠ some cur := fun h => (dr cur (hx cur h)).1 rfl
  have hxn : (mem cur).Right ≠ some node := fun h => (dr node (hx node h)).2.1 rfl
  obtain ⟨mem1, hrot, hV, hPr, hP, hLf, hRt⟩ :=
    rightRotate_spec mem node cur hleft hcn hgn hgc hxc hxn
  have hPcur : (mem1 cur).Parent = (mem node).Parent := by rw [hP]; simp [hcn]
  have hLcur : (mem1 cur).Left = (mem cur).Left := by rw [hLf]; simp [hcn, hgc]
  have hRcur : (mem1 cur).Right = some node := by rw [hRt]; simp
  have hPnode : (mem1 node).Parent = some cur := by rw [hP]; simp
  have hLnode : (mem1 node).Left = (mem cur).Right := by rw [hLf]; simp
  have hRnode : (mem1 node).Right = (mem node).Right := by
    rw [hRt]; simp [Ne.symm hcn, hgn]
  -- nodes that are neither rotated nor the grandparent keep their child links
  have hkeepLR : ∀ a, a ≠ node → a ≠ cur → (mem node).Parent ≠ some a →
      (mem1 a).Left = (mem a).Left ∧ (mem1 a).Right = (mem a).Right := by
    intro a h1 h2 h3
    rw [hLf, hRt]; simp [h1, h2, h3]
  have hkeepP : ∀ a, a ≠ node → a ≠ cur → (mem cur).Right ≠ some a →
      (mem1 a).Parent = (mem a).Parent := by
    intro a h1 h2 h3
    rw [hP]; simp [h1, h2, h3]
  have hsubM : ∀ a, a ∈ l.inorder ∨ a ∈ r.inorder ∨ a ∈ rn.inorder →
      a ∈ l.inorder ++ cur :: (r.inorder ++ node :: rn.inorder) := by
    intro a ha; simp only [List.mem_append, List.mem_cons]; tauto
  have hnotg : ∀ a, a ∈ l.inorder ∨ a ∈ r.inorder ∨ a ∈ rn.inorder →
      (mem node).Parent ≠ some a := fun a ha h => hdisj a (hsubM a ha) (hg a h)
  refine ⟨mem1, hrot, hV, hPr, hPcur, ?_, ?_⟩
  · -- the path above
    rw [hPcur]
    refine OwnsCtx_rehang hctx hBA ?_ ?_ ?_ ?_
    · intro a ha
      apply hkeepP
      · rintro rfl; exact hdisj _ hnodeM ha
      · rintro rfl; exact hdisj _ hcurM ha
      · intro h; exact hdisj a (hsubM a (Or.inr (Or.inl (hx a h)))) ha
    · intro a ha hne
      apply hkeepLR
      · rintro rfl; exact hdisj _ hnodeM ha
      · rintro rfl; exact hdisj _ hcurM ha
      · exact hne
    · intro g r2 fs2 hfs
      subst hfs
      obtain ⟨hpg, _, _, _⟩ := hctx
      have hgne1 : g ≠ node := fun h => hgn (by rw [hpg, h])
      have hgne2 : g ≠ cur := fun h => hgc (by rw [hpg, h])
      have hcmp := hslotL _ _ _ rfl
      rw [hLf, hRt]
      simp [hgne1, hgne2, hpg, hcmp]
    · intro l2 g fs2 hfs
      subst hfs
      obtain ⟨hpg, _, _, _⟩ := hctx
      have hgne1 : g ≠ node := fun h => hgn (by rw [hpg, h])
      have hgne2 : g ≠ cur := fun h => hgc (by rw [hpg, h])
      have hcmp := hslotR _ _ _ rfl
      rw [hLf, hRt]
      simp [hgne1, hgne2, hpg, hcmp]
  · -- the subtree below
    refine ⟨rfl, rfl, ?_, ?_, ?_, ?_, ?_⟩
    · rw [hLcur]
      refine Owns_frame hl ndl (fun a ha => ?_)
      have h1 := dl a ha
      have h2 := hkeepLR a h1.2.1 h1.1 (hnotg a (Or.inl ha))
      exact ⟨h2.1, h2.2, hkeepP a h1.2.1 h1.1 (fun h => h1.2.2.1 (hx a h))⟩
    · exact hRcur
    · exact hPnode
    · rw [hLnode]
      refine Owns_transfer r _ _ _ hr ndr (fun a ha => ?_) (fun a ha => ?_)
      · have h1 := dr a ha
        have h2 := hkeepLR a h1.2.1 h1.1 (hnotg a (Or.inr (Or.inl ha)))
        exact ⟨h2.1, h2.2, fun h => hkeepP a h1.2.1 h1.1 h⟩
      · have h1 := dr a (hx a ha)
        rw [hP]; simp [h1.1, h1.2.1, ha]
    · rw [hRnode]
      refine Owns_frame hrn ndrn (fun a ha => ?_)
      have h1 := drn a ha
      have h2 := hkeepLR a h1.2 h1.1 (hnotg a (Or.inr (Or.inr ha)))
      exact ⟨h2.1, h2.2, hkeepP a h1.2 h1.1 (fun h => (dr a (hx a h)).2.2 ha)⟩

/-- Left rotation on shapes: when the node hangs in a context whose slot test agrees with the
side the node really occupies, leftRotate turns the subtree ln node (l cur r) into
(ln node l) cur r and leaves the context intact. -/
theorem leftRotate_shape {mem : Nat → Node} {cur node : Nat} {ln : Shape}
    {fs : List Frame} {l r : Shape}
    (hctxAll : OwnsCtx mem (.inR ln node :: fs) (some cur) (mem cur).Parent)
    (hsub : Owns mem (.node l cur r) (some cur) (mem cur).Parent)
    (hnd : (ctxBefore fs ++ (ln.inorder ++ node :: (l.inorder ++ cur :: r.inorder)) ++
      ctxAfter fs).Nodup)
    (hslotL : ∀ g r2 fs2, fs = .inL g r2 :: fs2 →
      compare (mem node).Value (mem g).Value < 0)
    (hslotR : ∀ l2 g fs2, fs = .inR l2 g :: fs2 →
      ¬ compare (mem node).Value (mem g).Value < 0) :
    ∃ mem1, leftRotate mem node = .ok mem1 ∧
      (∀ a, (mem1 a).Value = (mem a).Value) ∧
      (∀ a, (mem1 a).Priority = (mem a).Priority) ∧
      (mem1 cur).Parent = (mem node).Parent ∧
      OwnsCtx mem1 fs (some cur) (mem1 cur).Parent ∧
      Owns mem1 (.node (.node ln node l) cur r) (some cur) (mem1 cur).Parent := by
  obtain ⟨hpar, hright, hln, hctx⟩ := hctxAll
  obtain ⟨_, _, hl, hr⟩ := hsub
  obtain ⟨hM, hBA, hdisj⟩ := nodup_mid hnd
  obtain ⟨hnc, dln, dl, dr, ndln, ndl, ndr⟩ := nodup_three hM
  have hcn : cur ≠ node := Ne.symm hnc
  have hg : ∀ g, (mem node).Parent = some g → g ∈ ctxBefore fs ++ ctxAfter fs :=
    fun g h => OwnsCtx_par_mem hctx h
  have hx : ∀ x, (mem cur).Left = some x → x ∈ l.inorder :=
    fun x h => (Owns_root hl h).1
  have hcurM : cur ∈ ln.inorder ++ node :: (l.inorder ++ cur :: r.inorder) := by simp
  have hnodeM : node ∈ ln.inorder ++ node :: (l.inorder ++ cur :: r.inorder) := by simp
  have hgn : (mem node).Parent ≠ some node := fun h => hdisj node hnodeM (hg node h)
  have hgc : (mem node).Parent ≠ some cur := fun h => hdisj cur hcurM (hg cur h)
  have hxc : (mem cur).Left ≠ some cur := fun h => (dl cur (hx cur h)).2.1 rfl
  have hxn : (mem cur).Left ≠ some node := fun h => (dl node (hx node h)).1 rfl
  obtain ⟨mem1, hrot, hV, hPr, hP, hLf, hRt⟩ :=
    leftRotate_spec mem node cur hright hcn hgn hgc hxc hxn
  have hPcur : (mem1 cur).Parent = (mem node).Parent := by rw [hP]; simp [hcn]
  have hRcur : (mem1 cur).Right = (mem cur).Right := by rw [hRt]; simp [hcn, hgc]
  have hLcur : (mem1 cur).Left = some node := by rw [hLf]; simp
  have hPnode : (mem1 node).Parent = some cur := by rw [hP]; simp
  have hRnode : (mem1 node).Right = (mem cur).Left := by rw [hRt]; simp
  have hLnode : (mem1 node).Left = (mem node).Left := by
    rw [hLf]; simp [Ne.symm hcn, hgn]
  -- nodes that are neither rotated nor the grandparent keep their child links
  have hkeepLR : ∀ a, a ≠ node → a ≠ cur → (mem node).Parent ≠ some a →
      (mem1 a).Left = (mem a).Left ∧ (mem1 a).Right = (mem a).Right := by
    intro a h1 h2 h3
    rw [hLf, hRt]; simp [h1, h2, h3]
  have hkeepP : ∀ a, a ≠ node → a ≠ cur → (mem cur).Left ≠ some a →
      (mem1 a).Parent = (mem a).Parent := by
    intro a h1 h2 h3
    rw [hP]; simp [h1, h2, h3]
  have hsubM : ∀ a, a ∈ ln.inorder ∨ a ∈ l.inorder ∨ a ∈ r.inorder →
      a ∈ ln.inorder ++ node :: (l.inorder ++ cur :: r.inorder) := by
    intro a ha; simp only [List.mem_append, List.mem_cons]; tauto
  have hnotg : ∀ a, a ∈ ln.inorder ∨ a ∈ l.inorder ∨ a ∈ r.inorder →
      (mem node).Parent ≠ some a := fun a ha h => hdisj a (hsubM a ha) (hg a h)
  refine ⟨mem1, hrot, hV, hPr, hPcur, ?_, ?_⟩
  · -- the path above
    rw [hPcur]
    refine OwnsCtx_rehang hctx hBA ?_ ?_ ?_ ?_
    · intro a ha
      apply hkeepP
      · rintro rfl; exact hdisj _ hnodeM ha
      · rintro rfl; exact hdisj _ hcurM ha
      · intro h; exact hdisj a (hsubM a (Or.inr (Or.inl (hx a h)))) ha
    · intro a ha hne
      apply hkeepLR
      · rintro rfl; exact hdisj _ hnodeM ha
      · rintro rfl; exact hdisj _ hcurM ha
      · exact hne
    · intro g r2 fs2 hfs
      subst hfs
      obtain ⟨hpg, _, _, _⟩ := hctx
      have hgne1 : g ≠ node := fun h => hgn (by rw [hpg, h])
      have hgne2 : g ≠ cur := fun h => hgc (by rw [hpg, h])
      have hcmp := hslotL _ _ _ rfl
      rw [hLf, hRt]
      simp [hgne1, hgne2, hpg, hcmp]
    · intro l2 g fs2 hfs
      subst hfs
      obtain ⟨hpg, _, _, _⟩ := hctx
      have hgne1 : g ≠ node := fun h => hgn (by rw [hpg, h])
      have hgne2 : g ≠ cur := fun h => hgc (by rw [hpg, h])
      have hcmp := hslotR _ _ _ rfl
      rw [hLf, hRt]
      simp [hgne1, hgne2, hpg, hcmp]
  · -- the subtree below
    refine ⟨rfl, rfl, ⟨hLcur, hPnode, ?_, ?_⟩, ?_⟩
    · rw [hLnode]
      refine Owns_frame hln ndln (fun a ha => ?_)
      have h1 := dln a ha
      have h2 := hkeepLR a h1.1 h1.2.1 (hnotg a (Or.inl ha))
      exact ⟨h2.1, h2.2, hkeepP a h1.1 h1.2.1 (fun h => h1.2.2.1 (hx a h))⟩
    · rw [hRnode]
      refine Owns_transfer l _ _ _ hl ndl (fun a ha => ?_) (fun a ha => ?_)
      · have h1 := dl a ha
        have h2 := hkeepLR a h1.1 h1.2.1 (hnotg a (Or.inr (Or.inl ha)))
        exact ⟨h2.1, h2.2, fun h => hkeepP a h1.1 h1.2.1 h⟩
      · have h1 := dl a (hx a ha)
        rw [hP]; simp [h1.1, h1.2.1, ha]
    · rw [hRcur]
      refine Owns_frame hr ndr (fun a ha => ?_)
      have h1 := dr a ha
      have h2 := hkeepLR a h1.1 h1.2 (hnotg a (Or.inr (Or.inr ha)))
      exact ⟨h2.1, h2.2, hkeepP a h1.1 h1.2 (fun h => (dl a (hx a h)).2.2 ha)⟩

/-- Plugging into a concatenated context plugs into the inner part first. -/
theorem plug_append (fs gs : List Frame) :
    ∀ s : Shape, plug (fs ++ gs) s = plug gs (plug fs s) := by
  induction fs with
  | nil => intro s; rfl
  | cons f fs ih =>
    intro s
    cases f <;> simp [plug, ih]

/-- Every address of a shape is the root of a subtree sitting in some context. -/
theorem shape_decompose :
    ∀ (s : Shape) (x : Nat), x ∈ s.inorder → ∃ fs l r, s = plug fs (.node l x r) := by
  intro s
  induction s with
  | nil => intro x hx; simp [Shape.inorder] at hx
  | node l a r ihl ihr =>
    intro x hx
    simp only [Shape.inorder, List.mem_append, List.mem_cons] at hx
    rcases hx with hx | rfl | hx
    · obtain ⟨fs, l1, r1, h⟩ := ihl x hx
      exact ⟨fs ++ [.inL a r], l1, r1, by rw [plug_append, ← h]; rfl⟩
    · exact ⟨[], l, r, rfl⟩
    · obtain ⟨fs, l1, r1, h⟩ := ihr x hx
      exact ⟨fs ++ [.inR l a], l1, r1, by rw [plug_append, ← h]; rfl⟩

/-- A heap that lays out a plugged shape lays out the context and the subtree separately. -/
theorem Owns_unplug {mem : Nat → Node} (fs : List Frame) :
    ∀ (s : Shape) (root : Option Nat), Owns mem (plug fs s) root none →
      ∃ ptr par, OwnsCtx mem fs ptr par ∧ Owns mem s ptr par ∧ root = ctxTop fs ptr := by
  induction fs with
  | nil => intro s root h; exact ⟨root, none, rfl, h, rfl⟩
  | cons f fs ih =>
    intro s root h
    cases f with
    | inL a r =>
      obtain ⟨ptr, par, hc, ho, ht⟩ := ih _ root h
      obtain ⟨h1, h2, h3, h4⟩ := ho
      subst h1
      refine ⟨(mem a).Left, some a, ⟨rfl, rfl, h4, h2 ▸ hc⟩, h3, ?_⟩
      simpa [ctxTop, Frame.addr] using ht
    | inR l a =>
      obtain ⟨ptr, par, hc, ho, ht⟩ := ih _ root h
      obtain ⟨h1, h2, h3, h4⟩ := ho
      subst h1
      refine ⟨(mem a).Right, some a, ⟨rfl, rfl, h3, h2 ▸ hc⟩, h4, ?_⟩
      simpa [ctxTop, Frame.addr] using ht

/-- Search order only depends on the keys stored in the heap. -/
theorem searchOrder_congr {mem mem1 : Nat → Node}
    (hV : ∀ a, (mem1 a).Value = (mem a).Value) :
    ∀ s : Shape, SearchOrder mem s → SearchOrder mem1 s := by
  intro s
  induction s with
  | nil => intro _; trivial
  | node l a r ihl ihr =>
    intro h
    obtain ⟨h1, h2, h3, h4⟩ := h
    refine ⟨?_, ?_, ihl h3, ihr h4⟩
    · intro x hx; rw [hV, hV]; exact h1 x hx
    · intro x hx; rw [hV, hV]; exact h2 x hx

/-- A subtree of a search-ordered shape is search-ordered. -/
theorem searchOrder_sub {mem : Nat → Node} (fs : List Frame) :
    ∀ s : Shape, SearchOrder mem (plug fs s) → SearchOrder mem s := by
  induction fs with
  | nil => intro s h; exact h
  | cons f fs ih =>
    intro s h
    cases f with
    | inL a r => exact (ih _ h).2.2.1
    | inR l a => exact (ih _ h).2.2.2

/-- Replacing a subtree by a search-ordered shape with the same in-order sequence keeps the
whole shape search-ordered. -/
theorem searchOrder_replace {mem : Nat → Node} (fs : List Frame) :
    ∀ s s1 : Shape, s1.inorder = s.inorder → SearchOrder mem (plug fs s) →
      SearchOrder mem s1 → SearchOrder mem (plug fs s1) := by
  induction fs with
  | nil => intro s s1 _ _ h; exact h
  | cons f fs ih =>
    intro s s1 he h h1
    cases f with
    | inL a r =>
      have h0 := searchOrder_sub fs _ h
      refine ih (.node s a r) (.node s1 a r) (by simp [Shape.inorder, he]) h ?_
      exact ⟨he ▸ h0.1, h0.2.1, h1, h0.2.2.2⟩
    | inR l a =>
      have h0 := searchOrder_sub fs _ h
      refine ih (.node l a s) (.node l a s1) (by simp [Shape.inorder, he]) h ?_
      exact ⟨h0.1, he ▸ h0.2.1, h0.2.2.1, h1⟩

/-- The shape laid out at a pointer is determined by the heap. -/
theorem Owns_functional {mem : Nat → Node} :
    ∀ (s1 s2 : Shape) (p q1 q2 : Option Nat), Owns mem s1 p q1 → Owns mem s2 p q2 →
      s1 = s2 := by
  intro s1
  induction s1 with
  | nil =>
    intro s2 p q1 q2 h1 h2
    simp only [Owns] at h1
    cases s2 with
    | nil => rfl
    | node l a r => have := h2.1; rw [h1] at this; cases this
  | node l a r ihl ihr =>
    intro s2 p q1 q2 h1 h2
    cases s2 with
    | nil => simp only [Owns] at h2; have := h1.1; rw [h2] at this; cases this
    | node l2 a2 r2 =>
      obtain ⟨e1, _, hl, hr⟩ := h1
      obtain ⟨e2, _, hl2, hr2⟩ := h2
      rw [e1] at e2
      cases e2
      rw [ihl l2 _ _ _ hl hl2, ihr r2 _ _ _ hr hr2]

/-- Every address of a laid-out shape is itself the root of a laid-out shape. -/
theorem Owns_at {mem : Nat → Node} :
    ∀ (s : Shape) (p q : Option Nat) (x : Nat), Owns mem s p q → x ∈ s.inorder →
      ∃ s1 q1, Owns mem s1 (some x) q1 ∧ s1.inorder.length ≤ s.inorder.length := by
  intro s
  induction s with
  | nil => intro p q x _ hx; simp [Shape.inorder] at hx
  | node l a r ihl ihr =>
    intro p q x h hx
    have h0 := h
    obtain ⟨e1, _, hl, hr⟩ := h
    simp only [Shape.inorder, List.mem_append, List.mem_cons] at hx
    rcases hx with hx | rfl | hx
    · obtain ⟨s1, q1, h1, h2⟩ := ihl _ _ x hl hx
      exact ⟨s1, q1, h1, by simp only [Shape.inorder, List.length_append, List.length_cons]; omega⟩
    · exact ⟨.node l x r, q, e1 ▸ h0, le_refl _⟩
    · obtain ⟨s1, q1, h1, h2⟩ := ihr _ _ x hr hx
      exact ⟨s1, q1, h1, by simp only [Shape.inorder, List.length_append, List.length_cons]; omega⟩

/-- A laid-out, search-ordered shape mentions no address twice. -/
theorem nodup_of_searchOrder {mem : Nat → Node} :
    ∀ (s : Shape) (p q : Option Nat), Owns mem s p q → SearchOrder mem s →
      s.inorder.Nodup := by
  intro s
  induction s with
  | nil => intro p q _ _; simp [Shape.inorder]
  | node l a r ihl ihr =>
    intro p q h ho
    have h0 := h
    obtain ⟨e1, _, hl, hr⟩ := h
    obtain ⟨o1, o2, o3, o4⟩ := ho
    simp only [Shape.inorder]
    rw [List.nodup_append, List.nodup_cons]
    refine ⟨ihl _ _ hl o3, ⟨?_, ihr _ _ hr o4⟩, ?_⟩
    · intro ha
      obtain ⟨s1, q1, h1, h2⟩ := Owns_at r _ _ a hr ha
      have := Owns_functional _ _ _ _ _ h1 (e1 ▸ h0)
      rw [this] at h2
      simp only [Shape.inorder, List.length_append, List.length_cons] at h2
      omega
    · intro x hx hx2
      rcases List.mem_cons.mp hx2 with rfl | hx2
      · exact lt_irrefl _ (o1 x hx)
      · have := o1 x hx
        have := o2 x hx2
        omega

/-- Two layouts of the same shape start at the same pointer. -/
theorem Owns_ptr_eq {mem mem1 : Nat → Node} {s : Shape} {p q p1 q1 : Option Nat}
    (h : Owns mem s p q) (h1 : Owns mem1 s p1 q1) : p1 = p := by
  cases s with
  | nil => simp only [Owns] at h h1; rw [h, h1]
  | node l a r => rw [h.1, h1.1]

/-- Right rotation keeps the search order when the key difference between the rotated node and
its parent fits a machine integer: the child takes the slot of the node, the node becomes the
right child of its former left child and inherits the right subtree of that child as its left
subtree; the result is again a laid-out, search-ordered tree with the same in-order keys. -/
theorem rightRotate_preserves_order (mem : Nat → Node) (s : Shape) (root : Option Nat)
    (N C : Nat)
    (hown : Owns mem s root none) (hord : SearchOrder mem s)
    (hN : N ∈ s.inorder) (hC : (mem N).Left = some C)
    (hfit : ∀ g, (mem N).Parent = some g →
      -9223372036854775808 ≤ (mem N).Value - (mem g).Value ∧
      (mem N).Value - (mem g).Value < 9223372036854775808) :
    ∃ mem1 s1, rightRotate mem N = .ok mem1 ∧
      (mem1 C).Parent = (mem N).Parent ∧
      (∀ g, (mem N).Parent = some g →
        ((mem g).Left = some N → (mem1 g).Left = some C) ∧
        ((mem g).Right = some N → (mem1 g).Right = some C)) ∧
      (mem1 C).Right = some N ∧ (mem1 N).Parent = some C ∧
      (mem1 N).Left = (mem C).Right ∧
      Owns mem1 s1 (if root = some N then some C else root) none ∧
      SearchOrder mem1 s1 ∧
      keysOf mem1 s1.inorder = keysOf mem s.inorder := by
  have hnd := nodup_of_searchOrder s _ _ hown hord
  obtain ⟨fs, l, nr, hs⟩ := shape_decompose s N hN
  subst hs
  obtain ⟨ptr, par, hctx, hsubN, hroot⟩ := Owns_unplug fs _ root hown
  obtain ⟨hptr, hparN, hl, hnr⟩ := hsubN
  subst hptr
  cases l with
  | nil => simp only [Owns] at hl; rw [hl] at hC; cases hC
  | node cl C1 cr =>
    have hC1 : C1 = C := by have := hl.1; rw [hC] at this; exact (Option.some.inj this).symm
    subst hC1
    obtain ⟨_, hparC, hcl, hcr⟩ := hl
    have hord0 := searchOrder_sub fs _ hord
    have hctxAll : OwnsCtx mem (.inL N nr :: fs) (some C1) (mem C1).Parent :=
      ⟨hparC, hC, hnr, hparN ▸ hctx⟩
    have hsub : Owns mem (.node cl C1 cr) (some C1) (mem C1).Parent := ⟨rfl, rfl, hcl, hcr⟩
    have hio : (plug fs (.node (.node cl C1 cr) N nr)).inorder =
        ctxBefore fs ++ (cl.inorder ++ C1 :: (cr.inorder ++ N :: nr.inorder)) ++ ctxAfter fs := by
      rw [inorder_plug]; simp [Shape.inorder]
    have hio1 : (plug fs (.node cl C1 (.node cr N nr))).inorder =
        ctxBefore fs ++ (cl.inorder ++ C1 :: (cr.inorder ++ N :: nr.inorder)) ++ ctxAfter fs := by
      rw [inorder_plug]; simp [Shape.inorder]
    rw [hio] at hnd
    have hNmid : N ∈ cl.inorder ++ C1 :: (cr.inorder ++ N :: nr.inorder) := by simp
    obtain ⟨_, _, hdisj⟩ := nodup_mid hnd
    have hslotL : ∀ g r2 fs2, fs = .inL g r2 :: fs2 →
        compare (mem N).Value (mem g).Value < 0 := by
      intro g r2 fs2 hfs
      subst hfs
      have hpg : (mem N).Parent = some g := by rw [hparN]; exact hctx.1
      have h1 := (searchOrder_sub fs2 _ hord).1 N (by simp [Shape.inorder])
      rw [compare_exact (hfit g hpg)]
      omega
    have hslotR : ∀ l2 g fs2, fs = .inR l2 g :: fs2 →
        ¬ compare (mem N).Value (mem g).Value < 0 := by
      intro l2 g fs2 hfs
      subst hfs
      have hpg : (mem N).Parent = some g := by rw [hparN]; exact hctx.1
      have h1 := (searchOrder_sub fs2 _ hord).2.1 N (by simp [Shape.inorder])
      rw [compare_exact (hfit g hpg)]
      omega
    obtain ⟨mem1, hrot, hV, _, hPC, hctx1, hsub1⟩ :=
      rightRotate_shape hctxAll hsub hnd hslotL hslotR
    obtain ⟨_, _, hcl1, hN1⟩ := hsub1
    have hN1' := hN1
    obtain ⟨hCR, hNP, hcr1, _⟩ := hN1
    refine ⟨mem1, plug fs (.node cl C1 (.node cr N nr)), hrot, hPC, ?_, hCR, hNP,
      Owns_ptr_eq hcr hcr1, ?_, ?_, ?_⟩
    · intro g hg
      cases fs with
      | nil =>
        have : par = none := hctx
        rw [hparN, this] at hg; cases hg
      | cons f fs2 =>
        cases f with
        | inL g1 r2 =>
          obtain ⟨e1, _, hr2, _⟩ := hctx
          rw [hparN, e1] at hg; cases hg
          refine ⟨fun _ => hctx1.2.1, fun h => ?_⟩
          have hm := (Owns_root hr2 h).1
          exact absurd (by simp [ctxAfter, hm]) (hdisj N hNmid)
        | inR l2 g1 =>
          obtain ⟨e1, _, hl2, _⟩ := hctx
          rw [hparN, e1] at hg; cases hg
          refine ⟨fun h => ?_, fun _ => hctx1.2.1⟩
          have hm := (Owns_root hl2 h).1
          exact absurd (by simp [ctxBefore, hm]) (hdisj N hNmid)
    · have hplug := Owns_plug fs (.node cl C1 (.node cr N nr)) _ _ hctx1
        ⟨rfl, rfl, hcl1, hN1'⟩
      cases fs with
      | nil =>
        simp only [ctxTop] at hroot hplug
        simpa [hroot] using hplug
      | cons f fs2 =>
        have hne : root ≠ some N := by
          intro h
          have h0 := (Owns_root hown h).2
          have : par = some f.addr := by
            cases f with
            | inL g1 r2 => exact hctx.1
            | inR l2 g1 => exact hctx.1
          rw [hparN, this] at h0; cases h0
        have : ctxTop (f :: fs2) (some C1) = root := by rw [hroot]; rfl
        rw [this] at hplug
        simpa [hne] using hplug
    · refine searchOrder_congr hV _ ?_
      refine searchOrder_replace fs _ _ (by simp [Shape.inorder]) hord ?_
      obtain ⟨a1, a2, ⟨b1, b2, b3, b4⟩, a4⟩ := hord0
      refine ⟨b1, ?_, b3, ⟨?_, a2, b4, a4⟩⟩
      · intro x hx
        simp only [Shape.inorder, List.mem_append, List.mem_cons] at hx
        have hCN : (mem C1).Value < (mem N).Value := a1 C1 (by simp [Shape.inorder])
        rcases hx with hx | rfl | hx
        · exact b2 x hx
        · exact le_of_lt hCN
        · exact le_trans (le_of_lt hCN) (a2 x hx)
      · intro x hx
        exact a1 x (by simp [Shape.inorder, hx])
    · unfold keysOf
      rw [hio1, ← hio]
      exact List.map_congr_left (fun a _ => hV a)

/-! ## The claims -/

/-- Claim C1, evaluated on a failing input: inserting the keys 7, 7, 6 with drawn
priorities 5, 3, 4 into an empty tree makes `toSlice` return the key sequence
7, 7, 6, 7, which is not non-decreasing. -/
theorem traversal_unsorted_after_duplicate :
    traversalKeys [(7, 5), (7, 3), (6, 4)] = .ok [7, 7, 6, 7] ∧
      ¬ List.Sorted (· ≤ ·) ([7, 7, 6, 7] : List Int) :=
  ⟨rfl, by decide⟩

/-- Claim C2, evaluated on a failing input: after inserting the keys 7, 7, 6 with
drawn priorities 5, 3, 4 into an empty tree, `Get(6)` returns found=false although
6 was inserted. -/
theorem get_misses_inserted_key :
    foundAfter [(7, 5), (7, 3), (6, 4)] 6 = .ok false :=
  rfl

/-- Claim C3: for every sequence of int keys with priorities drawn by `rnd.Intn`
and every int `k`, the inserts into an empty tree all succeed; if `k` does not
occur among the keys then `Get(k)` returns `(nil, false)`, and whenever `Get(k)`
returns found=true the returned node is non-nil, its `Value` equals `k`, and `k`
was inserted. -/
theorem get_absent_key_not_found (kps : List (Int × Int))
    (hkeys : ∀ kp ∈ kps, isInt kp.1) (hprio : ∀ kp ∈ kps, validPriority kp.2)
    (k : Int) (hk : isInt k) :
    ∃ t, insertAll NewTree kps = .ok t ∧
      (k ∉ kps.map Prod.fst → t.Get k = .ok (none, false)) ∧
      (∀ ptr, t.Get k = .ok (ptr, true) →
        ∃ a, ptr = some a ∧ (t.mem a).Value = k ∧ k ∈ kps.map Prod.fst) := by
  obtain ⟨r1, t1, hall, inv1, hsz, _, hnew⟩ :=
    insertAll_ok kps _ NewTree heapInv_NewTree hprio
  have hval : ∀ a, a < t1.size →
      (t1.mem a).Value ∈ kps.map Prod.fst ∧ isInt (t1.mem a).Value := by
    intro a ha
    have hlen : a < kps.length := by
      rw [hsz] at ha; simpa [NewTree] using ha
    have hget : kps[a]? = some kps[a] := List.getElem?_eq_getElem hlen
    have h1 := (hnew a _ hget).1
    simp only [NewTree, Nat.zero_add] at h1
    have hmem : kps[a] ∈ kps := List.getElem_mem hlen
    rw [h1]
    exact ⟨List.mem_map_of_mem _ hmem, hkeys _ hmem⟩
  have hfound : ∀ a, a < t1.size → compare k (t1.mem a).Value = 0 →
      (t1.mem a).Value = k ∧ k ∈ kps.map Prod.fst := by
    intro a ha h0
    have h1 := hval a ha
    have h2 : k = (t1.mem a).Value := (compare_eq_zero hk h1.2).mp h0
    exact ⟨h2.symm, h2 ▸ h1.1⟩
  refine ⟨t1, hall, ?_, ?_⟩
  · intro habs
    rcases Get_ok inv1 k with h | ⟨a, ha, h0, _⟩
    · exact h
    · exact absurd (hfound a ha h0).2 habs
  · intro ptr hget
    rcases Get_ok inv1 k with h | ⟨a, ha, h0, h⟩
    · rw [h] at hget; cases hget
    · rw [h] at hget
      cases hget
      exact ⟨a, rfl, hfound a ha h0⟩

/-- Claim C3 at a concrete input: after inserting key 10 (drawn priority 5),
`Get(11)` returns `(nil, false)`. -/
theorem get_absent_key_not_found_witness :
    (∀ kp ∈ [((10 : Int), (5 : Int))], isInt kp.1) ∧
    (∀ kp ∈ [((10 : Int), (5 : Int))], validPriority kp.2) ∧ isInt 11 ∧
    ∃ t, insertAll NewTree [(10, 5)] = .ok t ∧
      (11 ∉ [((10 : Int), (5 : Int))].map Prod.fst → t.Get 11 = .ok (none, false)) ∧
      (∀ ptr, t.Get 11 = .ok (ptr, true) →
        ∃ a, ptr = some a ∧ (t.mem a).Value = 11 ∧
          11 ∈ [((10 : Int), (5 : Int))].map Prod.fst) :=
  ⟨by decide, by decide, by decide,
    get_absent_key_not_found [(10, 5)] (by decide) (by decide) 11 (by decide)⟩

/-- Claim C4, evaluated on a failing input: after the three inserts of keys 7, 7, 6
with drawn priorities 5, 3, 4 into an empty tree, `toSlice` returns four entries. -/
theorem toSlice_longer_than_inserts :
    ∃ t arr, insertAll NewTree [(7, 5), (7, 3), (6, 4)] = .ok t ∧ t.toSlice = .ok arr ∧
      arr.length = 4 :=
  ⟨_, _, rfl, rfl, rfl⟩

/-- Claim C5: for every sequence of keys with priorities drawn by `rnd.Intn`, each
prefix of the inserts into an empty tree succeeds, and afterwards every node
reachable from `Root` that has a parent has a priority at least its parent's, and
`Root` holds the smallest priority among the reachable nodes. -/
theorem heap_order_after_each_insert (kps : List (Int × Int))
    (hprio : ∀ kp ∈ kps, validPriority kp.2) (m : Nat) :
    ∃ t, insertAll NewTree (kps.take m) = .ok t ∧
      (∀ a p, Reachable t.mem t.Root a → (t.mem a).Parent = some p →
        (t.mem p).Priority ≤ (t.mem a).Priority) ∧
      (∀ ρ a, t.Root = some ρ → Reachable t.mem t.Root a →
        (t.mem ρ).Priority ≤ (t.mem a).Priority) := by
  obtain ⟨r1, t1, hall, inv1, _, _, _⟩ :=
    insertAll_ok (kps.take m) _ NewTree heapInv_NewTree
      (fun kp hkp => hprio kp (List.mem_of_mem_take hkp))
  refine ⟨t1, hall, ?_, ?_⟩
  · intro a p ha hp
    exact inv1.heap a (reachable_lt inv1 ha) p hp
  · intro ρ a hρ ha
    exact inv1.rootMin ρ hρ a (reachable_lt inv1 ha)

/-- Claim C5 at a concrete input: the keys 7, 7, 6 with drawn priorities 5, 3, 4,
after all three inserts. -/
theorem heap_order_after_each_insert_witness :
    (∀ kp ∈ [((7 : Int), (5 : Int)), (7, 3), (6, 4)], validPriority kp.2) ∧
    ∃ t, insertAll NewTree ([((7 : Int), (5 : Int)), (7, 3), (6, 4)].take 3) = .ok t ∧
      (∀ a p, Reachable t.mem t.Root a → (t.mem a).Parent = some p →
        (t.mem p).Priority ≤ (t.mem a).Priority) ∧
      (∀ ρ a, t.Root = some ρ → Reachable t.mem t.Root a →
        (t.mem ρ).Priority ≤ (t.mem a).Priority) :=
  ⟨by decide, heap_order_after_each_insert _ (by decide) 3⟩

/-- Claim C6, evaluated on a failing input: after inserting the keys 7, 7, 6 with
drawn priorities 5, 3, 4 into an empty tree, the root (node 1, key 7) has the
node with key 7 inserted first as its left child and the node with key 6 as its
right child. -/
theorem search_order_broken_after_duplicate :
    ∃ t, insertAll NewTree [(7, 5), (7, 3), (6, 4)] = .ok t ∧ t.Root = some 1 ∧
      (t.mem 1).Value = 7 ∧ (t.mem 1).Left = some 0 ∧ (t.mem 0).Value = 7 ∧
      (t.mem 1).Right = some 2 ∧ (t.mem 2).Value = 6 :=
  ⟨_, rfl, rfl, rfl, rfl, rfl, rfl, rfl⟩

/-- Claim C7, evaluated on a failing input: after inserting the keys 2, 3, 3, 2, 1
with drawn priorities 1, 2, 1, 0, 0 into an empty tree, node 1 is reachable from
`Root`, is not the root, and its `Parent` is node 3, but neither child slot of
node 3 holds node 1. -/
theorem parent_link_inconsistent_after_duplicates :
    ∃ t, insertAll NewTree [(2, 1), (3, 2), (3, 1), (2, 0), (1, 0)] = .ok t ∧
      Reachable t.mem t.Root 1 ∧ t.Root ≠ some 1 ∧ (t.mem 1).Parent = some 3 ∧
      ¬ IsChild t.mem 3 1 := by
  refine ⟨_, rfl, ?_, by decide, rfl, ?_⟩
  · exact .step (.step (.step (.root (a := 3) rfl) (.inl rfl)) (.inr rfl)) (.inl rfl)
  · intro h
    rcases h with h | h <;> exact absurd h (by decide)

/-- Claim C8, evaluated on a failing input: after inserting the keys 7, 7, 6 with
drawn priorities 5, 3, 4 into an empty tree, node 0 is the `Left` child of the
root (node 1) and also the `Right` child of node 2, and its `Parent` is node 2. -/
theorem child_shared_after_duplicate :
    ∃ t, insertAll NewTree [(7, 5), (7, 3), (6, 4)] = .ok t ∧ t.Root = some 1 ∧
      (t.mem 1).Left = some 0 ∧ (t.mem 2).Right = some 0 ∧ (t.mem 0).Parent = some 2 :=
  ⟨_, rfl, rfl, rfl, rfl, rfl⟩

/-- Claim C9: for every list of pairwise distinct keys whose pairwise differences
fit Go's `int`, and every choice of priorities, the inserts into an empty tree
succeed and `toSlice` returns the keys in ascending order. -/
theorem traversal_sorted_of_distinct_keys (kps : List (Int × Int))
    (hnodup : (kps.map Prod.fst).Nodup) (hfit : DiffsFit (kps.map Prod.fst)) :
    traversalKeys kps = .ok ((kps.map Prod.fst).insertionSort (· ≤ ·)) := by
  obtain ⟨t1, s1, hall, rep1, hperm⟩ :=
    insertAll_rep kps NewTree .nil treeRep_NewTree
      (by simpa [Shape.inorder] using hnodup) (by simpa [Shape.inorder] using hfit)
  simp only [Shape.inorder, List.map_nil, List.append_nil] at hperm
  have hnd : s1.inorder.Nodup := nodup_of_sorted_keys rep1.sorted
  have hh : s1.height ≤ t1.size :=
    le_trans (height_le_length s1) (length_le_of_nodup_bound hnd rep1.bound)
  have hflat := flatten_owns s1 t1.size t1.Root none [] rep1.owns hh
  unfold traversalKeys
  simp only [hall, Tree.toSlice, hflat, List.nil_append, keysOf]
  congr 1
  apply List.eq_of_perm_of_sorted (r := (· ≤ ·))
  · exact hperm.trans (List.perm_insertionSort _ _).symm
  · have := rep1.sorted
    rw [← List.pairwise_map (f := fun x => (t1.mem x).Value) (R := (· < ·))] at this
    exact this.imp le_of_lt
  · exact List.sorted_insertionSort _ _

/-- Claim C9 at a concrete input: inserting 5, 3, 8, 1, 4 (drawn priorities
1, 2, 0, 7, 3) yields the traversal 1, 3, 4, 5, 8. -/
theorem traversal_sorted_of_distinct_keys_witness :
    ([((5 : Int), (1 : Int)), (3, 2), (8, 0), (1, 7), (4, 3)].map Prod.fst).Nodup ∧
    DiffsFit ([((5 : Int), (1 : Int)), (3, 2), (8, 0), (1, 7), (4, 3)].map Prod.fst) ∧
    traversalKeys [(5, 1), (3, 2), (8, 0), (1, 7), (4, 3)] = .ok [1, 3, 4, 5, 8] :=
  ⟨by decide, by decide, traversal_sorted_of_distinct_keys _ (by decide) (by decide)⟩

/-- Claim C10, evaluated on a failing input: both 9223372036854775807 and -1 are
Go ints, the first is the larger, and yet `compare` of the first with the second
is negative. -/
theorem compare_negative_on_larger_operand :
    isInt 9223372036854775807 ∧ isInt (-1) ∧ (-1 : Int) < 9223372036854775807 ∧
      compare 9223372036854775807 (-1) < 0 := by
  decide

/-- Claim C11: on every tree reached from the empty tree by `Insert`s (any keys,
duplicates allowed, priorities drawn by `rnd.Intn`), `Insert` of any value
succeeds: the descent of `naiveInsert` ends and returns the new node, the
bubble-up loop ends, and no step dereferences nil. -/
theorem insert_always_succeeds (kps : List (Int × Int))
    (hprio : ∀ kp ∈ kps, validPriority kp.2) (value priority : Int)
    (hp : validPriority priority) :
    ∃ t t0 cur mem1 t1, insertAll NewTree kps = .ok t ∧
      t.naiveInsert value priority = .ok (t0, cur) ∧
      bubble cur t0.size t0.mem = .ok mem1 ∧
      t.Insert value priority = .ok t1 := by
  obtain ⟨r1, t, hall, inv, _, _, _⟩ := insertAll_ok kps _ NewTree heapInv_NewTree hprio
  obtain ⟨r2, t1, hins, _, _, _, _, _⟩ := Insert_ok inv value priority hp
  have h := hins
  unfold Tree.Insert at h
  cases hn : t.naiveInsert value priority with
  | error e => rw [hn] at h; cases h
  | ok res =>
    obtain ⟨t0, cur⟩ := res
    rw [hn] at h
    simp only at h
    cases hb : bubble cur t0.size t0.mem with
    | error e => rw [hb] at h; cases h
    | ok mem1 => exact ⟨t, t0, cur, mem1, t1, hall, hn, hb, hins⟩

/-- Claim C11 at a concrete input: a further `Insert` of key 6 into the tree built
from the keys 7, 7, 6 with drawn priorities 5, 3, 4. -/
theorem insert_always_succeeds_witness :
    (∀ kp ∈ [((7 : Int), (5 : Int)), (7, 3), (6, 4)], validPriority kp.2) ∧
    validPriority 1 ∧
    ∃ t t0 cur mem1 t1, insertAll NewTree [(7, 5), (7, 3), (6, 4)] = .ok t ∧
      t.naiveInsert 6 1 = .ok (t0, cur) ∧
      bubble cur t0.size t0.mem = .ok mem1 ∧
      t.Insert 6 1 = .ok t1 :=
  ⟨by decide, by decide, insert_always_succeeds _ (by decide) 6 1 (by decide)⟩

/-- Claim C12, evaluated on a failing input: the keys 1, 2, 2 with drawn priorities
2, 1, 0 give a tree whose traversal is 1, 2, 2; inserting the stored key 1 again
with drawn priority 0 makes the traversal 2, 2, 1, 1, 2 and `Get(1)` then returns
found=false. -/
theorem duplicate_insert_corrupts_traversal :
    traversalKeys [(1, 2), (2, 1), (2, 0)] = .ok [1, 2, 2] ∧
    traversalKeys [(1, 2), (2, 1), (2, 0), (1, 0)] = .ok [2, 2, 1, 1, 2] ∧
    foundAfter [(1, 2), (2, 1), (2, 0), (1, 0)] 1 = .ok false :=
  ⟨rfl, rfl, rfl⟩

/-- Claim C13: on a tree whose `Root` is nil, whatever the heap holds, `Get` returns
`(nil, false)` for every target and `toSlice` returns the empty sequence. -/
theorem empty_tree_queries (t : Tree) (hroot : t.Root = none) (target : Int) :
    t.Get target = .ok (none, false) ∧ t.toSlice = .ok [] := by
  unfold Tree.Get Tree.toSlice
  rw [hroot]
  constructor
  · cases t.size <;> rfl
  · cases t.size <;> rfl

/-- Claim C13 at a concrete input: `Get(0)` and `toSlice` on `NewTree`. -/
theorem empty_tree_queries_witness :
    NewTree.Root = none ∧ NewTree.Get 0 = .ok (none, false) ∧ NewTree.toSlice = .ok [] :=
  ⟨rfl, empty_tree_queries NewTree rfl 0⟩

/-- Claim C16: on every tree reached from the empty tree by `Insert`s, an `Insert`
allocates exactly one node, which carries the given value and the drawn
priority, and leaves the `Value` and the `Priority` of every existing node
unchanged. -/
theorem insert_changes_links_only (kps : List (Int × Int))
    (hprio : ∀ kp ∈ kps, validPriority kp.2) (value priority : Int)
    (hp : validPriority priority) :
    ∃ t t1, insertAll NewTree kps = .ok t ∧ t.Insert value priority = .ok t1 ∧
      t1.size = t.size + 1 ∧
      (∀ a, a < t.size → (t1.mem a).Value = (t.mem a).Value ∧
        (t1.mem a).Priority = (t.mem a).Priority) ∧
      (t1.mem t.size).Value = value ∧ (t1.mem t.size).Priority = priority := by
  obtain ⟨r1, t, hall, inv, _, _, _⟩ := insertAll_ok kps _ NewTree heapInv_NewTree hprio
  obtain ⟨r2, t1, hins, _, hsz, hold, hv, hpr⟩ := Insert_ok inv value priority hp
  exact ⟨t, t1, hall, hins, hsz, hold, hv, hpr⟩

/-- Claim C16 at a concrete input: `Insert` of key 6 with drawn priority 4 into the
tree built from the keys 7, 7 with drawn priorities 5, 3. -/
theorem insert_changes_links_only_witness :
    (∀ kp ∈ [((7 : Int), (5 : Int)), (7, 3)], validPriority kp.2) ∧ validPriority 4 ∧
    ∃ t t1, insertAll NewTree [(7, 5), (7, 3)] = .ok t ∧ t.Insert 6 4 = .ok t1 ∧
      t1.size = t.size + 1 ∧
      (∀ a, a < t.size → (t1.mem a).Value = (t.mem a).Value ∧
        (t1.mem a).Priority = (t.mem a).Priority) ∧
      (t1.mem t.size).Value = 6 ∧ (t1.mem t.size).Priority = 4 :=
  ⟨by decide, by decide, insert_changes_links_only _ (by decide) 6 4 (by decide)⟩

/-- Claim C17: for pairwise distinct keys whose pairwise differences fit Go's `int`
and priorities drawn by `rnd.Intn`, each prefix of the inserts into an empty tree
succeeds and afterwards, for the nodes reachable from `Root`: keys in the left
subtree of a node are strictly less and keys in its right subtree greater or
equal; every node's priority is at least its parent's; `Root.Parent` is nil; and
`c` is a child of `n` exactly when `c.Parent` is `n`. -/
theorem invariants_after_each_insert (kps : List (Int × Int))
    (hnodup : (kps.map Prod.fst).Nodup) (hfit : DiffsFit (kps.map Prod.fst))
    (hprio : ∀ kp ∈ kps, validPriority kp.2) (m : Nat) :
    ∃ t, insertAll NewTree (kps.take m) = .ok t ∧
      (∀ n x, Reachable t.mem t.Root n →
        (Reachable t.mem (t.mem n).Left x → (t.mem x).Value < (t.mem n).Value) ∧
        (Reachable t.mem (t.mem n).Right x → (t.mem n).Value ≤ (t.mem x).Value)) ∧
      (∀ a p, Reachable t.mem t.Root a → (t.mem a).Parent = some p →
        (t.mem p).Priority ≤ (t.mem a).Priority) ∧
      (∀ ρ, t.Root = some ρ → (t.mem ρ).Parent = none) ∧
      (∀ n c, Reachable t.mem t.Root n → Reachable t.mem t.Root c →
        (IsChild t.mem n c ↔ (t.mem c).Parent = some n)) := by
  have hsub : ((kps.take m).map Prod.fst).Sublist (kps.map Prod.fst) :=
    (List.take_sublist m kps).map _
  have hnd1 : ((kps.take m).map Prod.fst).Nodup := hnodup.sublist hsub
  have hfit1 : DiffsFit ((kps.take m).map Prod.fst) :=
    fun a ha b hb => hfit a (hsub.subset ha) b (hsub.subset hb)
  obtain ⟨t1, s1, hall, rep1, _⟩ :=
    insertAll_rep (kps.take m) NewTree .nil treeRep_NewTree
      (by simpa [Shape.inorder] using hnd1) (by simpa [Shape.inorder] using hfit1)
  obtain ⟨r2, t2, hall2, inv2, _, _, _⟩ :=
    insertAll_ok (kps.take m) _ NewTree heapInv_NewTree
      (fun kp hkp => hprio kp (List.mem_of_mem_take hkp))
  have ht : t2 = t1 := by
    rw [hall] at hall2; cases hall2; rfl
  subst ht
  have hreach := reachable_iff_mem s1 _ _ rep1.owns
  refine ⟨t2, hall, ?_, ?_, ?_, ?_⟩
  · intro n x hn
    have := Owns_searchOrder s1 _ _ rep1.owns rep1.sorted n ((hreach n).mp hn) x
    exact ⟨this.1, fun h => le_of_lt (this.2 h)⟩
  · intro a p ha hp
    exact inv2.heap a (reachable_lt inv2 ha) p hp
  · exact inv2.rootParent
  · intro n c hn hc
    constructor
    · intro h
      exact (Owns_child s1 _ _ rep1.owns n c ((hreach n).mp hn) h).1
    · intro h
      rcases Owns_parent s1 _ _ rep1.owns n c ((hreach c).mp hc) h with ⟨_, h2⟩ | ⟨_, h2⟩
      · cases h2
      · exact h2

/-- Claim C17 at a concrete input: the keys 5, 3, 8, 1, 4 with drawn priorities
1, 2, 0, 7, 3, after the first four inserts. -/
theorem invariants_after_each_insert_witness :
    ([((5 : Int), (1 : Int)), (3, 2), (8, 0), (1, 7), (4, 3)].map Prod.fst).Nodup ∧
    DiffsFit ([((5 : Int), (1 : Int)), (3, 2), (8, 0), (1, 7), (4, 3)].map Prod.fst) ∧
    (∀ kp ∈ [((5 : Int), (1 : Int)), (3, 2), (8, 0), (1, 7), (4, 3)], validPriority kp.2) ∧
    ∃ t, insertAll NewTree ([((5 : Int), (1 : Int)), (3, 2), (8, 0), (1, 7), (4, 3)].take 4)
        = .ok t ∧
      (∀ n x, Reachable t.mem t.Root n →
        (Reachable t.mem (t.mem n).Left x → (t.mem x).Value < (t.mem n).Value) ∧
        (Reachable t.mem (t.mem n).Right x → (t.mem n).Value ≤ (t.mem x).Value)) ∧
      (∀ a p, Reachable t.mem t.Root a → (t.mem a).Parent = some p →
        (t.mem p).Priority ≤ (t.mem a).Priority) ∧
      (∀ ρ, t.Root = some ρ → (t.mem ρ).Parent = none) ∧
      (∀ n c, Reachable t.mem t.Root n → Reachable t.mem t.Root c →
        (IsChild t.mem n c ↔ (t.mem c).Parent = some n)) :=
  ⟨by decide, by decide, by decide,
    invariants_after_each_insert _ (by decide) (by decide) (by decide) 4⟩

/-- Claim C18: for two orderings of the same (key, priority) pairs, with pairwise
distinct keys whose differences fit Go's `int` and pairwise distinct priorities
drawn by `rnd.Intn`, inserting the pairs in either order into an empty tree
succeeds and yields the same tree of pairs: the same root pair and, recursively,
the same left and right subtrees. -/
theorem shape_independent_of_insertion_order (kps1 kps2 : List (Int × Int))
    (hperm : kps1.Perm kps2)
    (hkeys : (kps1.map Prod.fst).Nodup) (hfit : DiffsFit (kps1.map Prod.fst))
    (hprio : ∀ kp ∈ kps1, validPriority kp.2) (hpd : (kps1.map Prod.snd).Nodup) :
    ∃ T, treeAfter kps1 = .ok T ∧ treeAfter kps2 = .ok T := by
  have hkeys2 : (kps2.map Prod.fst).Nodup := (hperm.map _).nodup_iff.mp hkeys
  have hfit2 : DiffsFit (kps2.map Prod.fst) := fun a ha b hb =>
    hfit a ((hperm.map _).mem_iff.mpr ha) b ((hperm.map _).mem_iff.mpr hb)
  have hprio2 : ∀ kp ∈ kps2, validPriority kp.2 := fun kp h => hprio kp (hperm.mem_iff.mpr h)
  obtain ⟨T1, he1, hp1, hs1, ho1⟩ := treeAfter_spec kps1 hkeys hfit hprio
  obtain ⟨T2, he2, hp2, hs2, ho2⟩ := treeAfter_spec kps2 hkeys2 hfit2 hprio2
  have hanti : IsAntisymm (Int × Int) (fun x y => x.1 < y.1) :=
    ⟨fun a b h1 h2 => absurd h1 (not_lt_of_lt h2)⟩
  have heq : T1.inorder = T2.inorder :=
    List.eq_of_perm_of_sorted (hp1.trans (hperm.trans hp2.symm)) hs1 hs2
  have hnd : (T1.inorder.map Prod.snd).Nodup := (hp1.map _).nodup_iff.mpr hpd
  have hT : T1 = T2 := heapOrdered_unique T1 T2 heq hnd ho1 ho2
  exact ⟨T1, he1, hT ▸ he2⟩

/-- Claim C18 at a concrete input: the pairs (5, 1), (3, 2), (8, 0) inserted in that
order and in the order (8, 0), (5, 1), (3, 2). -/
theorem shape_independent_of_insertion_order_witness :
    ([((5 : Int), (1 : Int)), (3, 2), (8, 0)]).Perm [(8, 0), (5, 1), (3, 2)] ∧
    ([((5 : Int), (1 : Int)), (3, 2), (8, 0)].map Prod.fst).Nodup ∧
    DiffsFit ([((5 : Int), (1 : Int)), (3, 2), (8, 0)].map Prod.fst) ∧
    (∀ kp ∈ [((5 : Int), (1 : Int)), (3, 2), (8, 0)], validPriority kp.2) ∧
    ([((5 : Int), (1 : Int)), (3, 2), (8, 0)].map Prod.snd).Nodup ∧
    ∃ T, treeAfter [(5, 1), (3, 2), (8, 0)] = .ok T ∧
      treeAfter [(8, 0), (5, 1), (3, 2)] = .ok T :=
  ⟨by decide, by decide, by decide, by decide, by decide,
    shape_independent_of_insertion_order _ _ (by decide) (by decide) (by decide) (by decide)
      (by decide)⟩

/-- Claim C14, evaluated on a failing input: the tree built by inserting the keys 1, -1
and -9223372036854775807 with drawn priorities 1, 2, 0 is laid out with search order
and consistent back-references; its root is node 2, node 0 (key 1) is the `Right`
child of the root and has the `Left` child node 1. `rightRotate` at node 0 stores
node 1 in the `Left` slot of the root and leaves the `Right` slot of the root
pointing at node 0, whose `Parent` is now node 1: node 1 does not occupy the former
slot of node 0, and the root no longer lays out a tree. `Insert` reaches the same
rotation: with the priorities 2, 3, 1 for these keys, inserting the key 0 with
priority 0 rotates node 0 under the root and the traversal is no longer sorted. -/
theorem rightRotate_takes_wrong_slot_on_overflow :
    ∃ t m, insertAll NewTree [(1, 1), (-1, 2), (-9223372036854775807, 0)] = .ok t ∧
      t.Root = some 2 ∧
      Owns t.mem (.node .nil 2 (.node (.node .nil 1 .nil) 0 .nil)) t.Root none ∧
      SearchOrder t.mem (.node .nil 2 (.node (.node .nil 1 .nil) 0 .nil)) ∧
      (t.mem 0).Left = some 1 ∧ (t.mem 0).Parent = some 2 ∧
      (t.mem 2).Left = none ∧ (t.mem 2).Right = some 0 ∧
      rightRotate t.mem 0 = .ok m ∧
      (m 2).Left = some 1 ∧ (m 2).Right = some 0 ∧ (m 0).Parent = some 1 ∧
      (¬ ∃ s, Owns m s (some 2) none) ∧
      traversalKeys [(1, 2), (-1, 3), (-9223372036854775807, 1), (0, 0)] =
        .ok [-1, 0, 1, -9223372036854775807, 1] := by
  refine ⟨_, _, rfl, rfl, ⟨rfl, rfl, rfl, rfl, rfl, ⟨rfl, rfl, rfl, rfl⟩, rfl⟩, ?_,
    rfl, rfl, rfl, rfl, rfl, rfl, rfl, rfl, ?_, rfl⟩
  · simp only [SearchOrder, Shape.inorder]
    decide
  · rintro ⟨s, hs⟩
    cases s with
    | nil => exact absurd hs (by simp [Owns])
    | node l a r =>
      obtain ⟨ha, -, -, hr⟩ := hs
      cases ha
      cases r with
      | nil =>
        simp only [Owns] at hr
        exact absurd hr (by decide)
      | node rl b rr =>
        obtain ⟨hb, hp, -, -⟩ := hr
        cases hb
        exact absurd hp (by decide)

/-- Claim C15, counterexample: the tree built by inserting the key 7 twice with drawn
priorities 3 and 5 is laid out with search order and consistent back-references;
its root is node 0 and the `Right` child of the root is node 1, with the same key.
`leftRotate` at node 0 succeeds and leaves node 1 as the root with node 0 as its
`Left` child, so the left subtree of the new root holds a key that is not strictly
less than the key of the root: the tree laid out at node 1 is not search-ordered. -/
theorem leftRotate_equal_keys_breaks_order :
    ∃ t m, insertAll NewTree [(7, 3), (7, 5)] = .ok t ∧ t.Root = some 0 ∧
      Owns t.mem (.node .nil 0 (.node .nil 1 .nil)) t.Root none ∧
      SearchOrder t.mem (.node .nil 0 (.node .nil 1 .nil)) ∧
      (t.mem 0).Right = some 1 ∧
      leftRotate t.mem 0 = .ok m ∧
      Owns m (.node (.node .nil 0 .nil) 1 .nil) (some 1) none ∧
      (m 0).Value = 7 ∧ (m 1).Value = 7 ∧
      ¬ ∃ s, Owns m s (some 1) none ∧ SearchOrder m s := by
  refine ⟨_, _, rfl, rfl, ⟨rfl, rfl, rfl, rfl, rfl, rfl, rfl⟩, ?_, rfl, rfl,
    ⟨rfl, rfl, ⟨rfl, rfl, rfl, rfl⟩, rfl⟩, rfl, rfl, ?_⟩
  · simp only [SearchOrder, Shape.inorder]
    decide
  · rintro ⟨s, hs, hord⟩
    have h := Owns_functional s (.node (.node .nil 0 .nil) 1 .nil) _ _ _ hs
      ⟨rfl, rfl, ⟨rfl, rfl, rfl, rfl⟩, rfl⟩
    subst h
    exact absurd (hord.1 0 (by simp [Shape.inorder])) (by decide)

/-- Claim C15 (amended): left rotation keeps the search order when the key of the right
child is strictly greater than the key of the rotated node and the key difference between
the rotated node and its parent fits a machine integer. For every tree laid out with
consistent back-references and search order (left strictly less, right greater or equal),
and every node N in it with `Right` child C such that key(N) < key(C), `leftRotate` at N
succeeds; afterwards C has the former `Parent` of N and sits in the slot of that parent
that held N (C is the root when N was), N is the `Left` child of C, the former `Left`
subtree of C is the `Right` subtree of N, and the result is again a tree laid out with
consistent back-references and search order, with the same in-order key sequence. -/
theorem leftRotate_preserves_order (mem : Nat → Node) (s : Shape) (root : Option Nat)
    (N C : Nat)
    (hown : Owns mem s root none) (hord : SearchOrder mem s)
    (hN : N ∈ s.inorder) (hC : (mem N).Right = some C)
    (hlt : (mem N).Value < (mem C).Value)
    (hfit : ∀ g, (mem N).Parent = some g →
      -9223372036854775808 ≤ (mem N).Value - (mem g).Value ∧
      (mem N).Value - (mem g).Value < 9223372036854775808) :
    ∃ mem1 s1, leftRotate mem N = .ok mem1 ∧
      (mem1 C).Parent = (mem N).Parent ∧
      (∀ g, (mem N).Parent = some g →
        ((mem g).Left = some N → (mem1 g).Left = some C) ∧
        ((mem g).Right = some N → (mem1 g).Right = some C)) ∧
      (mem1 C).Left = some N ∧ (mem1 N).Parent = some C ∧
      (mem1 N).Right = (mem C).Left ∧
      Owns mem1 s1 (if root = some N then some C else root) none ∧
      SearchOrder mem1 s1 ∧
      keysOf mem1 s1.inorder = keysOf mem s.inorder := by
  have hnd := nodup_of_searchOrder s _ _ hown hord
  obtain ⟨fs, nl, r, hs⟩ := shape_decompose s N hN
  subst hs
  obtain ⟨ptr, par, hctx, hsubN, hroot⟩ := Owns_unplug fs _ root hown
  obtain ⟨hptr, hparN, hnl, hr⟩ := hsubN
  subst hptr
  cases r with
  | nil => simp only [Owns] at hr; rw [hr] at hC; cases hC
  | node cl C1 cr =>
    have hC1 : C1 = C := by have := hr.1; rw [hC] at this; exact (Option.some.inj this).symm
    subst hC1
    obtain ⟨_, hparC, hcl, hcr⟩ := hr
    have hord0 := searchOrder_sub fs _ hord
    have hctxAll : OwnsCtx mem (.inR nl N :: fs) (some C1) (mem C1).Parent :=
      ⟨hparC, hC, hnl, hparN ▸ hctx⟩
    have hsub : Owns mem (.node cl C1 cr) (some C1) (mem C1).Parent := ⟨rfl, rfl, hcl, hcr⟩
    have hio : (plug fs (.node nl N (.node cl C1 cr))).inorder =
        ctxBefore fs ++ (nl.inorder ++ N :: (cl.inorder ++ C1 :: cr.inorder)) ++ ctxAfter fs := by
      rw [inorder_plug]; simp [Shape.inorder]
    have hio1 : (plug fs (.node (.node nl N cl) C1 cr)).inorder =
        ctxBefore fs ++ (nl.inorder ++ N :: (cl.inorder ++ C1 :: cr.inorder)) ++ ctxAfter fs := by
      rw [inorder_plug]; simp [Shape.inorder]
    rw [hio] at hnd
    have hNmid : N ∈ nl.inorder ++ N :: (cl.inorder ++ C1 :: cr.inorder) := by simp
    obtain ⟨_, _, hdisj⟩ := nodup_mid hnd
    have hslotL : ∀ g r2 fs2, fs = .inL g r2 :: fs2 →
        compare (mem N).Value (mem g).Value < 0 := by
      intro g r2 fs2 hfs
      subst hfs
      have hpg : (mem N).Parent = some g := by rw [hparN]; exact hctx.1
      have h1 := (searchOrder_sub fs2 _ hord).1 N (by simp [Shape.inorder])
      rw [compare_exact (hfit g hpg)]
      omega
    have hslotR : ∀ l2 g fs2, fs = .inR l2 g :: fs2 →
        ¬ compare (mem N).Value (mem g).Value < 0 := by
      intro l2 g fs2 hfs
      subst hfs
      have hpg : (mem N).Parent = some g := by rw [hparN]; exact hctx.1
      have h1 := (searchOrder_sub fs2 _ hord).2.1 N (by simp [Shape.inorder])
      rw [compare_exact (hfit g hpg)]
      omega
    obtain ⟨mem1, hrot, hV, _, hPC, hctx1, hsub1⟩ :=
      leftRotate_shape hctxAll hsub hnd hslotL hslotR
    have hsub1' := hsub1
    obtain ⟨_, _, hN1, hcr1⟩ := hsub1
    obtain ⟨hCL, hNP, _, hcl1⟩ := hN1
    refine ⟨mem1, plug fs (.node (.node nl N cl) C1 cr), hrot, hPC, ?_, hCL, hNP,
      Owns_ptr_eq hcl hcl1, ?_, ?_, ?_⟩
    · intro g hg
      cases fs with
      | nil =>
        have : par = none := hctx
        rw [hparN, this] at hg; cases hg
      | cons f fs2 =>
        cases f with
        | inL g1 r2 =>
          obtain ⟨e1, _, hr2, _⟩ := hctx
          rw [hparN, e1] at hg; cases hg
          refine ⟨fun _ => hctx1.2.1, fun h => ?_⟩
          have hm := (Owns_root hr2 h).1
          exact absurd (by simp [ctxAfter, hm]) (hdisj N hNmid)
        | inR l2 g1 =>
          obtain ⟨e1, _, hl2, _⟩ := hctx
          rw [hparN, e1] at hg; cases hg
          refine ⟨fun h => ?_, fun _ => hctx1.2.1⟩
          have hm := (Owns_root hl2 h).1
          exact absurd (by simp [ctxBefore, hm]) (hdisj N hNmid)
    · have hplug := Owns_plug fs (.node (.node nl N cl) C1 cr) _ _ hctx1 hsub1'
      cases fs with
      | nil =>
        simp only [ctxTop] at hroot hplug
        simpa [hroot] using hplug
      | cons f fs2 =>
        have hne : root ≠ some N := by
          intro h
          have h0 := (Owns_root hown h).2
          have : par = some f.addr := by
            cases f with
            | inL g1 r2 => exact hctx.1
            | inR l2 g1 => exact hctx.1
          rw [hparN, this] at h0; cases h0
        have : ctxTop (f :: fs2) (some C1) = root := by rw [hroot]; rfl
        rw [this] at hplug
        simpa [hne] using hplug
    · refine searchOrder_congr hV _ ?_
      refine searchOrder_replace fs _ _ (by simp [Shape.inorder]) hord ?_
      obtain ⟨a1, a2, a3, ⟨b1, b2, b3, b4⟩⟩ := hord0
      refine ⟨?_, b2, ⟨a1, ?_, a3, b3⟩, b4⟩
      · intro x hx
        simp only [Shape.inorder, List.mem_append, List.mem_cons] at hx
        rcases hx with hx | rfl | hx
        · exact lt_trans (a1 x hx) hlt
        · exact hlt
        · exact b1 x hx
      · intro x hx
        exact a2 x (by simp [Shape.inorder, hx])
    · unfold keysOf
      rw [hio1, ← hio]
      exact List.map_congr_left (fun a _ => hV a)

/-- Claim C15 (amended), applied to the chain of the keys 3, 5, 8 (node 0 is the root, node 1
its `Right` child, node 2 the `Right` child of node 1): the rotation at node 1, whose key
differs from the key of its parent by 2, puts node 2 into the `Right` slot of the root. -/
theorem leftRotate_preserves_order_witness :
    (Owns (chainHeap 3 5 8) (.node .nil 0 (.node .nil 1 (.node .nil 2 .nil))) (some 0) none ∧
      SearchOrder (chainHeap 3 5 8) (.node .nil 0 (.node .nil 1 (.node .nil 2 .nil))) ∧
      1 ∈ (Shape.node .nil 0 (.node .nil 1 (.node .nil 2 .nil))).inorder ∧
      (chainHeap 3 5 8 1).Right = some 2 ∧
      (chainHeap 3 5 8 1).Value < (chainHeap 3 5 8 2).Value ∧
      (chainHeap 3 5 8 1).Parent = some 0 ∧
      (chainHeap 3 5 8 1).Value - (chainHeap 3 5 8 0).Value = 2) ∧
    ∃ mem1 s1, leftRotate (chainHeap 3 5 8) 1 = .ok mem1 ∧
      (mem1 2).Parent = (chainHeap 3 5 8 1).Parent ∧
      (∀ g, (chainHeap 3 5 8 1).Parent = some g →
        ((chainHeap 3 5 8 g).Left = some 1 → (mem1 g).Left = some 2) ∧
        ((chainHeap 3 5 8 g).Right = some 1 → (mem1 g).Right = some 2)) ∧
      (mem1 2).Left = some 1 ∧ (mem1 1).Parent = some 2 ∧
      (mem1 1).Right = (chainHeap 3 5 8 2).Left ∧
      Owns mem1 s1 (if some 0 = some 1 then some 2 else some 0) none ∧
      SearchOrder mem1 s1 ∧
      keysOf mem1 s1.inorder =
        keysOf (chainHeap 3 5 8) (Shape.node .nil 0 (.node .nil 1 (.node .nil 2 .nil))).inorder :=
  have hown :
      Owns (chainHeap 3 5 8) (.node .nil 0 (.node .nil 1 (.node .nil 2 .nil))) (some 0) none :=
    ⟨rfl, rfl, rfl, rfl, rfl, rfl, rfl, rfl, rfl, rfl⟩
  have hord : SearchOrder (chainHeap 3 5 8) (.node .nil 0 (.node .nil 1 (.node .nil 2 .nil))) := by
    simp only [SearchOrder, Shape.inorder]
    decide
  have hN : 1 ∈ (Shape.node .nil 0 (.node .nil 1 (.node .nil 2 .nil))).inorder := by
    simp [Shape.inorder]
  ⟨⟨hown, hord, hN, rfl, by decide, rfl, by decide⟩,
    leftRotate_preserves_order (chainHeap 3 5 8) _ (some 0) 1 2 hown hord hN rfl (by decide)
      (fun g hg => by
        obtain rfl : 0 = g := Option.some.inj hg
        decide)⟩

end Treap
